import Mathlib

/-! QM: geometric kernel, B-spline surface evaluator and quad quality metric.

A shallow embedding of `QM.cpp` (Q-Morph style quad mesher).

Modelling conventions.

* `double` is modelled by exact arithmetic.  Every function that only uses
  `+ - * /` and comparisons is written over an arbitrary linearly ordered field
  `K`, so it can be run over `ℚ`; the functions that call `sqrt` or `acos`
  (`length`, `normalize`, `distance`, `project`, `angle`, `inside`, the quality)
  are written over `ℝ`.
* The source declares `Point` and `Vector` as two structs with the same three
  fields, each with the constructor `(double x = 0, double y = 0, double z = 0)`
  and with no conversion from one to the other, yet it initialises vectors from
  differences of points (`Vector v1 = p2 - p1;`) and multiplies vectors with
  points and planes (`n * (q - a)`, `v ^ f.pl`).  Here `Vector` is an
  abbreviation of `Point`, and those expressions are read as the vector
  operations their comments name.  Where an expression is well-typed as written
  and overload resolution gives it a meaning of its own, the embedding follows
  the overload: that is `n * d` in `project`.
* An out-of-range `operator[]` on a `std::vector` is undefined behaviour; the
  functions that index return `Option` and yield `none` there.
-/

namespace QM

/-! ## Geometric primitives -/

/-- Point of three-dimensional space (`struct Point`). -/
@[ext]
structure Point (K : Type) where
  x : K
  y : K
  z : K
deriving DecidableEq

/-- Vector of three-dimensional space (`struct Vector`): same fields as `Point`. -/
abbrev Vector (K : Type) := Point K

/-- Plane `a*x + b*y + c*z + d = 0` (`struct Plane`). -/
@[ext]
structure Plane (K : Type) where
  a : K
  b : K
  c : K
  d : K
deriving DecidableEq

section Field

variable {K : Type} [LinearOrderedField K]

/-- `operator+(Point, Point)`. -/
def Point.add (p1 p2 : Point K) : Point K :=
  ⟨p1.x + p2.x, p1.y + p2.y, p1.z + p2.z⟩

/-- `operator-(Point, Point)`. -/
def Point.sub (p1 p2 : Point K) : Point K :=
  ⟨p1.x - p2.x, p1.y - p2.y, p1.z - p2.z⟩

/-- `operator*(Point, double)`. -/
def Point.scale (p : Point K) (k : K) : Point K :=
  ⟨p.x * k, p.y * k, p.z * k⟩

/-- `operator/(Point, double)`. -/
def Point.divide (p : Point K) (k : K) : Point K :=
  ⟨p.x / k, p.y / k, p.z / k⟩

/-- Unary minus of a vector, as used in `-n * p1`. -/
def Vector.neg (v : Vector K) : Vector K :=
  ⟨-v.x, -v.y, -v.z⟩

/-- `operator*(Vector, Vector)`: scalar product. -/
def Vector.dot (v1 v2 : Vector K) : K :=
  v1.x * v2.x + v1.y * v2.y + v1.z * v2.z

/-- `operator^(Vector, Vector)`: vector product. -/
def Vector.cross (v1 v2 : Vector K) : Vector K :=
  ⟨v1.y * v2.z - v1.z * v2.y,
   v1.z * v2.x - v1.x * v2.z,
   v1.x * v2.y - v1.y * v2.x⟩

/-- The normal `(a, b, c)` of a plane, read as a vector (the source writes
`v ^ f.pl` for the product of `v` with the normal of the plane). -/
def Plane.normal (pl : Plane K) : Vector K :=
  ⟨pl.a, pl.b, pl.c⟩

/-- Left-hand side `a*x + b*y + c*z + d` of the plane equation at a point. -/
def Plane.eval (pl : Plane K) (p : Point K) : K :=
  pl.a * p.x + pl.b * p.y + pl.c * p.z + pl.d

/-- The plane computation shared, line for line, by the constructors of
`Triangle`, `Quad` and `Face`: `v1 = p2 - p1`, `v2 = p3 - p1`, `n = v1 ^ v2`,
`pl = (n.x, n.y, n.z, -n * p1)`. -/
def fitPlane (p1 p2 p3 : Point K) : Plane K :=
  let v1 : Vector K := p2.sub p1
  let v2 : Vector K := p3.sub p1
  let n : Vector K := v1.cross v2
  ⟨n.x, n.y, n.z, (Vector.neg n).dot p1⟩

/-- Triangle with its plane (`struct Triangle`). -/
structure Triangle (K : Type) where
  p1 : Point K
  p2 : Point K
  p3 : Point K
  pl : Plane K

/-- Constructor `Triangle(p1, p2, p3)`. -/
def Triangle.make (p1 p2 p3 : Point K) : Triangle K :=
  ⟨p1, p2, p3, fitPlane p1 p2 p3⟩

/-- Edge (`struct Edge`). -/
structure Edge (K : Type) where
  p1 : Point K
  p2 : Point K

/-- Quadrilateral with its plane (`struct Quad`). -/
structure Quad (K : Type) where
  p1 : Point K
  p2 : Point K
  p3 : Point K
  p4 : Point K
  pl : Plane K

/-- Constructor `Quad(p1, p2, p3, p4)`: the plane is fitted to `p1, p2, p3`. -/
def Quad.make (p1 p2 p3 p4 : Point K) : Quad K :=
  ⟨p1, p2, p3, p4, fitPlane p1 p2 p3⟩

/-- Face: a point sequence and a plane (`struct Face`). -/
structure Face (K : Type) where
  points : List (Point K)
  pl : Plane K

/-- Constructor `Face(points)`.  It reads `points[0]`, `points[1]`, `points[2]`
unconditionally, so a sequence of fewer than three points is an out-of-range
read: `none`. -/
def Face.make (points : List (Point K)) : Option (Face K) :=
  match points[0]?, points[1]?, points[2]? with
  | some a, some b, some c => some ⟨points, fitPlane a b c⟩
  | _, _, _ => none

/-- Three points lie on one line `o + t * d`. -/
def Collinear3 (p1 p2 p3 : Point K) : Prop :=
  ∃ (o d : Point K) (t1 t2 t3 : K),
    p1 = o.add (d.scale t1) ∧ p2 = o.add (d.scale t2) ∧ p3 = o.add (d.scale t3)

/-- Orientation test `n * ((b - a) ^ (c - a))`: non-negative when, seen from the
side the vector `n` points to, `c` is on the left of (or on) the line from `a`
to `b`. -/
def orient (n : Vector K) (a b c : Point K) : K :=
  n.dot (Vector.cross (b.sub a) (c.sub a))

/-- The index `(i + 1) % n` that follows `i` in the cyclic order of the points. -/
def Face.next (f : Face K) (i : Fin f.points.length) : Fin f.points.length :=
  ⟨(i.val + 1) % f.points.length, Nat.mod_lt _ (by have := i.isLt; omega)⟩

/-- The points of the face are the vertices, in order, of a convex polygon of
non-zero area lying in the plane of the face: the normal of the plane is not
zero (the first three vertices, to which the plane is fitted, are corners and
not collinear), every vertex satisfies the plane equation, and every vertex is
on the inner side (the left, seen from the side the normal points to) of every
edge.  Both listing directions of a convex polygon satisfy this, since the
normal fitted to the first three vertices turns with the listing direction. -/
def Face.IsConvexPolygon (f : Face K) : Prop :=
  f.pl.normal ≠ ⟨0, 0, 0⟩ ∧
  (∀ p ∈ f.points, f.pl.eval p = 0) ∧
  ∀ (i : Fin f.points.length), ∀ c ∈ f.points,
    0 ≤ orient f.pl.normal (f.points.get i) (f.points.get (f.next i)) c

/-- The point is strictly outside the convex polygon: strictly on the outer side
of the line of at least one edge. -/
def Face.StrictlyOutside (f : Face K) (p : Point K) : Prop :=
  ∃ i : Fin f.points.length,
    orient f.pl.normal (f.points.get i) (f.points.get (f.next i)) p < 0

end Field

/-! ## Metric operations and predicates (over `ℝ`) -/

noncomputable section Metric

/-- `Vector::length`. -/
def Vector.length (v : Vector ℝ) : ℝ :=
  Real.sqrt (v.x * v.x + v.y * v.y + v.z * v.z)

/-- `Vector::normalize`: divides by the length when the length is positive and
leaves the vector alone otherwise. -/
def Vector.normalize (v : Vector ℝ) : Vector ℝ :=
  let l := v.length
  if l > 0 then ⟨v.x / l, v.y / l, v.z / l⟩ else v

/-- `distance(Point, Plane)`. -/
def distance (p : Point ℝ) (pl : Plane ℝ) : ℝ :=
  |pl.a * p.x + pl.b * p.y + pl.c * p.z + pl.d| /
    Real.sqrt (pl.a * pl.a + pl.b * pl.b + pl.c * pl.c)

/-- `project(Point, Plane)`: `n = normalize (a, b, c)`, `d = distance(p, pl)`,
result `p - n * d`.  For the `Vector n` and the `double d` the only `operator*`
that applies is the scalar product `operator*(const Vector&, const Vector&)`,
with `d` converted by the constructor of `Vector` to `(d, 0, 0)`: `n * d` is the
number `n.x * d`.  The subtraction is `operator-(const Point&, const Point&)`
with that number converted by the constructor of `Point` to `(n.x * d, 0, 0)`,
so only the first coordinate of `p` changes. -/
def project (p : Point ℝ) (pl : Plane ℝ) : Point ℝ :=
  let n : Vector ℝ := Vector.normalize ⟨pl.a, pl.b, pl.c⟩
  let d := distance p pl
  p.sub ⟨n.dot ⟨d, 0, 0⟩, 0, 0⟩

/-- `length(Edge)`. -/
def Edge.length (e : Edge ℝ) : ℝ :=
  Vector.length (e.p1.sub e.p2)

/-- `angle(Edge, Edge)`: arccosine of the clamped scalar product of the two
normalized edge vectors. -/
def angle (e1 e2 : Edge ℝ) : ℝ :=
  let v1 : Vector ℝ := Vector.normalize (e1.p2.sub e1.p1)
  let v2 : Vector ℝ := Vector.normalize (e2.p2.sub e2.p1)
  let dot := v1.dot v2
  let dot := max (-1) (min 1 dot)
  Real.arccos dot

/-- `inside(Point, Triangle)`: area-sum test with tolerance `1e-6`. -/
def Triangle.inside (p : Point ℝ) (t : Triangle ℝ) : Bool :=
  let q := project p t.pl
  let s1 := Vector.length (Vector.cross (t.p1.sub q) (t.p2.sub q)) / 2
  let s2 := Vector.length (Vector.cross (t.p2.sub q) (t.p3.sub q)) / 2
  let s3 := Vector.length (Vector.cross (t.p3.sub q) (t.p1.sub q)) / 2
  let s := Vector.length (Vector.cross (t.p1.sub t.p2) (t.p3.sub t.p2)) / 2
  decide (|s1 + s2 + s3 - s| < 1 / 1000000)

/-- `inside(Point, Quad)`: area-sum test with tolerance `1e-6`. -/
def Quad.inside (p : Point ℝ) (q : Quad ℝ) : Bool :=
  let r := project p q.pl
  let s1 := Vector.length (Vector.cross (q.p1.sub r) (q.p2.sub r)) / 2
  let s2 := Vector.length (Vector.cross (q.p2.sub r) (q.p3.sub r)) / 2
  let s3 := Vector.length (Vector.cross (q.p3.sub r) (q.p4.sub r)) / 2
  let s4 := Vector.length (Vector.cross (q.p4.sub r) (q.p1.sub r)) / 2
  let s := Vector.length (Vector.cross (q.p1.sub q.p2) (q.p3.sub q.p2)) / 2 +
    Vector.length (Vector.cross (q.p3.sub q.p4) (q.p1.sub q.p4)) / 2
  decide (|s1 + s2 + s3 + s4 - s| < 1 / 1000000)

/-- Body of the loop of `inside(Point, Face)` for the edge from `a` to `b`, with
`q` the projected point: `v = b - a`, `n = normalize (v ^ pl)`,
`dot = n * (q - a)`.  The loop returns `false` when `dot < 0`; `edgeSide` is
`true` when the loop goes on. -/
def edgeSide (q : Point ℝ) (pl : Plane ℝ) (a b : Point ℝ) : Bool :=
  let v : Vector ℝ := b.sub a
  let n : Vector ℝ := Vector.normalize (v.cross pl.normal)
  let dot := n.dot (q.sub a)
  !(decide (dot < 0))

/-- `inside(Point, Face)`: the point is projected on the plane of the face and
tested against the edge from `points[i]` to `points[(i + 1) % n]` for
`i = 0, ..., n - 1`; the first edge with `dot < 0` makes the answer `false`. -/
def Face.inside (p : Point ℝ) (f : Face ℝ) : Bool :=
  let q := project p f.pl
  (List.finRange f.points.length).all fun i =>
    edgeSide q f.pl (f.points.get i) (f.points.get (f.next i))

/-- The unit square `(0,0,0), (1,0,0), (1,1,0), (0,1,0)`. -/
def unitSquare : List (Point ℝ) :=
  [⟨0, 0, 0⟩, ⟨1, 0, 0⟩, ⟨1, 1, 0⟩, ⟨0, 1, 0⟩]

/-- The face the constructor builds on the unit square: its plane is `z = 0`
with normal `(0, 0, 1)`. -/
def unitSquareFace : Face ℝ :=
  ⟨unitSquare, ⟨0, 0, 1, 0⟩⟩

/-- The quality formula written out at every place `generate_mesh` computes a
quality: `min(a1, min(a2, min(a3, a4))) / max(a1, max(a2, max(a3, a4)))`. -/
def qualityOfAngles (a1 a2 a3 a4 : ℝ) : ℝ :=
  min a1 (min a2 (min a3 a4)) / max a1 (max a2 (max a3 a4))

/-- `a1 = angle(e1, e4)` of the quad `p1 p2 p3 p4`, with `e1 = (p1, p2)` and
`e4 = (p4, p1)`. -/
def quadAngle1 (p1 p2 _p3 p4 : Point ℝ) : ℝ := angle ⟨p1, p2⟩ ⟨p4, p1⟩

/-- `a2 = angle(e2, e1)`, with `e2 = (p2, p3)` and `e1 = (p1, p2)`. -/
def quadAngle2 (p1 p2 p3 _p4 : Point ℝ) : ℝ := angle ⟨p2, p3⟩ ⟨p1, p2⟩

/-- `a3 = angle(e3, e2)`, with `e3 = (p3, p4)` and `e2 = (p2, p3)`. -/
def quadAngle3 (_p1 p2 p3 p4 : Point ℝ) : ℝ := angle ⟨p3, p4⟩ ⟨p2, p3⟩

/-- `a4 = angle(e4, e3)`, with `e4 = (p4, p1)` and `e3 = (p3, p4)`. -/
def quadAngle4 (p1 _p2 p3 p4 : Point ℝ) : ℝ := angle ⟨p4, p1⟩ ⟨p3, p4⟩

/-- The quality `q` that the initialisation loop of `generate_mesh` computes for
the quad `p1 p2 p3 p4`. -/
def quadQuality (p1 p2 p3 p4 : Point ℝ) : ℝ :=
  qualityOfAngles (quadAngle1 p1 p2 p3 p4) (quadAngle2 p1 p2 p3 p4)
    (quadAngle3 p1 p2 p3 p4) (quadAngle4 p1 p2 p3 p4)

/-- Interior angle at the vertex `v` of a polygon, in the words of the
specification: the angle between the two edges leaving `v`, towards the next
vertex `b` and towards the previous vertex `a`. -/
def interiorAngle (v b a : Point ℝ) : ℝ := angle ⟨v, b⟩ ⟨v, a⟩

/-- Quality in the words of the specification: the smallest interior angle of
the quad over the largest one. -/
def interiorQuality (p1 p2 p3 p4 : Point ℝ) : ℝ :=
  qualityOfAngles (interiorAngle p1 p2 p4) (interiorAngle p2 p3 p1)
    (interiorAngle p3 p4 p2) (interiorAngle p4 p1 p3)

end Metric

/-! ## B-spline surface evaluator -/

section Evaluator

variable {K : Type} [LinearOrderedField K]

/-- `l[z]` for a C++ `int` index `z`: `none` when `z` is negative or not below
the size of the vector. -/
def getInt {α : Type} (l : List α) (z : Int) : Option α :=
  if z < 0 then none else l[z.toNat]?

/-- `q[a][b]` for `int` indices. -/
def getGrid (q : List (List (Point K))) (a b : Int) : Option (Point K) :=
  (getInt q a).bind fun row => getInt row b

/-- `q[a][b] = x`: `none` when `a` or `b` is out of range. -/
def setGrid (q : List (List (Point K))) (a b : Nat) (x : Point K) :
    Option (List (List (Point K))) :=
  match q[a]? with
  | none => none
  | some row => if b < row.length then some (q.set a (row.set b x)) else none

/-- The loop `while (i < n1 - 1 && u[i + 1] <= u0) i++;` entered with the
counter `i` and with `rest` the knots `u[i + 1], u[i + 2], ...` still ahead:
`rest` is empty exactly when `i < n1 - 1` fails. -/
def spanLoop (u0 : K) : List K → Nat → Nat
  | [], i => i
  | x :: rest, i => if x ≤ u0 then spanLoop u0 rest (i + 1) else i

/-- The span search `int i = 0; while (i < n1 - 1 && u[i + 1] <= u0) i++;`. -/
def findSpan (u : List K) (u0 : K) : Nat :=
  spanLoop u0 u.tail 0

/-- Body of the innermost loop of the first recurrence:
`alpha = (v0 - v[c]) / (v[c + k2 - a + 1] - v[c]);`
`q[a][b] = q[a - 1][b] * (1 - alpha) + q[a - 1][b - 1] * alpha;`. -/
def stepV (v : List K) (v0 : K) (k2 : Nat) (a b : Nat) (q : List (List (Point K)))
    (c : Int) : Option (List (List (Point K))) := do
  let vc ← getInt v c
  let vd ← getInt v (c + k2 - a + 1)
  let alpha := (v0 - vc) / (vd - vc)
  let x ← getGrid q (a - 1 : Int) b
  let y ← getGrid q (a - 1 : Int) (b - 1 : Int)
  setGrid q a b ((x.scale (1 - alpha)).add (y.scale alpha))

/-- Body of the innermost loop of the second recurrence:
`beta = (u0 - u[c]) / (u[c + k1 - b + 1] - u[c]);`
`q[a][b] = q[a][b - 1] * (1 - beta) + q[a - 1][b - 1] * beta;`. -/
def stepU (u : List K) (u0 : K) (k1 : Nat) (a b : Nat) (q : List (List (Point K)))
    (c : Int) : Option (List (List (Point K))) := do
  let uc ← getInt u c
  let ud ← getInt u (c + k1 - b + 1)
  let beta := (u0 - uc) / (ud - uc)
  let x ← getGrid q a (b - 1 : Int)
  let y ← getGrid q (a - 1 : Int) (b - 1 : Int)
  setGrid q a b ((x.scale (1 - beta)).add (y.scale beta))

/-- `evaluate_b_spline_surface(p, u, v, k1, k2, u0, v0)`.

* `p[0].size()` is read first: an empty `p` is an out-of-range read.
* `i` and `j` are found by the span search.
* The window `q[a][b] = p[i - k1 + a][j - k2 + b]`, `0 ≤ a ≤ k1`, `0 ≤ b ≤ k2`,
  is copied; an index outside `p` is an out-of-range read.
* First recurrence: `for a = 1 .. k1 + 1`, `for b = k2 downto a`,
  `for c = j - k2 + b .. j`, `stepV`.
* Second recurrence: `for b = 1 .. k2 + 1`, `for a = k1 downto b`,
  `for c = i - k1 + a .. i`, `stepU`.
* The result is `q[k1][k2]`.

The degrees are natural numbers.  A zero denominator in `alpha` or `beta` is
`inf` or `NaN` in the source and `0` here; none occurs at the inputs of the
theorems below. -/
def evaluate_b_spline_surface (p : List (List (Point K))) (u v : List K) (k1 k2 : Nat)
    (u0 v0 : K) : Option (Point K) := do
  let _ ← p[0]?
  let i : Int := findSpan u u0
  let j : Int := findSpan v v0
  let q ← (List.range (k1 + 1)).mapM' fun a : Nat =>
    (List.range (k2 + 1)).mapM' fun b : Nat => getGrid p (i - k1 + a) (j - k2 + b)
  let q ← ((List.range (k1 + 1)).map (· + 1)).foldlM (fun q a =>
    ((List.range (k2 + 1 - a)).map (k2 - ·)).foldlM (fun q b =>
      ((List.range (k2 - b + 1)).map fun t : Nat => j - k2 + b + t).foldlM
        (stepV v v0 k2 a b) q) q) q
  let q ← ((List.range (k2 + 1)).map (· + 1)).foldlM (fun q b =>
    ((List.range (k1 + 1 - b)).map (k1 - ·)).foldlM (fun q a =>
      ((List.range (k1 - a + 1)).map fun t : Nat => i - k1 + a + t).foldlM
        (stepU u u0 k1 a b) q) q) q
  getGrid q k1 k2

/-- Bilinear interpolation of four control points, in the words of the
specification: `(1-u0)(1-v0) P00 + u0 (1-v0) P10 + (1-u0) v0 P01 + u0 v0 P11`. -/
def bilinear (P00 P01 P10 P11 : Point K) (u0 v0 : K) : Point K :=
  (((P00.scale ((1 - u0) * (1 - v0))).add (P10.scale (u0 * (1 - v0)))).add
    (P01.scale ((1 - u0) * v0))).add (P11.scale (u0 * v0))

end Evaluator

/-! ## Tessellation of a patch (`read_iges`) -/

section Tessellation

variable {K : Type} [LinearOrderedField K]

/-- The sample count `int n = 10;` of `read_iges`. -/
def sampleCount : Nat := 10

/-- The tessellation loop of `read_iges` with `n` samples per direction
(`du = 1.0 / n`, `dv = 1.0 / n`): for `i = 0 .. n - 1`, for `j = 0 .. n - 1`,
the four corners are evaluated at `(i * du, j * dv)`, `((i + 1) * du, j * dv)`,
`((i + 1) * du, (j + 1) * dv)`, `(i * du, (j + 1) * dv)` and appended with
`push_back`, in this order.  The result is the point sequence of the face;
`none` when an evaluation has no defined result.  (The `Quad quad(p1, p2, p3, p4)`
built in the loop is not used.) -/
def tessellatePoints (p : List (List (Point K))) (u v : List K) (k1 k2 : Nat) (n : Nat) :
    Option (List (Point K)) :=
  let du : K := 1 / (n : K)
  let dv : K := 1 / (n : K)
  (List.range n).foldlM (fun (pts : List (Point K)) (i : Nat) =>
    (List.range n).foldlM (fun (pts : List (Point K)) (j : Nat) => do
      let p1 ← evaluate_b_spline_surface p u v k1 k2 ((i : K) * du) ((j : K) * dv)
      let p2 ← evaluate_b_spline_surface p u v k1 k2 (((i + 1 : Nat) : K) * du) ((j : K) * dv)
      let p3 ← evaluate_b_spline_surface p u v k1 k2 (((i + 1 : Nat) : K) * du)
        (((j + 1 : Nat) : K) * dv)
      let p4 ← evaluate_b_spline_surface p u v k1 k2 ((i : K) * du) (((j + 1 : Nat) : K) * dv)
      some (pts ++ [p1, p2, p3, p4])) pts) []

/-- The block of `read_iges` that tessellates one B-spline surface, once the
parameters of the surface have been read: `Face face;` runs the constructor on
the empty point sequence (the default argument), then the tessellation loop
appends the points to `face.points`; the plane is the one the constructor
computed.  In `read_iges` the block stands under a test on the line read (see
`read_iges_loop`). -/
def tessellate (p : List (List (Point K))) (u v : List K) (k1 k2 : Nat) (n : Nat) :
    Option (Face K) := do
  let face ← Face.make ([] : List (Point K))
  let pts ← tessellatePoints p u v k1 k2 n
  some { face with points := pts }

end Tessellation

/-! ## Mesh model and refinement loop (`generate_mesh`) -/

section MeshModel

variable {K : Type} [LinearOrderedField K]

/-- Body: a sequence of faces (`struct Body`). -/
structure Body (K : Type) where
  faces : List (Face K)

/-- The four corners of a quad, as the loop names them (`p1 .. p4` for the popped
quad, `q1 .. q4` for a neighbour). -/
structure Corners (K : Type) where
  p1 : Point K
  p2 : Point K
  p3 : Point K
  p4 : Point K

/-- The four points `points[off], ..., points[off + 3]`; `none` when one of the
four indices is out of range. -/
def getQuad (pts : List (Point K)) (off : Nat) : Option (Corners K) := do
  let p1 ← pts[off]?
  let p2 ← pts[off + 1]?
  let p3 ← pts[off + 2]?
  let p4 ← pts[off + 3]?
  some ⟨p1, p2, p3, p4⟩

/-- The order of `std::pair<double, int>`: first components, then second. -/
def pairLt (x y : K × Nat) : Prop :=
  x.1 < y.1 ∨ (x.1 = y.1 ∧ x.2 < y.2)

instance (x y : K × Nat) : Decidable (pairLt x y) := by
  unfold pairLt
  infer_instance

/-- `pq.top()` of `priority_queue<pair<double, int>>`, whose contents are kept
as a list: the default comparison is `std::less`, so the top is the largest
pair.  `none` for an empty queue. -/
def pqTop : List (K × Nat) → Option (K × Nat)
  | [] => none
  | x :: xs =>
    match pqTop xs with
    | none => some x
    | some y => if pairLt x y then some y else some x

/-- `pq.pop()`: the top pair is removed. -/
def pqPop (pq : List (K × Nat)) : List (K × Nat) :=
  match pqTop pq with
  | none => pq
  | some x => pq.erase x

/-- Convexity classification of the loop: `n_i = e_i ^ face.pl` for the four
edges, `s1 = n1 * n2`, `s2 = n2 * n3`, `s3 = n3 * n4`, `s4 = n4 * n1`;
`convex` when all are `≥ 0`, `concave` when all are `≤ 0`. -/
def classify (pl : Plane K) (c : Corners K) : Bool × Bool :=
  let n1 : Vector K := Vector.cross (c.p2.sub c.p1) pl.normal
  let n2 : Vector K := Vector.cross (c.p3.sub c.p2) pl.normal
  let n3 : Vector K := Vector.cross (c.p4.sub c.p3) pl.normal
  let n4 : Vector K := Vector.cross (c.p1.sub c.p4) pl.normal
  let s1 := n1.dot n2
  let s2 := n2.dot n3
  let s3 := n3.dot n4
  let s4 := n4.dot n1
  (decide (0 ≤ s1) && decide (0 ≤ s2) && decide (0 ≤ s3) && decide (0 ≤ s4),
   decide (s1 ≤ 0) && decide (s2 ≤ 0) && decide (s3 ≤ 0) && decide (s4 ≤ 0))

/-- The relocated corners of the smoothing step: `c = (p1 + p2 + p3 + p4) / 4`,
`p_new = c + (p - c) * 0.5`. -/
def smoothPoints (c : Corners K) : Corners K :=
  let ct : Point K := (((c.p1.add c.p2).add c.p3).add c.p4).divide 4
  ⟨ct.add ((c.p1.sub ct).scale (1 / 2)), ct.add ((c.p2.sub ct).scale (1 / 2)),
   ct.add ((c.p3.sub ct).scale (1 / 2)), ct.add ((c.p4.sub ct).scale (1 / 2))⟩

/-- The four shared-edge tests of the neighbour search, between the popped quad
`p` and the candidate `q`: each compares one side of `p` with the pair
`q1, q4`, in both orders. -/
def sharesEdge (p q : Corners K) : Bool :=
  ((decide (p.p1 = q.p1) && decide (p.p2 = q.p4)) ||
    (decide (p.p1 = q.p4) && decide (p.p2 = q.p1))) ||
  ((decide (p.p2 = q.p1) && decide (p.p3 = q.p4)) ||
    (decide (p.p2 = q.p4) && decide (p.p3 = q.p1))) ||
  ((decide (p.p3 = q.p1) && decide (p.p4 = q.p4)) ||
    (decide (p.p3 = q.p4) && decide (p.p4 = q.p1))) ||
  ((decide (p.p4 = q.p1) && decide (p.p1 = q.p4)) ||
    (decide (p.p4 = q.p4) && decide (p.p1 = q.p1)))

/-- The neighbour search loop over the remaining offsets `m`: a candidate is
skipped when `m != j` fails, read otherwise (an out-of-range read is `none`),
and the first candidate that passes a shared-edge test is returned (`l = m`);
`some none` stands for `l = -1`. -/
def neighbourLoop (pts : List (Point K)) (j : Nat) (p : Corners K) :
    List Nat → Option (Option Nat)
  | [] => some none
  | m :: ms =>
    if m ≠ j then
      match getQuad pts m with
      | none => none
      | some q => if sharesEdge p q then some (some m) else neighbourLoop pts j p ms
    else neighbourLoop pts j p ms

/-- The neighbour search `for (int m = 0; m < face.points.size(); m += 4)`. -/
def findNeighbour (pts : List (Point K)) (j : Nat) (p : Corners K) : Option (Option Nat) :=
  neighbourLoop pts j p ((List.range ((pts.length + 3) / 4)).map (4 * ·))

/-- The vertex exchange of the reconnection step for the popped quad at slot `j`
and the neighbour at offset `l`, as two assignments through references into the
point sequence:
`k = 0`: `p2 = q3; q3 = p1;`  `k = 1`: `p3 = q4; q4 = p2;`
`k = 2`: `p4 = q1; q1 = p3;`  `k = 3`: `p1 = q2; q2 = p4;`. -/
def exchange (k : Nat) (pts : List (Point K)) (j l : Nat) : Option (List (Point K)) :=
  match k with
  | 0 => do
    let x ← pts[l + 2]?
    let pts1 := pts.set (4 * j + 1) x
    let y ← pts1[4 * j]?
    some (pts1.set (l + 2) y)
  | 1 => do
    let x ← pts[l + 3]?
    let pts1 := pts.set (4 * j + 2) x
    let y ← pts1[4 * j + 1]?
    some (pts1.set (l + 3) y)
  | 2 => do
    let x ← pts[l]?
    let pts1 := pts.set (4 * j + 3) x
    let y ← pts1[4 * j + 2]?
    some (pts1.set l y)
  | _ => do
    let x ← pts[l + 1]?
    let pts1 := pts.set (4 * j) x
    let y ← pts1[4 * j + 3]?
    some (pts1.set (l + 1) y)

end MeshModel

noncomputable section Refinement

/-- The quality of the quad with the given corners. -/
def Corners.quality (c : Corners ℝ) : ℝ :=
  quadQuality c.p1 c.p2 c.p3 c.p4

/-- The qualities of the quads of one face, by the loop
`for (int i = 0; i < face.points.size(); i += 4)` of the initialisation; `none`
when the last group has fewer than four points (`points[i + 3]` out of range). -/
def faceQualities : List (Point ℝ) → Option (List ℝ)
  | [] => some []
  | p1 :: p2 :: p3 :: p4 :: rest =>
    (faceQualities rest).map fun qs => quadQuality p1 p2 p3 p4 :: qs
  | _ => none

/-- The vector `quality` after the initialisation (faces in order, quads in
order within a face). -/
def initialQuality (body : Body ℝ) : Option (List ℝ) :=
  (body.faces.mapM' fun f => faceQualities f.points).map List.flatten

/-- The queue after `for (int i = 0; i < quality.size(); i++) pq.push({quality[i], i})`. -/
def initialQueue (quality : List ℝ) : List (ℝ × Nat) :=
  quality.zip (List.range quality.length)

/-- State of the refinement loop: the body, the contents of the priority queue,
and the four variables `a1 .. a4`.  The loop reads and assigns `a1 .. a4`
without declaring them (the declarations of the initialisation are local to its
loop body), so they are state whose value at loop entry is not fixed by the
source. -/
structure MeshState where
  body : Body ℝ
  pq : List (ℝ × Nat)
  a1 : ℝ
  a2 : ℝ
  a3 : ℝ
  a4 : ℝ

/-- `double threshold = 0.8;`. -/
def threshold : ℝ := 4 / 5

/-- The loop condition `!pq.empty() && pq.top().first < threshold`. -/
def loopCond (s : MeshState) : Bool :=
  match pqTop s.pq with
  | none => false
  | some x => decide (x.1 < threshold)

/-- The validity flag of the smoothing step: every relocated corner is inside
every face of the body. -/
def smoothValid (body : Body ℝ) (c : Corners ℝ) : Bool :=
  body.faces.all fun f =>
    Face.inside c.p1 f && Face.inside c.p2 f && Face.inside c.p3 f && Face.inside c.p4 f

/-- The point sequence with the four corners of slot `j` overwritten. -/
def setQuad (pts : List (Point ℝ)) (j : Nat) (c : Corners ℝ) : List (Point ℝ) :=
  (((pts.set (4 * j) c.p1).set (4 * j + 1) c.p2).set (4 * j + 2) c.p3).set (4 * j + 3) c.p4

/-- The body with the point sequence of face `f` replaced. -/
def Body.setPoints (body : Body ℝ) (f : Nat) (face : Face ℝ) (pts : List (Point ℝ)) :
    Body ℝ :=
  ⟨body.faces.set f { face with points := pts }⟩

/-- The smoothing branch (`if (convex)`) for the popped entry `(q, i)` resolved
to face `f`, slot `j`: when the relocated corners are valid they overwrite the
corners, `q_new` is computed from `a1 .. a4` and `(q_new, i)` is pushed when
`q_new > q`. -/
def smoothingBranch (s : MeshState) (q : ℝ) (i f j : Nat) : Option MeshState := do
  let face ← s.body.faces[f]?
  let c ← getQuad face.points (4 * j)
  let cn := smoothPoints c
  if smoothValid s.body cn then
    let q_new := qualityOfAngles s.a1 s.a2 s.a3 s.a4
    some { s with
      body := s.body.setPoints f face (setQuad face.points j cn)
      pq := if q_new > q then (q_new, i) :: s.pq else s.pq }
  else some s

/-- The index `k` of the smallest of `a1 .. a4` and its value `a_min`, by the
three comparisons `if (a2 < a_min)`, `if (a3 < a_min)`, `if (a4 < a_min)`. -/
def minAngle (a1 a2 a3 a4 : ℝ) : Nat × ℝ :=
  let r0 : Nat × ℝ := (0, a1)
  let r1 : Nat × ℝ := if a2 < r0.2 then (1, a2) else r0
  let r2 : Nat × ℝ := if a3 < r1.2 then (2, a3) else r1
  if a4 < r2.2 then (3, a4) else r2

/-- The part of a reconnection case after the exchange, the same text in cases
0, 1 and 2: `a1 .. a4` and `b1 .. b4` are recomputed from the corners, `q_new`
and `r_new` from these, `(q_new, i)` is pushed when `q_new > q` and `(r_new, l)`
when `r_new > r`. -/
def requeue (s : MeshState) (q r : ℝ) (i f j l : Nat) (face : Face ℝ)
    (pts : List (Point ℝ)) : Option MeshState := do
  let p ← getQuad pts (4 * j)
  let n ← getQuad pts l
  let q_new := p.quality
  let r_new := n.quality
  let pq1 := if q_new > q then (q_new, i) :: s.pq else s.pq
  let pq2 := if r_new > r then (r_new, l) :: pq1 else pq1
  some { body := s.body.setPoints f face pts, pq := pq2,
         a1 := quadAngle1 p.p1 p.p2 p.p3 p.p4, a2 := quadAngle2 p.p1 p.p2 p.p3 p.p4,
         a3 := quadAngle3 p.p1 p.p2 p.p3 p.p4, a4 := quadAngle4 p.p1 p.p2 p.p3 p.p4 }

/-- Modelled from the spec: the rest of `case 3` of the switch, where the source
text stops after `p1 = q2; q2 = p4;`.  Section 4.3, step 4: "recompute both
quads' qualities, and requeue each one whose quality improved", which is what
cases 0, 1 and 2 do. -/
def requeueCase3 (s : MeshState) (q r : ℝ) (i f j l : Nat) (face : Face ℝ)
    (pts : List (Point ℝ)) : Option MeshState :=
  requeue s q r i f j l face pts

/-- The neighbour angle sum of the swap condition: `min(b2, b3)` for `k = 0`,
`min(b3, b4)` for `k = 1`, `min(b4, b1)` for `k = 2`, `min(b1, b2)` for `k = 3`. -/
def swapAngle (k : Nat) (n : Corners ℝ) : ℝ :=
  let b1 := quadAngle1 n.p1 n.p2 n.p3 n.p4
  let b2 := quadAngle2 n.p1 n.p2 n.p3 n.p4
  let b3 := quadAngle3 n.p1 n.p2 n.p3 n.p4
  let b4 := quadAngle4 n.p1 n.p2 n.p3 n.p4
  match k with
  | 0 => min b2 b3
  | 1 => min b3 b4
  | 2 => min b4 b1
  | _ => min b1 b2

/-- The reconnection branch (`if (concave)`) for the popped entry `(q, i)`
resolved to face `f`, slot `j`: `k` and `a_min` from `a1 .. a4`, the neighbour
search in the same face, and when a neighbour `l` is found and
`a_min + min(..) < M_PI`, the exchange followed by the recomputation and the
pushes. -/
def reconnectionBranch (s : MeshState) (q : ℝ) (i f j : Nat) : Option MeshState := do
  let face ← s.body.faces[f]?
  let p ← getQuad face.points (4 * j)
  let km := minAngle s.a1 s.a2 s.a3 s.a4
  let found ← findNeighbour face.points j p
  match found with
  | none => some s
  | some l =>
    let n ← getQuad face.points l
    let r := n.quality
    if km.2 + swapAngle km.1 n < Real.pi then
      let pts ← exchange km.1 face.points j l
      if km.1 = 3 then requeueCase3 s q r i f j l face pts
      else requeue s q r i f j l face pts
    else some s

/-- One iteration of the loop body, entered with a non-empty queue: the top
`(q, i)` is popped, `f = i / (body.faces[0].points.size() / 4)` and
`j = i % (body.faces[0].points.size() / 4)` (a zero divisor is undefined), the
corners are bound to `face.points[j * 4 .. j * 4 + 3]` of `body.faces[f]` (out of
range is undefined), the quad is classified, and the smoothing and the
reconnection branch run in this order. -/
def step (s : MeshState) : Option MeshState := do
  let top ← pqTop s.pq
  let s0 : MeshState := { s with pq := pqPop s.pq }
  let face0 ← s.body.faces[0]?
  let nq := face0.points.length / 4
  if nq = 0 then none
  else
    let f := top.2 / nq
    let j := top.2 % nq
    let face ← s.body.faces[f]?
    let c ← getQuad face.points (4 * j)
    let cls := classify face.pl c
    let s1 ← if cls.1 then smoothingBranch s0 top.1 top.2 f j else some s0
    if cls.2 then reconnectionBranch s1 top.1 top.2 f j else some s1

/-- How a run of the loop ends. -/
inductive Outcome where
  | finished (s : MeshState) (iterations : Nat)
  | undefined (iterations : Nat)
  | outOfFuel

/-- The loop `while (!pq.empty() && pq.top().first < threshold)` run for at most
`fuel` iterations, counting the iterations done. -/
def refineLoop : Nat → MeshState → Nat → Outcome
  | 0, s, n => if loopCond s then Outcome.outOfFuel else Outcome.finished s n
  | fuel + 1, s, n =>
    if loopCond s then
      match step s with
      | none => Outcome.undefined n
      | some s' => refineLoop fuel s' (n + 1)
    else Outcome.finished s n

/-- `generate_mesh(body)`: the initialisation followed by the loop, with the
values of `a1 .. a4` at loop entry as parameters. -/
def generate_mesh (fuel : Nat) (body : Body ℝ) (a1 a2 a3 a4 : ℝ) : Outcome :=
  match initialQuality body with
  | none => Outcome.undefined 0
  | some quality => refineLoop fuel ⟨body, initialQueue quality, a1, a2, a3, a4⟩ 0

/-- The quality of the quad at offset `off` of face `f` of a body. -/
def Body.qualityAt (body : Body ℝ) (f off : Nat) : Option ℝ := do
  let face ← body.faces[f]?
  let c ← getQuad face.points off
  some c.quality

/-- What the loop never changes of a face: the number of points and the plane. -/
def Face.shape (f : Face ℝ) : Nat × Plane ℝ :=
  (f.points.length, f.pl)

end Refinement

noncomputable section Examples

/-- A body with one planar face (plane `z = 0`) holding a 2 x 2 grid of unit
squares, in the order of the tessellation (slot `i * 2 + j`). -/
def gridBody : Body ℝ :=
  ⟨[⟨[⟨0, 0, 0⟩, ⟨1, 0, 0⟩, ⟨1, 1, 0⟩, ⟨0, 1, 0⟩,
      ⟨0, 1, 0⟩, ⟨1, 1, 0⟩, ⟨1, 2, 0⟩, ⟨0, 2, 0⟩,
      ⟨1, 0, 0⟩, ⟨2, 0, 0⟩, ⟨2, 1, 0⟩, ⟨1, 1, 0⟩,
      ⟨1, 1, 0⟩, ⟨2, 1, 0⟩, ⟨2, 2, 0⟩, ⟨1, 2, 0⟩], ⟨0, 0, 1, 0⟩⟩]⟩

/-- A body with one planar face (plane `z = 0`, the fit of its first three
points) holding two quads: the unit square and the kite
`(0,0,0), (7,0,0), (4,4,0), (0,7,0)`. -/
def kiteBody : Body ℝ :=
  ⟨[⟨[⟨0, 0, 0⟩, ⟨1, 0, 0⟩, ⟨1, 1, 0⟩, ⟨0, 1, 0⟩,
      ⟨0, 0, 0⟩, ⟨7, 0, 0⟩, ⟨4, 4, 0⟩, ⟨0, 7, 0⟩], ⟨0, 0, 1, 0⟩⟩]⟩

end Examples

noncomputable section DegenerateExample

/-- A body with one face holding the quad `(0,0,0), (1,0,0), (2,0,0), (1,1,0)`,
whose first three points are collinear; the plane is the one the constructor
fits to them, `(0, 0, 0, 0)`. -/
def flatBody : Body ℝ :=
  ⟨[⟨[⟨0, 0, 0⟩, ⟨1, 0, 0⟩, ⟨2, 0, 0⟩, ⟨1, 1, 0⟩], ⟨0, 0, 0, 0⟩⟩]⟩

/-- The body `flatBody` after its quad has been moved halfway to its centroid
`(1, 1/4, 0)`. -/
def flatBodySmoothed : Body ℝ :=
  ⟨[⟨[⟨1 / 2, 1 / 8, 0⟩, ⟨1, 1 / 8, 0⟩, ⟨3 / 2, 1 / 8, 0⟩, ⟨1, 5 / 8, 0⟩], ⟨0, 0, 0, 0⟩⟩]⟩

end DegenerateExample

section Smoothing

variable {K : Type} [LinearOrderedField K]

/-- The centroid of the smoothing step: `c = (p1 + p2 + p3 + p4) / 4`. -/
def Corners.centroid (c : Corners K) : Point K :=
  (((c.p1.add c.p2).add c.p3).add c.p4).divide 4

end Smoothing

noncomputable section ParallelogramExample

/-- The parallelogram `(0,0,0), (2,0,0), (3,1,0), (1,1,0)` of the plane `z = 0`. -/
def parallelogram : Corners ℝ :=
  ⟨⟨0, 0, 0⟩, ⟨2, 0, 0⟩, ⟨3, 1, 0⟩, ⟨1, 1, 0⟩⟩

/-- A body with one face holding the parallelogram; the plane is the one the
constructor fits to its first three points, `(0, 0, 2, 0)`. -/
def parallelogramBody : Body ℝ :=
  ⟨[⟨[⟨0, 0, 0⟩, ⟨2, 0, 0⟩, ⟨3, 1, 0⟩, ⟨1, 1, 0⟩], ⟨0, 0, 2, 0⟩⟩]⟩

end ParallelogramExample

/-! ## Mesh writer (`write_neu`) -/

section Writer

variable {K : Type}

/-- What `write_neu` writes, without the fixed header and separator lines: the
two counts of the control line, the lines of the node block (node number and
point) and the lines of the element block (element number and four node
numbers). -/
structure NeuFile (K : Type) where
  numnp : Nat
  nelem : Nat
  nodes : List (Nat × Point K)
  elements : List (Nat × Nat × Nat × Nat × Nat)

/-- The counting loop: `numnp += face.points.size(); nelem += face.points.size() / 4;`,
on the state `(numnp, nelem)`. -/
def countStep (st : Nat × Nat) (face : Face K) : Nat × Nat :=
  (st.1 + face.points.length, st.2 + face.points.length / 4)

/-- Body of the inner loop of the node block, on the state `(lines, node)`: one
line is written and `node++`. -/
def nodeStep (st : List (Nat × Point K) × Nat) (point : Point K) :
    List (Nat × Point K) × Nat :=
  (st.1 ++ [(st.2, point)], st.2 + 1)

/-- Body of the outer loop of the node block. -/
def nodeFace (st : List (Nat × Point K) × Nat) (face : Face K) :
    List (Nat × Point K) × Nat :=
  face.points.foldl nodeStep st

/-- Body of the inner loop of the element block, on the state
`(lines, elem, node)`, for the offset `i`: the line
`elem; node + i, node + i + 1, node + i + 2, node + i + 3` is written and
`elem++`. -/
def elemStep (st : List (Nat × Nat × Nat × Nat × Nat) × Nat × Nat) (i : Nat) :
    List (Nat × Nat × Nat × Nat × Nat) × Nat × Nat :=
  (st.1 ++ [(st.2.1, st.2.2 + i, st.2.2 + i + 1, st.2.2 + i + 2, st.2.2 + i + 3)],
   st.2.1 + 1, st.2.2)

/-- Body of the outer loop of the element block:
`for (int i = 0; i < face.points.size(); i += 4) ...` followed by
`node += face.points.size()`. -/
def elemFace (st : List (Nat × Nat × Nat × Nat × Nat) × Nat × Nat) (face : Face K) :
    List (Nat × Nat × Nat × Nat × Nat) × Nat × Nat :=
  let st1 := ((List.range ((face.points.length + 3) / 4)).map (4 * ·)).foldl elemStep st
  (st1.1, st1.2.1, st1.2.2 + face.points.length)

/-- `write_neu(body, filename)`: the counts start at `0`, the counters `node` and
`elem` at `1`. -/
def write_neu (body : Body K) : NeuFile K :=
  let counts := body.faces.foldl countStep (0, 0)
  { numnp := counts.1
    nelem := counts.2
    nodes := (body.faces.foldl nodeFace ([], 1)).1
    elements := (body.faces.foldl elemFace ([], 1, 1)).1 }

end Writer

section WriterExample

/-- A body with two faces of different sizes: one quad in the first face, two
quads in the second. -/
def unevenBody : Body ℚ :=
  ⟨[⟨[⟨0, 0, 0⟩, ⟨1, 0, 0⟩, ⟨1, 1, 0⟩, ⟨0, 1, 0⟩], ⟨0, 0, 1, 0⟩⟩,
    ⟨[⟨0, 0, 1⟩, ⟨1, 0, 1⟩, ⟨1, 1, 1⟩, ⟨0, 1, 1⟩,
      ⟨1, 0, 1⟩, ⟨2, 0, 1⟩, ⟨2, 1, 1⟩, ⟨1, 1, 1⟩], ⟨0, 0, 1, -1⟩⟩]⟩

end WriterExample

section IndexResolution

variable {K : Type}

/-- The index resolution at the head of the loop body:
`f = i / (body.faces[0].points.size() / 4)`,
`j = i % (body.faces[0].points.size() / 4)`; `none` when there is no face `0` or
the divisor is zero. -/
def resolveIndex (body : Body K) (i : Nat) : Option (Nat × Nat) := do
  let face0 ← body.faces[0]?
  let nq := face0.points.length / 4
  if nq = 0 then none else some (i / nq, i % nq)

end IndexResolution

noncomputable section UnevenExample

/-- A body with two faces of different sizes, one quad in the first face and two
in the second; each quad is the kite `(0,0,0), (7,0,0), (4,4,0), (0,7,0)`, and
the plane is `z = 0`. -/
def unevenKiteBody : Body ℝ :=
  ⟨[⟨[⟨0, 0, 0⟩, ⟨7, 0, 0⟩, ⟨4, 4, 0⟩, ⟨0, 7, 0⟩], ⟨0, 0, 1, 0⟩⟩,
    ⟨[⟨0, 0, 0⟩, ⟨7, 0, 0⟩, ⟨4, 4, 0⟩, ⟨0, 7, 0⟩,
      ⟨0, 0, 0⟩, ⟨7, 0, 0⟩, ⟨4, 4, 0⟩, ⟨0, 7, 0⟩], ⟨0, 0, 1, 0⟩⟩]⟩

end UnevenExample

section AdjacencySpec

variable {K : Type} [LinearOrderedField K]

/-- The four sides of a quad as pairs of end points. -/
def Corners.sides (c : Corners K) : List (Point K × Point K) :=
  [(c.p1, c.p2), (c.p2, c.p3), (c.p3, c.p4), (c.p4, c.p1)]

/-- The two sides of a quad that meet at the vertex of index `k` (`0` for `p1`,
..., `3` for `p4`). -/
def Corners.sidesAt (c : Corners K) (k : Nat) : List (Point K × Point K) :=
  match k with
  | 0 => [(c.p4, c.p1), (c.p1, c.p2)]
  | 1 => [(c.p1, c.p2), (c.p2, c.p3)]
  | 2 => [(c.p2, c.p3), (c.p3, c.p4)]
  | _ => [(c.p3, c.p4), (c.p4, c.p1)]

/-- Adjacency in the words of the specification: the quad `q` has a side that
equals, as an unordered pair of coordinate-equal end points, one of the two
sides of `p` that meet at the vertex of index `k`. -/
def sharesEdgeAtVertex (k : Nat) (p q : Corners K) : Bool :=
  (p.sidesAt k).any fun e => q.sides.any fun g =>
    (decide (e.1 = g.1) && decide (e.2 = g.2)) || (decide (e.1 = g.2) && decide (e.2 = g.1))

end AdjacencySpec

noncomputable section AdjacencyExample

/-- The unit square `A = (0,0,0), (1,0,0), (1,1,0), (0,1,0)`. -/
def squareA : Corners ℝ := ⟨⟨0, 0, 0⟩, ⟨1, 0, 0⟩, ⟨1, 1, 0⟩, ⟨0, 1, 0⟩⟩

/-- The unit square `B = (1,0,0), (2,0,0), (2,1,0), (1,1,0)`, to the right of `A`. -/
def squareB : Corners ℝ := ⟨⟨1, 0, 0⟩, ⟨2, 0, 0⟩, ⟨2, 1, 0⟩, ⟨1, 1, 0⟩⟩

/-- The point sequence of a face holding `A` at slot 0 and `B` at slot 1. -/
def squarePair : List (Point ℝ) :=
  [⟨0, 0, 0⟩, ⟨1, 0, 0⟩, ⟨1, 1, 0⟩, ⟨0, 1, 0⟩, ⟨1, 0, 0⟩, ⟨2, 0, 0⟩, ⟨2, 1, 0⟩, ⟨1, 1, 0⟩]

end AdjacencyExample

noncomputable section ReconnectionExample

/-- The quad `X = (15,-5,0), (3,4,0), (15,4,0), (15,7,0)`, whose consecutive
edge vectors all have non-positive scalar products. -/
def quadX : Corners ℝ := ⟨⟨15, -5, 0⟩, ⟨3, 4, 0⟩, ⟨15, 4, 0⟩, ⟨15, 7, 0⟩⟩

/-- The quad `Y = (3,4,0), (19,16,0), (19,4,0), (15,4,0)`, whose side from `q4`
to `q1` is the side from `p3` to `p2` of `X`. -/
def quadY : Corners ℝ := ⟨⟨3, 4, 0⟩, ⟨19, 16, 0⟩, ⟨19, 4, 0⟩, ⟨15, 4, 0⟩⟩

/-- The quad `X` after the exchange of case 2 (`p4 = q1`). -/
def quadXAfter : Corners ℝ := ⟨⟨15, -5, 0⟩, ⟨3, 4, 0⟩, ⟨15, 4, 0⟩, ⟨3, 4, 0⟩⟩

/-- The quad `Y` after the exchange of case 2 (`q1 = p3`). -/
def quadYAfter : Corners ℝ := ⟨⟨15, 4, 0⟩, ⟨19, 16, 0⟩, ⟨19, 4, 0⟩, ⟨15, 4, 0⟩⟩

/-- The face holding `X` at slot 0 and `Y` at slot 1; its plane is the one the
constructor fits to the first three points, `(0, 0, -108, 0)`. -/
def swapFace : Face ℝ :=
  ⟨[⟨15, -5, 0⟩, ⟨3, 4, 0⟩, ⟨15, 4, 0⟩, ⟨15, 7, 0⟩,
    ⟨3, 4, 0⟩, ⟨19, 16, 0⟩, ⟨19, 4, 0⟩, ⟨15, 4, 0⟩], ⟨0, 0, -108, 0⟩⟩

/-- The body with the single face `swapFace`: two quads, of global indices 0 and
1. -/
def swapBody : Body ℝ := ⟨[swapFace]⟩

/-- The body `swapBody` after the exchange of case 2 between `X` and `Y`. -/
def swapBodyAfter : Body ℝ :=
  ⟨[⟨[⟨15, -5, 0⟩, ⟨3, 4, 0⟩, ⟨15, 4, 0⟩, ⟨3, 4, 0⟩,
      ⟨15, 4, 0⟩, ⟨19, 16, 0⟩, ⟨19, 4, 0⟩, ⟨15, 4, 0⟩], ⟨0, 0, -108, 0⟩⟩]⟩

/-- The state at loop entry for `swapBody`: the queue of the initialisation for
the qualities `1/2` of `X` and `0` of `Y`, and `a1 .. a4` holding the four
angles of `X`. -/
def swapState : MeshState :=
  ⟨swapBody, initialQueue [1 / 2, 0],
    quadAngle1 quadX.p1 quadX.p2 quadX.p3 quadX.p4,
    quadAngle2 quadX.p1 quadX.p2 quadX.p3 quadX.p4,
    quadAngle3 quadX.p1 quadX.p2 quadX.p3 quadX.p4,
    quadAngle4 quadX.p1 quadX.p2 quadX.p3 quadX.p4⟩

end ReconnectionExample

section ReadIges

variable {K : Type} [LinearOrderedField K]

/-- The parameters of one B-spline surface as the block of `read_iges` extracts
them from the stream: the degrees `k1`, `k2`, the knot vectors `u`, `v` and the
control points `p`. -/
structure Patch (K : Type) where
  k1 : Nat
  k2 : Nat
  u : List K
  v : List K
  p : List (List (Point K))

/-- `line[0]`: the first character of the line; for the empty line the
terminating null character. -/
def firstChar (line : String) : Char :=
  line.data.headD (Char.ofNat 0)

/-- `line.substr(0, 8)`: the first eight characters of the line (fewer when the
line is shorter). -/
def entityType (line : String) : String :=
  ⟨line.data.take 8⟩

/-- The loop `while (getline(fin, line))` of `read_iges` over the lines still to
be read, with the body built so far.  A line whose first character is `S`, `G`
or `D` is skipped; a line whose first character is `P` enters the block that
tessellates a surface when its first eight characters are `"128     "` and is
skipped otherwise; a line whose first character is `T` ends the loop; every
other line is passed over.  The formatted extraction `fin >> k1 >> ...` at the
head of the block is the parameter `extract`: from the lines that follow, the
patch it reads and the number of those lines it uses up (`none` when the
extraction fails); `skip` counts the lines still to be passed over for that
reason. -/
def read_iges_loop (extract : List String → Option (Patch K × Nat)) :
    List String → Nat → Body K → Option (Body K)
  | [], _, body => some body
  | _ :: rest, skip + 1, body => read_iges_loop extract rest skip body
  | line :: rest, 0, body =>
    if firstChar line = 'S' then read_iges_loop extract rest 0 body
    else if firstChar line = 'G' then read_iges_loop extract rest 0 body
    else if firstChar line = 'D' then read_iges_loop extract rest 0 body
    else if firstChar line = 'P' then
      if entityType line = "128     " then
        match extract rest with
        | none => none
        | some (patch, used) =>
          match tessellate patch.p patch.u patch.v patch.k1 patch.k2 sampleCount with
          | none => none
          | some face => read_iges_loop extract rest used ⟨body.faces ++ [face]⟩
      else read_iges_loop extract rest 0 body
    else if firstChar line = 'T' then some body
    else read_iges_loop extract rest 0 body

/-- `read_iges(filename)` for a file that can be opened, given by its lines:
`Body body;` followed by the loop. -/
def read_iges (extract : List String → Option (Patch K × Nat)) (lines : List String) :
    Option (Body K) :=
  read_iges_loop extract lines 0 ⟨[]⟩

end ReadIges

noncomputable section CheckedAngle

/-- `acos` of `<cmath>`: a number for an argument in `[-1, 1]`; for every other
argument the result is not a number, `none` here. -/
def acos (x : ℝ) : Option ℝ :=
  if -1 ≤ x ∧ x ≤ 1 then some (Real.arccos x) else none

/-- The quotient `x / l` of two `double`s: with a zero divisor the result is
infinite or not a number, `none` here. -/
def quotient (x l : ℝ) : Option ℝ :=
  if l = 0 then none else some (x / l)

/-- `Vector::normalize` with its three divisions `x /= l; y /= l; z /= l;` as
`quotient`: `none` when a division has no number as result. -/
def Vector.normalizeChecked (v : Vector ℝ) : Option (Vector ℝ) :=
  let l := v.length
  if l > 0 then do
    let x ← quotient v.x l
    let y ← quotient v.y l
    let z ← quotient v.z l
    some ⟨x, y, z⟩
  else some v

/-- `angle(Edge, Edge)` with the operations that can leave the numbers made
explicit: the divisions of `normalize` and the call of `acos`; `none` when the
result is not a number. -/
def angleChecked (e1 e2 : Edge ℝ) : Option ℝ := do
  let v1 ← Vector.normalizeChecked (e1.p2.sub e1.p1)
  let v2 ← Vector.normalizeChecked (e2.p2.sub e2.p1)
  let dot := v1.dot v2
  let dot := max (-1) (min 1 dot)
  acos dot

/-- In the words of the claim: the unit direction vector of an edge, the vector
from `p1` to `p2` divided by its Euclidean length, written out in coordinates. -/
def Edge.unitDirection (e : Edge ℝ) : Vector ℝ :=
  ⟨(e.p2.x - e.p1.x) /
      Real.sqrt ((e.p2.x - e.p1.x) ^ 2 + (e.p2.y - e.p1.y) ^ 2 + (e.p2.z - e.p1.z) ^ 2),
   (e.p2.y - e.p1.y) /
      Real.sqrt ((e.p2.x - e.p1.x) ^ 2 + (e.p2.y - e.p1.y) ^ 2 + (e.p2.z - e.p1.z) ^ 2),
   (e.p2.z - e.p1.z) /
      Real.sqrt ((e.p2.x - e.p1.x) ^ 2 + (e.p2.y - e.p1.y) ^ 2 + (e.p2.z - e.p1.z) ^ 2)⟩

end CheckedAngle

/-! ## Theorems -/

section PlaneFit

variable {K : Type} [LinearOrderedField K]

/-- Solving `b * c = a * d` for `c` when `b ≠ 0`. -/
theorem eq_mul_div_of_cross {a b c d : K} (hb : b ≠ 0) (h : b * c - a * d = 0) :
    c = a * (d / b) := by
  field_simp
  linear_combination h

/-- If the vector product of `p2 - p1` and `p3 - p1` vanishes, the three points
are on one line. -/
theorem collinear_of_cross_eq_zero (p1 p2 p3 : Point K)
    (hx : (Vector.cross (p2.sub p1) (p3.sub p1)).x = 0)
    (hy : (Vector.cross (p2.sub p1) (p3.sub p1)).y = 0)
    (hz : (Vector.cross (p2.sub p1) (p3.sub p1)).z = 0) : Collinear3 p1 p2 p3 := by
  simp only [Vector.cross, Point.sub] at hx hy hz
  by_cases h0 : p2 = p1
  · -- the line through `p1` and `p3`
    refine ⟨p1, p3.sub p1, 0, 0, 1, ?_, ?_, ?_⟩ <;>
      (ext <;> simp [Point.add, Point.scale, Point.sub, h0])
  · -- the line through `p1` and `p2`; one coordinate of `p2 - p1` is non-zero
    by_cases h1 : p2.x - p1.x = 0
    · by_cases h2 : p2.y - p1.y = 0
      · have h3 : p2.z - p1.z ≠ 0 := by
          intro h3
          exact h0 (by ext <;> linarith)
        have ex := eq_mul_div_of_cross (a := p2.x - p1.x) (c := p3.x - p1.x)
          (d := p3.z - p1.z) h3 (by linear_combination hy)
        have ey := eq_mul_div_of_cross (a := p2.y - p1.y) (c := p3.y - p1.y)
          (d := p3.z - p1.z) h3 (by linear_combination -hx)
        have ez := eq_mul_div_of_cross (a := p2.z - p1.z) (c := p3.z - p1.z)
          (d := p3.z - p1.z) h3 (by ring)
        refine ⟨p1, p2.sub p1, 0, 1, (p3.z - p1.z) / (p2.z - p1.z), ?_, ?_, ?_⟩
        · ext <;> simp [Point.add, Point.scale, Point.sub]
        · ext <;> simp [Point.add, Point.scale, Point.sub]
        · ext <;> simp only [Point.add, Point.scale, Point.sub] <;> linarith
      · have ex := eq_mul_div_of_cross (a := p2.x - p1.x) (c := p3.x - p1.x)
          (d := p3.y - p1.y) h2 (by linear_combination -hz)
        have ey := eq_mul_div_of_cross (a := p2.y - p1.y) (c := p3.y - p1.y)
          (d := p3.y - p1.y) h2 (by ring)
        have ez := eq_mul_div_of_cross (a := p2.z - p1.z) (c := p3.z - p1.z)
          (d := p3.y - p1.y) h2 (by linear_combination hx)
        refine ⟨p1, p2.sub p1, 0, 1, (p3.y - p1.y) / (p2.y - p1.y), ?_, ?_, ?_⟩
        · ext <;> simp [Point.add, Point.scale, Point.sub]
        · ext <;> simp [Point.add, Point.scale, Point.sub]
        · ext <;> simp only [Point.add, Point.scale, Point.sub] <;> linarith
    · have ex := eq_mul_div_of_cross (a := p2.x - p1.x) (c := p3.x - p1.x)
        (d := p3.x - p1.x) h1 (by ring)
      have ey := eq_mul_div_of_cross (a := p2.y - p1.y) (c := p3.y - p1.y)
        (d := p3.x - p1.x) h1 (by linear_combination hz)
      have ez := eq_mul_div_of_cross (a := p2.z - p1.z) (c := p3.z - p1.z)
        (d := p3.x - p1.x) h1 (by linear_combination -hy)
      refine ⟨p1, p2.sub p1, 0, 1, (p3.x - p1.x) / (p2.x - p1.x), ?_, ?_, ?_⟩
      · ext <;> simp [Point.add, Point.scale, Point.sub]
      · ext <;> simp [Point.add, Point.scale, Point.sub]
      · ext <;> simp only [Point.add, Point.scale, Point.sub] <;> linarith

/-- C5. Plane fit correctness: for three non-collinear points the plane computed
by the constructors of `Triangle`, `Quad` and `Face` (all three run `fitPlane` on
the first three points) vanishes at each of the three points and its normal
`(a, b, c)` is not the zero vector. -/
theorem plane_fit_correct (p1 p2 p3 : Point K) (h : ¬ Collinear3 p1 p2 p3) :
    (∀ p4 : Point K, (Quad.make p1 p2 p3 p4).pl = (Triangle.make p1 p2 p3).pl) ∧
    (∀ rest : List (Point K),
      (Face.make (p1 :: p2 :: p3 :: rest)).map Face.pl = some (Triangle.make p1 p2 p3).pl) ∧
    (Triangle.make p1 p2 p3).pl.eval p1 = 0 ∧
    (Triangle.make p1 p2 p3).pl.eval p2 = 0 ∧
    (Triangle.make p1 p2 p3).pl.eval p3 = 0 ∧
    (Triangle.make p1 p2 p3).pl.normal ≠ ⟨0, 0, 0⟩ := by
  refine ⟨fun _ => rfl, fun _ => by simp [Face.make, Triangle.make], ?_, ?_, ?_, ?_⟩
  · simp only [Triangle.make, fitPlane, Plane.eval, Vector.cross, Vector.dot, Vector.neg,
      Point.sub]
    ring
  · simp only [Triangle.make, fitPlane, Plane.eval, Vector.cross, Vector.dot, Vector.neg,
      Point.sub]
    ring
  · simp only [Triangle.make, fitPlane, Plane.eval, Vector.cross, Vector.dot, Vector.neg,
      Point.sub]
    ring
  · intro hn
    apply h
    have hx := congrArg Point.x hn
    have hy := congrArg Point.y hn
    have hz := congrArg Point.z hn
    exact collinear_of_cross_eq_zero p1 p2 p3 hx hy hz

/-- Witness for C5: the points `(0,0,0)`, `(1,0,0)`, `(0,1,0)` are not collinear
and the fitted plane is `z = 0`. -/
theorem plane_fit_correct_witness :
    (¬ Collinear3 (⟨0, 0, 0⟩ : Point ℚ) ⟨1, 0, 0⟩ ⟨0, 1, 0⟩) ∧
    (Triangle.make (⟨0, 0, 0⟩ : Point ℚ) ⟨1, 0, 0⟩ ⟨0, 1, 0⟩).pl.normal ≠ ⟨0, 0, 0⟩ := by
  have hnc : ¬ Collinear3 (⟨0, 0, 0⟩ : Point ℚ) ⟨1, 0, 0⟩ ⟨0, 1, 0⟩ := by
    rintro ⟨o, d, t1, t2, t3, h1, h2, h3⟩
    simp only [Point.add, Point.scale, Point.mk.injEq] at h1 h2 h3
    obtain ⟨h1x, h1y, -⟩ := h1
    obtain ⟨h2x, h2y, -⟩ := h2
    obtain ⟨h3x, h3y, -⟩ := h3
    have e1 : d.x * (t2 - t1) = 1 := by linear_combination h1x - h2x
    have e2 : d.y * (t2 - t1) = 0 := by linear_combination h1y - h2y
    have e3 : d.x * (t3 - t1) = 0 := by linear_combination h1x - h3x
    have e4 : d.y * (t3 - t1) = 1 := by linear_combination h1y - h3y
    have e5 : (d.x * (t2 - t1)) * (d.y * (t3 - t1)) = (d.y * (t2 - t1)) * (d.x * (t3 - t1)) := by
      ring
    rw [e1, e2, e3, e4] at e5
    norm_num at e5
  exact ⟨hnc, (plane_fit_correct _ _ _ hnc).2.2.2.2.2⟩

end PlaneFit

section Projection

/-- The length of a non-zero vector is positive. -/
theorem Vector.length_pos_of_ne_zero (v : Vector ℝ) (hv : v ≠ ⟨0, 0, 0⟩) :
    0 < v.length := by
  unfold Vector.length
  apply Real.sqrt_pos.mpr
  have h : ¬ (v.x = 0 ∧ v.y = 0 ∧ v.z = 0) := by
    rintro ⟨hx, hy, hz⟩
    exact hv (by ext <;> assumption)
  by_contra hle
  push_neg at hle
  have hx : v.x = 0 := by nlinarith [sq_nonneg v.x, sq_nonneg v.y, sq_nonneg v.z]
  have hy : v.y = 0 := by nlinarith [sq_nonneg v.x, sq_nonneg v.y, sq_nonneg v.z]
  have hz : v.z = 0 := by nlinarith [sq_nonneg v.x, sq_nonneg v.y, sq_nonneg v.z]
  exact h ⟨hx, hy, hz⟩

/-- C4. Projection fixes in-plane points: for a plane with non-zero normal and a
point `p` with `a*x + b*y + c*z + d = 0`, `project p pl = p`. -/
theorem project_fixes_in_plane (pl : Plane ℝ) (hn : pl.normal ≠ ⟨0, 0, 0⟩)
    (p : Point ℝ) (hp : pl.a * p.x + pl.b * p.y + pl.c * p.z + pl.d = 0) :
    project p pl = p := by
  have _hpos := Vector.length_pos_of_ne_zero pl.normal hn
  ext <;> simp [project, distance, hp, Point.sub, Vector.dot]

/-- Witness for C4: the point `(3, 4, 5)` of the plane `2x - y + z - 7 = 0`, whose
normal has a non-zero first coordinate. -/
theorem project_fixes_in_plane_witness :
    project (⟨3, 4, 5⟩ : Point ℝ) ⟨2, -1, 1, -7⟩ = ⟨3, 4, 5⟩ :=
  project_fixes_in_plane ⟨2, -1, 1, -7⟩
    (fun h => by
      have hx := congrArg Point.x h
      simp [Plane.normal] at hx)
    ⟨3, 4, 5⟩ (by norm_num)

/-- What `project` returns: the first coordinate of `p` less the first
coordinate of the unit normal times the unsigned distance; the second and third
coordinates of `p` as they are. -/
theorem project_eq (p : Point ℝ) (pl : Plane ℝ) :
    project p pl =
      ⟨p.x - (Vector.normalize ⟨pl.a, pl.b, pl.c⟩).x * distance p pl, p.y, p.z⟩ := by
  ext <;> simp [project, Point.sub, Vector.dot]

/-- For a plane whose normal has first coordinate zero, `project` returns its
argument. -/
theorem project_of_normal_x_zero (p : Point ℝ) (pl : Plane ℝ) (ha : pl.a = 0) :
    project p pl = p := by
  have hx : (Vector.normalize (⟨pl.a, pl.b, pl.c⟩ : Vector ℝ)).x = 0 := by
    unfold Vector.normalize
    simp only
    split_ifs <;> simp [ha]
  rw [project_eq, hx]
  ext <;> simp

/-- C3 (what the code does). `project` changes only the first coordinate of the
point.  For the plane `z = 0` it returns every point as it is: `(0, 0, -1)` and
`(0, 0, 1)` stay at distance `1` from the plane.  For the plane `x = 0`, whose
unit normal is `(1, 0, 0)`, the point `(1, 0, 0)` on the positive side lands on
the plane, and the point `(-1, 0, 0)` on the negative side is moved away from it,
to `(-2, 0, 0)` at distance `2`, because the distance subtracted is unsigned. -/
theorem project_misses_plane :
    (∀ (p : Point ℝ) (pl : Plane ℝ), (project p pl).y = p.y ∧ (project p pl).z = p.z) ∧
    project (⟨0, 0, -1⟩ : Point ℝ) ⟨0, 0, 1, 0⟩ = ⟨0, 0, -1⟩ ∧
    distance (project (⟨0, 0, -1⟩ : Point ℝ) ⟨0, 0, 1, 0⟩) ⟨0, 0, 1, 0⟩ = 1 ∧
    project (⟨0, 0, 1⟩ : Point ℝ) ⟨0, 0, 1, 0⟩ = ⟨0, 0, 1⟩ ∧
    distance (project (⟨0, 0, 1⟩ : Point ℝ) ⟨0, 0, 1, 0⟩) ⟨0, 0, 1, 0⟩ = 1 ∧
    project (⟨1, 0, 0⟩ : Point ℝ) ⟨1, 0, 0, 0⟩ = ⟨0, 0, 0⟩ ∧
    project (⟨-1, 0, 0⟩ : Point ℝ) ⟨1, 0, 0, 0⟩ = ⟨-2, 0, 0⟩ ∧
    distance (project (⟨-1, 0, 0⟩ : Point ℝ) ⟨1, 0, 0, 0⟩) ⟨1, 0, 0, 0⟩ = 2 := by
  have h1 : project (⟨0, 0, -1⟩ : Point ℝ) ⟨0, 0, 1, 0⟩ = ⟨0, 0, -1⟩ :=
    project_of_normal_x_zero _ _ rfl
  have h2 : project (⟨0, 0, 1⟩ : Point ℝ) ⟨0, 0, 1, 0⟩ = ⟨0, 0, 1⟩ :=
    project_of_normal_x_zero _ _ rfl
  have h3 : project (⟨1, 0, 0⟩ : Point ℝ) ⟨1, 0, 0, 0⟩ = ⟨0, 0, 0⟩ := by
    rw [project_eq]
    ext <;> simp [distance, Vector.normalize, Vector.length]
  have h4 : project (⟨-1, 0, 0⟩ : Point ℝ) ⟨1, 0, 0, 0⟩ = ⟨-2, 0, 0⟩ := by
    rw [project_eq]
    ext <;> simp [distance, Vector.normalize, Vector.length]
    norm_num
  refine ⟨fun p pl => ?_, h1, ?_, h2, ?_, h3, h4, ?_⟩
  · rw [project_eq]
    exact ⟨rfl, rfl⟩
  · rw [h1]
    simp [distance]
  · rw [h2]
    simp [distance]
  · rw [h4]
    simp [distance]

end Projection

section Containment

/-- Normalizing a vector does not change the sign of its scalar products. -/
theorem Vector.normalize_dot_nonneg (w x : Vector ℝ) :
    0 ≤ (Vector.normalize w).dot x ↔ 0 ≤ w.dot x := by
  unfold Vector.normalize
  by_cases hl : w.length > 0
  · simp only [hl, if_true, Vector.dot]
    have e : w.x / w.length * x.x + w.y / w.length * x.y + w.z / w.length * x.z =
        (w.x * x.x + w.y * x.y + w.z * x.z) / w.length := by
      field_simp
    rw [e]
    constructor
    · intro h
      by_contra hneg
      push_neg at hneg
      have := div_neg_of_neg_of_pos hneg hl
      linarith
    · intro h
      exact div_nonneg h (le_of_lt hl)
  · simp only [hl, if_false]

/-- The loop of `inside(Point, Face)` goes on at an edge exactly when the
projected point is on the right of, or on, the line of the edge (seen from the
side the plane normal points to). -/
theorem edgeSide_eq_true_iff (q : Point ℝ) (pl : Plane ℝ) (a b : Point ℝ) :
    edgeSide q pl a b = true ↔ orient pl.normal a b q ≤ 0 := by
  unfold edgeSide
  simp only [Bool.not_eq_true', decide_eq_false_iff_not, not_lt]
  rw [Vector.normalize_dot_nonneg]
  have e : (Vector.cross (b.sub a) pl.normal).dot (q.sub a) = - orient pl.normal a b q := by
    simp only [orient, Vector.cross, Vector.dot, Point.sub, Plane.normal]
    ring
  rw [e]
  constructor <;> intro h <;> linarith

/-- What `inside(Point, Face)` computes: the projected point is on the right of,
or on, the line of every edge. -/
theorem Face.inside_eq_true_iff (p : Point ℝ) (f : Face ℝ) :
    Face.inside p f = true ↔
      ∀ i : Fin f.points.length,
        orient f.pl.normal (f.points.get i) (f.points.get (f.next i)) (project p f.pl) ≤ 0 := by
  unfold Face.inside
  simp only [List.all_eq_true, List.mem_finRange, true_implies, edgeSide_eq_true_iff]

/-- The cyclic successor is a bijection of the indices. -/
theorem Face.next_bijective (f : Face ℝ) : Function.Bijective f.next := by
  rw [← Finite.injective_iff_bijective]
  intro i j hij
  have h : (i.val + 1) % f.points.length = (j.val + 1) % f.points.length :=
    congrArg Fin.val hij
  have hi := i.isLt
  have hj := j.isLt
  have h1 : i.val % f.points.length = j.val % f.points.length :=
    Nat.ModEq.add_right_cancel' 1 h
  rw [Nat.mod_eq_of_lt hi, Nat.mod_eq_of_lt hj] at h1
  exact Fin.ext h1

/-- The sum of the orientation tests over all edges of the closed point
sequence does not depend on the tested point (it is the scalar product of the
normal with twice the vector area). -/
theorem Face.sum_orient_const (f : Face ℝ) (c c' : Point ℝ) :
    ∑ i : Fin f.points.length,
        orient f.pl.normal (f.points.get i) (f.points.get (f.next i)) c =
      ∑ i : Fin f.points.length,
        orient f.pl.normal (f.points.get i) (f.points.get (f.next i)) c' := by
  have key : ∀ a b : Point ℝ, orient f.pl.normal a b c - orient f.pl.normal a b c' =
      f.pl.normal.dot (Vector.cross b (c.sub c')) -
        f.pl.normal.dot (Vector.cross a (c.sub c')) := by
    intro a b
    simp only [orient, Vector.cross, Vector.dot, Point.sub]
    ring
  have hperm := Function.Bijective.sum_comp f.next_bijective
    (fun i => f.pl.normal.dot (Vector.cross (f.points.get i) (c.sub c')))
  have hsub : ∑ i : Fin f.points.length,
      (orient f.pl.normal (f.points.get i) (f.points.get (f.next i)) c -
        orient f.pl.normal (f.points.get i) (f.points.get (f.next i)) c') = 0 := by
    simp only [key, Finset.sum_sub_distrib]
    rw [hperm]
    ring
  rw [Finset.sum_sub_distrib] at hsub
  linarith

/-- A face built by the constructor has at least three points and carries the
plane fitted to the first three. -/
theorem Face.make_eq_some {K : Type} [LinearOrderedField K] (pts : List (Point K))
    (f : Face K) (hf : Face.make pts = some f) :
    ∃ a b c rest, pts = a :: b :: c :: rest ∧ f = ⟨a :: b :: c :: rest, fitPlane a b c⟩ := by
  match pts, hf with
  | a :: b :: c :: rest, hf =>
    refine ⟨a, b, c, rest, rfl, ?_⟩
    simp only [Face.make, List.getElem?_cons_zero, List.getElem?_cons_succ,
      Option.some.injEq] at hf
    exact hf.symm
  | [], hf => simp [Face.make] at hf
  | [_], hf => simp [Face.make] at hf
  | [_, _], hf => simp [Face.make] at hf

/-- For a face built by the constructor whose points are the vertices of a
convex polygon of non-zero area, `inside(Point, Face)` answers `false` at every
point of space: the vector `v ^ pl` the loop uses points away from the polygon,
so no point is on its non-negative side for all edges at once. -/
theorem Face.inside_eq_false_of_convex (pts : List (Point ℝ)) (f : Face ℝ)
    (hf : Face.make pts = some f) (hc : f.IsConvexPolygon) (p : Point ℝ) :
    Face.inside p f = false := by
  obtain ⟨a, b, c, rest, rfl, rfl⟩ := Face.make_eq_some pts f hf
  by_contra h
  rw [Bool.not_eq_false, Face.inside_eq_true_iff] at h
  have hle := Finset.sum_nonpos (fun i (_ : i ∈ Finset.univ) => h i)
  rw [Face.sum_orient_const _ _ a] at hle
  obtain ⟨hN, -, hconv⟩ := hc
  have hlen : 1 < (a :: b :: c :: rest).length := by simp
  have hterm : 0 < orient (fitPlane a b c).normal b c a := by
    have hNN : orient (fitPlane a b c).normal b c a =
        (fitPlane a b c).normal.x * (fitPlane a b c).normal.x +
        (fitPlane a b c).normal.y * (fitPlane a b c).normal.y +
        (fitPlane a b c).normal.z * (fitPlane a b c).normal.z := by
      simp only [orient, fitPlane, Plane.normal, Vector.cross, Vector.dot, Point.sub]
      ring
    rw [hNN]
    have := Vector.length_pos_of_ne_zero _ hN
    unfold Vector.length at this
    exact Real.sqrt_pos.mp this
  have hpos : 0 < ∑ i : Fin (a :: b :: c :: rest).length,
      orient (fitPlane a b c).normal ((a :: b :: c :: rest).get i)
        ((a :: b :: c :: rest).get
          (Face.next ⟨a :: b :: c :: rest, fitPlane a b c⟩ i)) a := by
    apply Finset.sum_pos'
    · intro i _
      exact hconv i a (by simp)
    · refine ⟨⟨1, hlen⟩, Finset.mem_univ _, ?_⟩
      have hnext : (Face.next ⟨a :: b :: c :: rest, fitPlane a b c⟩ ⟨1, hlen⟩).val = 2 := by
        simp only [Face.next, List.length_cons]
        apply Nat.mod_eq_of_lt
        omega
      have hget : (a :: b :: c :: rest).get
          (Face.next ⟨a :: b :: c :: rest, fitPlane a b c⟩ ⟨1, hlen⟩) = c := by
        rw [List.get_eq_getElem]
        simp only [hnext]
        rfl
      rw [hget]
      exact hterm
  linarith

/-- When the plane of the face has the zero normal (the first three points are
collinear), every edge test passes and `inside(Point, Face)` answers `true` at
every point. -/
theorem Face.inside_eq_true_of_normal_zero (f : Face ℝ) (h : f.pl.normal = ⟨0, 0, 0⟩)
    (p : Point ℝ) : Face.inside p f = true := by
  rw [Face.inside_eq_true_iff]
  intro i
  rw [h]
  simp [orient, Vector.dot]

/-- C2. Exterior rejection: for a face built by the constructor whose points are
the vertices of a convex planar polygon of non-zero area, `inside(Point, Face)`
returns `false` for every point of the plane of the face that is strictly
outside the polygon. -/
theorem inside_face_rejects_exterior (pts : List (Point ℝ)) (f : Face ℝ)
    (hf : Face.make pts = some f) (hc : f.IsConvexPolygon) (p : Point ℝ)
    (_hp : f.pl.eval p = 0) (_hout : f.StrictlyOutside p) :
    Face.inside p f = false :=
  Face.inside_eq_false_of_convex pts f hf hc p

/-- The constructor builds `unitSquareFace` from the unit square. -/
theorem unitSquareFace_make : Face.make unitSquare = some unitSquareFace := by
  simp [Face.make, unitSquare, unitSquareFace, fitPlane, Vector.cross, Vector.dot,
    Vector.neg, Point.sub]

/-- The unit square face is a convex polygon in the sense of `IsConvexPolygon`. -/
theorem unitSquareFace_convex : unitSquareFace.IsConvexPolygon := by
  refine ⟨?_, ?_, ?_⟩
  · simp [unitSquareFace, Plane.normal]
  · intro p hp
    simp only [unitSquareFace, unitSquare, List.mem_cons, List.mem_singleton,
      List.not_mem_nil, or_false] at hp
    rcases hp with rfl | rfl | rfl | rfl <;> simp [Plane.eval, unitSquareFace]
  · intro i c hc
    simp only [unitSquareFace, unitSquare, List.mem_cons, List.mem_singleton,
      List.not_mem_nil, or_false] at hc
    have hi := i.isLt
    obtain ⟨k, hk⟩ := i
    simp only [unitSquareFace, unitSquare, List.length_cons, List.length_nil] at hk
    have hk4 : k = 0 ∨ k = 1 ∨ k = 2 ∨ k = 3 := by omega
    rcases hk4 with rfl | rfl | rfl | rfl
    · show 0 ≤ orient (⟨0, 0, 1⟩ : Vector ℝ) ⟨0, 0, 0⟩ ⟨1, 0, 0⟩ c
      rcases hc with rfl | rfl | rfl | rfl <;>
        simp [orient, Vector.cross, Vector.dot, Point.sub]
    · show 0 ≤ orient (⟨0, 0, 1⟩ : Vector ℝ) ⟨1, 0, 0⟩ ⟨1, 1, 0⟩ c
      rcases hc with rfl | rfl | rfl | rfl <;>
        simp [orient, Vector.cross, Vector.dot, Point.sub]
    · show 0 ≤ orient (⟨0, 0, 1⟩ : Vector ℝ) ⟨1, 1, 0⟩ ⟨0, 1, 0⟩ c
      rcases hc with rfl | rfl | rfl | rfl <;>
        simp [orient, Vector.cross, Vector.dot, Point.sub]
    · have hn : unitSquareFace.next ⟨3, hk⟩ = ⟨0, by omega⟩ :=
        Fin.ext (by simp [Face.next, unitSquareFace, unitSquare])
      rw [hn]
      show 0 ≤ orient (⟨0, 0, 1⟩ : Vector ℝ) ⟨0, 1, 0⟩ ⟨0, 0, 0⟩ c
      rcases hc with rfl | rfl | rfl | rfl <;>
        simp [orient, Vector.cross, Vector.dot, Point.sub]

/-- Witness for C2: `(1.5, 0.5, 0)` lies in the plane of the unit square face,
strictly outside the square (beyond the edge from `(1,0,0)` to `(1,1,0)`), and is
classified outside. -/
theorem inside_face_rejects_exterior_witness :
    Face.inside ⟨3 / 2, 1 / 2, 0⟩ unitSquareFace = false :=
  inside_face_rejects_exterior unitSquare unitSquareFace unitSquareFace_make
    unitSquareFace_convex ⟨3 / 2, 1 / 2, 0⟩ (by simp [Plane.eval, unitSquareFace])
    ⟨⟨1, by simp [unitSquareFace, unitSquare]⟩, by
      show orient (⟨0, 0, 1⟩ : Vector ℝ) ⟨1, 0, 0⟩ ⟨1, 1, 0⟩ ⟨3 / 2, 1 / 2, 0⟩ < 0
      simp only [orient, Vector.cross, Vector.dot, Point.sub]
      norm_num⟩

/-- C1 (what the code does). On the unit square face, whose points are listed
counter-clockwise, `inside(Point, Face)` classifies the interior point
`(0.5, 0.5, 0)`, the vertex `(1, 1, 0)` and the edge midpoint `(0.5, 0, 0)` as
outside. -/
theorem inside_face_unit_square :
    Face.make unitSquare = some unitSquareFace ∧
    Face.inside ⟨1 / 2, 1 / 2, 0⟩ unitSquareFace = false ∧
    Face.inside ⟨1, 1, 0⟩ unitSquareFace = false ∧
    Face.inside ⟨1 / 2, 0, 0⟩ unitSquareFace = false :=
  ⟨unitSquareFace_make,
   Face.inside_eq_false_of_convex unitSquare unitSquareFace unitSquareFace_make
     unitSquareFace_convex _,
   Face.inside_eq_false_of_convex unitSquare unitSquareFace unitSquareFace_make
     unitSquareFace_convex _,
   Face.inside_eq_false_of_convex unitSquare unitSquareFace unitSquareFace_make
     unitSquareFace_convex _⟩

end Containment

section Quality

/-- A vector is its normalization scaled by its length. -/
theorem Vector.eq_scale_normalize (v : Vector ℝ) :
    v = (Vector.normalize v).scale v.length := by
  unfold Vector.normalize
  by_cases hl : v.length > 0
  · have h0 : v.length ≠ 0 := ne_of_gt hl
    simp only [hl, if_true, Point.scale]
    ext <;> simp only <;> field_simp
  · have hl0 : v.length = 0 := le_antisymm (not_lt.mp hl) (Real.sqrt_nonneg _)
    have hv : v = ⟨0, 0, 0⟩ := by
      by_contra hne
      have := Vector.length_pos_of_ne_zero v hne
      linarith
    simp only [hl, if_false, Point.scale, hl0]
    rw [hv]
    ext <;> simp

/-- A normalized vector has squared length at most one. -/
theorem Vector.normalize_dot_self_le (v : Vector ℝ) :
    (Vector.normalize v).dot (Vector.normalize v) ≤ 1 := by
  unfold Vector.normalize
  by_cases hl : v.length > 0
  · have h0 : v.length ≠ 0 := ne_of_gt hl
    have hsq : v.length * v.length = v.x * v.x + v.y * v.y + v.z * v.z := by
      unfold Vector.length
      apply Real.mul_self_sqrt
      linarith [mul_self_nonneg v.x, mul_self_nonneg v.y, mul_self_nonneg v.z]
    simp only [hl, if_true, Vector.dot]
    have e : v.x / v.length * (v.x / v.length) + v.y / v.length * (v.y / v.length) +
        v.z / v.length * (v.z / v.length) = 1 := by
      field_simp
      linear_combination -hsq
    linarith
  · have hl0 : v.length = 0 := le_antisymm (not_lt.mp hl) (Real.sqrt_nonneg _)
    have hv : v = ⟨0, 0, 0⟩ := by
      by_contra hne
      have := Vector.length_pos_of_ne_zero v hne
      linarith
    simp only [hl, if_false]
    rw [hv]
    simp [Vector.dot]

/-- The angle of two edges is between `0` and `π`. -/
theorem angle_nonneg (e1 e2 : Edge ℝ) : 0 ≤ angle e1 e2 :=
  Real.arccos_nonneg _

/-- The angle of two edges is at most `π`. -/
theorem angle_le_pi (e1 e2 : Edge ℝ) : angle e1 e2 ≤ Real.pi :=
  Real.arccos_le_pi _

/-- A zero angle means that the two normalized edge vectors are one and the same
unit vector. -/
theorem angle_eq_zero (e1 e2 : Edge ℝ) (h : angle e1 e2 = 0) :
    Vector.normalize (e1.p2.sub e1.p1) = Vector.normalize (e2.p2.sub e2.p1) ∧
    1 ≤ (Vector.normalize (e1.p2.sub e1.p1)).dot (Vector.normalize (e1.p2.sub e1.p1)) := by
  unfold angle at h
  simp only [Real.arccos_eq_zero] at h
  set u1 := Vector.normalize (e1.p2.sub e1.p1) with hu1
  set u2 := Vector.normalize (e2.p2.sub e2.p1) with hu2
  have hdot : 1 ≤ u1.dot u2 := by
    rcases le_max_iff.mp h with h' | h'
    · linarith
    · exact (le_min_iff.mp h').2
  have n1 := Vector.normalize_dot_self_le (e1.p2.sub e1.p1)
  have n2 := Vector.normalize_dot_self_le (e2.p2.sub e2.p1)
  rw [← hu1] at n1
  rw [← hu2] at n2
  simp only [Vector.dot] at hdot n1 n2
  have hx : u1.x = u2.x := by
    nlinarith [sq_nonneg (u1.x - u2.x), sq_nonneg (u1.y - u2.y), sq_nonneg (u1.z - u2.z)]
  have hy : u1.y = u2.y := by
    nlinarith [sq_nonneg (u1.x - u2.x), sq_nonneg (u1.y - u2.y), sq_nonneg (u1.z - u2.z)]
  have hz : u1.z = u2.z := by
    nlinarith [sq_nonneg (u1.x - u2.x), sq_nonneg (u1.y - u2.y), sq_nonneg (u1.z - u2.z)]
  refine ⟨by ext <;> assumption, ?_⟩
  simp only [Vector.dot]
  rw [hx, hy, hz]
  rw [hx, hy, hz] at hdot
  exact hdot

/-- A normalization of squared length at least one comes from a vector of
positive length. -/
theorem Vector.length_pos_of_normalize (v : Vector ℝ)
    (h : 1 ≤ (Vector.normalize v).dot (Vector.normalize v)) : 0 < v.length := by
  by_contra hl
  have hl0 : v.length = 0 := le_antisymm (not_lt.mp hl) (Real.sqrt_nonneg _)
  have hv := Vector.eq_scale_normalize v
  rw [hl0] at hv
  have hn : Vector.normalize v = v := by
    unfold Vector.normalize
    simp only [gt_iff_lt, hl, if_false]
  rw [hn, hv] at h
  simp [Vector.dot, Point.scale] at h
  linarith

/-- The four computed angles of a quad cannot all be zero: the four edge
vectors add up to zero, so they cannot all have the same direction. -/
theorem quadAngles_not_all_zero (p1 p2 p3 p4 : Point ℝ) :
    ¬ (quadAngle1 p1 p2 p3 p4 = 0 ∧ quadAngle2 p1 p2 p3 p4 = 0 ∧
       quadAngle3 p1 p2 p3 p4 = 0 ∧ quadAngle4 p1 p2 p3 p4 = 0) := by
  rintro ⟨h1, h2, h3, h4⟩
  obtain ⟨e14, hu⟩ := angle_eq_zero _ _ h1
  obtain ⟨e21, -⟩ := angle_eq_zero _ _ h2
  obtain ⟨e32, -⟩ := angle_eq_zero _ _ h3
  simp only at e14 e21 e32 hu
  have hl1 := Vector.length_pos_of_normalize _ hu
  have s1 := Vector.eq_scale_normalize (p2.sub p1)
  have s2 := Vector.eq_scale_normalize (p3.sub p2)
  have s3 := Vector.eq_scale_normalize (p4.sub p3)
  have s4 := Vector.eq_scale_normalize (p1.sub p4)
  rw [e32, e21] at s3
  rw [e21] at s2
  rw [← e14] at s4
  have l2 : 0 ≤ Vector.length (p3.sub p2) := Real.sqrt_nonneg _
  have l3 : 0 ≤ Vector.length (p4.sub p3) := Real.sqrt_nonneg _
  have l4 : 0 ≤ Vector.length (p1.sub p4) := Real.sqrt_nonneg _
  set u := Vector.normalize (p2.sub p1) with hudef
  set m1 := Vector.length (p2.sub p1) with hm1
  set m2 := Vector.length (p3.sub p2) with hm2
  set m3 := Vector.length (p4.sub p3) with hm3
  set m4 := Vector.length (p1.sub p4) with hm4
  set L := m1 + m2 + m3 + m4 with hL
  have hLpos : 0 < L := by linarith
  have hx : u.x * L = 0 := by
    have a1 := congrArg Point.x s1
    have a2 := congrArg Point.x s2
    have a3 := congrArg Point.x s3
    have a4 := congrArg Point.x s4
    simp only [Point.scale, Point.sub] at a1 a2 a3 a4
    rw [hL]
    linear_combination -a1 - a2 - a3 - a4
  have hy : u.y * L = 0 := by
    have a1 := congrArg Point.y s1
    have a2 := congrArg Point.y s2
    have a3 := congrArg Point.y s3
    have a4 := congrArg Point.y s4
    simp only [Point.scale, Point.sub] at a1 a2 a3 a4
    rw [hL]
    linear_combination -a1 - a2 - a3 - a4
  have hz : u.z * L = 0 := by
    have a1 := congrArg Point.z s1
    have a2 := congrArg Point.z s2
    have a3 := congrArg Point.z s3
    have a4 := congrArg Point.z s4
    simp only [Point.scale, Point.sub] at a1 a2 a3 a4
    rw [hL]
    linear_combination -a1 - a2 - a3 - a4
  have hL0 : L ≠ 0 := ne_of_gt hLpos
  have ux : u.x = 0 := (mul_eq_zero.mp hx).resolve_right hL0
  have uy : u.y = 0 := (mul_eq_zero.mp hy).resolve_right hL0
  have uz : u.z = 0 := (mul_eq_zero.mp hz).resolve_right hL0
  simp only [Vector.dot, ux, uy, uz] at hu
  linarith

/-- The denominator of the quality of a quad is positive, so the division in
the quality formula is a division by a non-zero number. -/
theorem quadMax_pos (p1 p2 p3 p4 : Point ℝ) :
    0 < max (quadAngle1 p1 p2 p3 p4) (max (quadAngle2 p1 p2 p3 p4)
      (max (quadAngle3 p1 p2 p3 p4) (quadAngle4 p1 p2 p3 p4))) := by
  by_contra h
  push_neg at h
  have g1 : 0 ≤ quadAngle1 p1 p2 p3 p4 := angle_nonneg _ _
  have g2 : 0 ≤ quadAngle2 p1 p2 p3 p4 := angle_nonneg _ _
  have g3 : 0 ≤ quadAngle3 p1 p2 p3 p4 := angle_nonneg _ _
  have g4 : 0 ≤ quadAngle4 p1 p2 p3 p4 := angle_nonneg _ _
  simp only [max_le_iff] at h
  obtain ⟨k1, k2, k3, k4⟩ := h
  exact quadAngles_not_all_zero p1 p2 p3 p4
    ⟨le_antisymm k1 g1, le_antisymm k2 g2, le_antisymm k3 g3, le_antisymm k4 g4⟩

/-- C6 (as amended). For every quad the largest of the four computed angles is
positive and the quality satisfies `0 ≤ q ≤ 1`; it is positive exactly when
each of the four computed angles is positive. -/
theorem quality_bounds (p1 p2 p3 p4 : Point ℝ) :
    0 < max (quadAngle1 p1 p2 p3 p4) (max (quadAngle2 p1 p2 p3 p4)
      (max (quadAngle3 p1 p2 p3 p4) (quadAngle4 p1 p2 p3 p4))) ∧
    0 ≤ quadQuality p1 p2 p3 p4 ∧ quadQuality p1 p2 p3 p4 ≤ 1 ∧
    (0 < quadQuality p1 p2 p3 p4 ↔
      0 < quadAngle1 p1 p2 p3 p4 ∧ 0 < quadAngle2 p1 p2 p3 p4 ∧
      0 < quadAngle3 p1 p2 p3 p4 ∧ 0 < quadAngle4 p1 p2 p3 p4) := by
  have hmax := quadMax_pos p1 p2 p3 p4
  have g1 : 0 ≤ quadAngle1 p1 p2 p3 p4 := angle_nonneg _ _
  have g2 : 0 ≤ quadAngle2 p1 p2 p3 p4 := angle_nonneg _ _
  have g3 : 0 ≤ quadAngle3 p1 p2 p3 p4 := angle_nonneg _ _
  have g4 : 0 ≤ quadAngle4 p1 p2 p3 p4 := angle_nonneg _ _
  refine ⟨hmax, ?_, ?_, ?_⟩
  · unfold quadQuality qualityOfAngles
    apply div_nonneg
    · simp only [le_min_iff]
      exact ⟨g1, g2, g3, g4⟩
    · exact le_of_lt hmax
  · unfold quadQuality qualityOfAngles
    rw [div_le_one hmax]
    exact le_trans (min_le_left _ _) (le_max_left _ _)
  · unfold quadQuality qualityOfAngles
    rw [div_pos_iff_of_pos_right hmax]
    simp only [lt_min_iff]

/-- C6 (counterexample). The quad `(1,0,0), (2,0,0), (1,1,0), (0,0,0)`, which
has a straight corner at its first point, has quality `0`. -/
theorem quality_bounds_counterexample :
    ¬ (0 < quadQuality ⟨1, 0, 0⟩ ⟨2, 0, 0⟩ ⟨1, 1, 0⟩ ⟨0, 0, 0⟩ ∧
       quadQuality ⟨1, 0, 0⟩ ⟨2, 0, 0⟩ ⟨1, 1, 0⟩ ⟨0, 0, 0⟩ ≤ 1) := by
  have h1 : quadAngle1 ⟨1, 0, 0⟩ ⟨2, 0, 0⟩ ⟨1, 1, 0⟩ ⟨0, 0, 0⟩ = 0 := by
    simp [quadAngle1, angle, Vector.normalize, Vector.length, Vector.dot, Point.sub]
    norm_num
  have hq : quadQuality ⟨1, 0, 0⟩ ⟨2, 0, 0⟩ ⟨1, 1, 0⟩ ⟨0, 0, 0⟩ = 0 := by
    unfold quadQuality qualityOfAngles
    rw [h1, min_eq_left (le_min (show 0 ≤ quadAngle2 _ _ _ _ from angle_nonneg _ _)
      (le_min (show 0 ≤ quadAngle3 _ _ _ _ from angle_nonneg _ _)
        (show 0 ≤ quadAngle4 _ _ _ _ from angle_nonneg _ _)))]
    exact zero_div _
  rw [hq]
  rintro ⟨hpos, -⟩
  exact lt_irrefl _ hpos

/-- C8. The computed quality of a quad is `1` exactly when its four computed
angles are all equal; the unit square has all four computed angles equal to
`π / 2` and quality `1`. -/
theorem quality_eq_one_iff :
    (∀ p1 p2 p3 p4 : Point ℝ, quadQuality p1 p2 p3 p4 = 1 ↔
      (quadAngle1 p1 p2 p3 p4 = quadAngle2 p1 p2 p3 p4 ∧
       quadAngle2 p1 p2 p3 p4 = quadAngle3 p1 p2 p3 p4 ∧
       quadAngle3 p1 p2 p3 p4 = quadAngle4 p1 p2 p3 p4)) ∧
    quadAngle1 ⟨0, 0, 0⟩ ⟨1, 0, 0⟩ ⟨1, 1, 0⟩ ⟨0, 1, 0⟩ = Real.pi / 2 ∧
    quadAngle2 ⟨0, 0, 0⟩ ⟨1, 0, 0⟩ ⟨1, 1, 0⟩ ⟨0, 1, 0⟩ = Real.pi / 2 ∧
    quadAngle3 ⟨0, 0, 0⟩ ⟨1, 0, 0⟩ ⟨1, 1, 0⟩ ⟨0, 1, 0⟩ = Real.pi / 2 ∧
    quadAngle4 ⟨0, 0, 0⟩ ⟨1, 0, 0⟩ ⟨1, 1, 0⟩ ⟨0, 1, 0⟩ = Real.pi / 2 ∧
    quadQuality ⟨0, 0, 0⟩ ⟨1, 0, 0⟩ ⟨1, 1, 0⟩ ⟨0, 1, 0⟩ = 1 := by
  have hiff : ∀ p1 p2 p3 p4 : Point ℝ, quadQuality p1 p2 p3 p4 = 1 ↔
      (quadAngle1 p1 p2 p3 p4 = quadAngle2 p1 p2 p3 p4 ∧
       quadAngle2 p1 p2 p3 p4 = quadAngle3 p1 p2 p3 p4 ∧
       quadAngle3 p1 p2 p3 p4 = quadAngle4 p1 p2 p3 p4) := by
    intro p1 p2 p3 p4
    have hmax := quadMax_pos p1 p2 p3 p4
    unfold quadQuality qualityOfAngles
    rw [div_eq_one_iff_eq (ne_of_gt hmax)]
    generalize quadAngle1 p1 p2 p3 p4 = a1
    generalize quadAngle2 p1 p2 p3 p4 = a2
    generalize quadAngle3 p1 p2 p3 p4 = a3
    generalize quadAngle4 p1 p2 p3 p4 = a4
    constructor
    · intro h
      have u1 : a1 ≤ max a1 (max a2 (max a3 a4)) := le_max_left _ _
      have u2 : a2 ≤ max a1 (max a2 (max a3 a4)) :=
        le_trans (le_max_left _ _) (le_max_right _ _)
      have u3 : a3 ≤ max a1 (max a2 (max a3 a4)) :=
        le_trans (le_trans (le_max_left _ _) (le_max_right _ _)) (le_max_right _ _)
      have u4 : a4 ≤ max a1 (max a2 (max a3 a4)) :=
        le_trans (le_trans (le_max_right _ _) (le_max_right _ _)) (le_max_right _ _)
      have d1 : min a1 (min a2 (min a3 a4)) ≤ a1 := min_le_left _ _
      have d2 : min a1 (min a2 (min a3 a4)) ≤ a2 :=
        le_trans (min_le_right _ _) (min_le_left _ _)
      have d3 : min a1 (min a2 (min a3 a4)) ≤ a3 :=
        le_trans (min_le_right _ _) (le_trans (min_le_right _ _) (min_le_left _ _))
      have d4 : min a1 (min a2 (min a3 a4)) ≤ a4 :=
        le_trans (min_le_right _ _) (le_trans (min_le_right _ _) (min_le_right _ _))
      refine ⟨?_, ?_, ?_⟩ <;> linarith
    · rintro ⟨rfl, rfl, rfl⟩
      simp
  have hang : ∀ a b c d : Point ℝ,
      (Vector.normalize (b.sub a)).dot (Vector.normalize (d.sub c)) = 0 →
      angle ⟨a, b⟩ ⟨c, d⟩ = Real.pi / 2 := by
    intro a b c d h
    unfold angle
    simp only [h]
    norm_num
  have h1 : quadAngle1 ⟨0, 0, 0⟩ ⟨1, 0, 0⟩ ⟨1, 1, 0⟩ ⟨0, 1, 0⟩ = Real.pi / 2 :=
    hang _ _ _ _ (by simp [Vector.normalize, Vector.length, Vector.dot, Point.sub])
  have h2 : quadAngle2 ⟨0, 0, 0⟩ ⟨1, 0, 0⟩ ⟨1, 1, 0⟩ ⟨0, 1, 0⟩ = Real.pi / 2 :=
    hang _ _ _ _ (by simp [Vector.normalize, Vector.length, Vector.dot, Point.sub])
  have h3 : quadAngle3 ⟨0, 0, 0⟩ ⟨1, 0, 0⟩ ⟨1, 1, 0⟩ ⟨0, 1, 0⟩ = Real.pi / 2 :=
    hang _ _ _ _ (by simp [Vector.normalize, Vector.length, Vector.dot, Point.sub])
  have h4 : quadAngle4 ⟨0, 0, 0⟩ ⟨1, 0, 0⟩ ⟨1, 1, 0⟩ ⟨0, 1, 0⟩ = Real.pi / 2 :=
    hang _ _ _ _ (by simp [Vector.normalize, Vector.length, Vector.dot, Point.sub])
  refine ⟨hiff, h1, h2, h3, h4, ?_⟩
  rw [hiff, h1, h2, h3, h4]
  exact ⟨rfl, rfl, rfl⟩

/-- The length of the reversed vector. -/
theorem Vector.length_sub_comm (a b : Point ℝ) :
    Vector.length (a.sub b) = Vector.length (b.sub a) := by
  unfold Vector.length
  congr 1
  simp only [Point.sub]
  ring

/-- Reversing an edge negates its normalized vector. -/
theorem Vector.normalize_sub_comm (a b : Point ℝ) :
    Vector.normalize (a.sub b) = Vector.neg (Vector.normalize (b.sub a)) := by
  unfold Vector.normalize
  rw [Vector.length_sub_comm a b]
  generalize Vector.length (b.sub a) = l
  by_cases hl : l > 0
  · simp only [hl, if_true, Vector.neg, Point.sub]
    ext <;> simp only <;> ring
  · simp only [hl, if_false, Vector.neg, Point.sub]
    ext <;> simp only <;> ring

/-- Reversing the second edge turns the angle into its supplement. -/
theorem angle_reverse (a b c d : Point ℝ) :
    angle ⟨a, b⟩ ⟨c, d⟩ = Real.pi - angle ⟨a, b⟩ ⟨d, c⟩ := by
  unfold angle
  simp only
  rw [Vector.normalize_sub_comm d c, ← Real.arccos_neg]
  congr 1
  have e : (Vector.normalize (b.sub a)).dot (Vector.neg (Vector.normalize (c.sub d))) =
      - (Vector.normalize (b.sub a)).dot (Vector.normalize (c.sub d)) := by
    simp only [Vector.dot, Vector.neg]
    ring
  rw [e]
  generalize (Vector.normalize (b.sub a)).dot (Vector.normalize (c.sub d)) = t
  simp only [max_def, min_def]
  split_ifs <;> linarith

/-- Normalization of a vector whose length is known. -/
theorem Vector.normalize_of_length (v : Vector ℝ) (l : ℝ) (hl : 0 < l)
    (h : v.x * v.x + v.y * v.y + v.z * v.z = l * l) :
    Vector.normalize v = ⟨v.x / l, v.y / l, v.z / l⟩ := by
  have hlen : v.length = l := by
    unfold Vector.length
    rw [h]
    exact Real.sqrt_mul_self (le_of_lt hl)
  unfold Vector.normalize
  simp only [hlen, gt_iff_lt, hl, if_true]

/-- The angle of two edges whose normalized scalar product is known. -/
theorem angle_eq_arccos (a b c d : Point ℝ) (t : ℝ) (h1 : -1 ≤ t) (h2 : t ≤ 1)
    (h : (Vector.normalize (b.sub a)).dot (Vector.normalize (d.sub c)) = t) :
    angle ⟨a, b⟩ ⟨c, d⟩ = Real.arccos t := by
  unfold angle
  simp only [h]
  rw [min_eq_right h2, max_eq_right h1]

/-- The four computed angles of a quad are the supplements of its interior
angles (the exterior angles). -/
theorem quadAngles_eq_pi_sub_interior (p1 p2 p3 p4 : Point ℝ) :
    quadAngle1 p1 p2 p3 p4 = Real.pi - interiorAngle p1 p2 p4 ∧
    quadAngle2 p1 p2 p3 p4 = Real.pi - interiorAngle p2 p3 p1 ∧
    quadAngle3 p1 p2 p3 p4 = Real.pi - interiorAngle p3 p4 p2 ∧
    quadAngle4 p1 p2 p3 p4 = Real.pi - interiorAngle p4 p1 p3 :=
  ⟨angle_reverse _ _ _ _, angle_reverse _ _ _ _, angle_reverse _ _ _ _,
    angle_reverse _ _ _ _⟩

/-- Interior angles of the kite `(0,0,0), (7,0,0), (4,4,0), (0,7,0)`. -/
theorem kite_interior :
    interiorAngle (⟨0, 0, 0⟩ : Point ℝ) ⟨7, 0, 0⟩ ⟨0, 7, 0⟩ = Real.pi / 2 ∧
    interiorAngle (⟨7, 0, 0⟩ : Point ℝ) ⟨4, 4, 0⟩ ⟨0, 0, 0⟩ = Real.arccos (3 / 5) ∧
    interiorAngle (⟨4, 4, 0⟩ : Point ℝ) ⟨0, 7, 0⟩ ⟨7, 0, 0⟩ =
      Real.pi - Real.arccos (24 / 25) ∧
    interiorAngle (⟨0, 7, 0⟩ : Point ℝ) ⟨0, 0, 0⟩ ⟨4, 4, 0⟩ = Real.arccos (3 / 5) := by
  have n1 := Vector.normalize_of_length (⟨7, 0, 0⟩ : Vector ℝ) 7 (by norm_num) (by norm_num)
  have n2 := Vector.normalize_of_length (⟨0, 7, 0⟩ : Vector ℝ) 7 (by norm_num) (by norm_num)
  have n3 := Vector.normalize_of_length (⟨-3, 4, 0⟩ : Vector ℝ) 5 (by norm_num) (by norm_num)
  have n4 := Vector.normalize_of_length (⟨-7, 0, 0⟩ : Vector ℝ) 7 (by norm_num) (by norm_num)
  have n5 := Vector.normalize_of_length (⟨-4, 3, 0⟩ : Vector ℝ) 5 (by norm_num) (by norm_num)
  have n6 := Vector.normalize_of_length (⟨3, -4, 0⟩ : Vector ℝ) 5 (by norm_num) (by norm_num)
  have n7 := Vector.normalize_of_length (⟨0, -7, 0⟩ : Vector ℝ) 7 (by norm_num) (by norm_num)
  have n8 := Vector.normalize_of_length (⟨4, -3, 0⟩ : Vector ℝ) 5 (by norm_num) (by norm_num)
  refine ⟨?_, ?_, ?_, ?_⟩
  · unfold interiorAngle
    rw [angle_eq_arccos _ _ _ _ 0 (by norm_num) (by norm_num), Real.arccos_zero]
    norm_num [Point.sub, n1, n2, Vector.dot]
  · unfold interiorAngle
    rw [angle_eq_arccos _ _ _ _ (3 / 5) (by norm_num) (by norm_num)]
    norm_num [Point.sub, n3, n4, Vector.dot]
  · unfold interiorAngle
    rw [angle_eq_arccos _ _ _ _ (-(24 / 25)) (by norm_num) (by norm_num), Real.arccos_neg]
    norm_num [Point.sub, n5, n6, Vector.dot]
  · unfold interiorAngle
    rw [angle_eq_arccos _ _ _ _ (3 / 5) (by norm_num) (by norm_num)]
    norm_num [Point.sub, n7, n8, Vector.dot]

/-- The kite `(0,0,0), (7,0,0), (4,4,0), (0,7,0)` lies in the plane `z = 0` and
is strictly convex: seen from the side of the normal `(0, 0, 1)`, each vertex is
strictly on the left of the edge that starts two vertices before it and of the
edge that starts one vertex after it. -/
theorem kite_strictly_convex :
    0 < orient (⟨0, 0, 1⟩ : Vector ℝ) ⟨0, 0, 0⟩ ⟨7, 0, 0⟩ ⟨4, 4, 0⟩ ∧
    0 < orient (⟨0, 0, 1⟩ : Vector ℝ) ⟨7, 0, 0⟩ ⟨4, 4, 0⟩ ⟨0, 7, 0⟩ ∧
    0 < orient (⟨0, 0, 1⟩ : Vector ℝ) ⟨4, 4, 0⟩ ⟨0, 7, 0⟩ ⟨0, 0, 0⟩ ∧
    0 < orient (⟨0, 0, 1⟩ : Vector ℝ) ⟨0, 7, 0⟩ ⟨0, 0, 0⟩ ⟨7, 0, 0⟩ ∧
    0 < orient (⟨0, 0, 1⟩ : Vector ℝ) ⟨0, 0, 0⟩ ⟨7, 0, 0⟩ ⟨0, 7, 0⟩ ∧
    0 < orient (⟨0, 0, 1⟩ : Vector ℝ) ⟨7, 0, 0⟩ ⟨4, 4, 0⟩ ⟨0, 0, 0⟩ ∧
    0 < orient (⟨0, 0, 1⟩ : Vector ℝ) ⟨4, 4, 0⟩ ⟨0, 7, 0⟩ ⟨7, 0, 0⟩ ∧
    0 < orient (⟨0, 0, 1⟩ : Vector ℝ) ⟨0, 7, 0⟩ ⟨0, 0, 0⟩ ⟨4, 4, 0⟩ := by
  simp only [orient, Vector.cross, Vector.dot, Point.sub]
  norm_num

/-- C7 (what the code does). The computed angles are the supplements of the
interior angles, and for the strictly convex planar kite
`(0,0,0), (7,0,0), (4,4,0), (0,7,0)` the computed quality is
`arccos (24/25) / (π - arccos (3/5))` (about `0.13`) while the ratio of the
smallest to the largest interior angle is `arccos (3/5) / (π - arccos (24/25))`
(about `0.32`). -/
theorem quality_not_interior_ratio :
    quadQuality ⟨0, 0, 0⟩ ⟨7, 0, 0⟩ ⟨4, 4, 0⟩ ⟨0, 7, 0⟩ =
      Real.arccos (24 / 25) / (Real.pi - Real.arccos (3 / 5)) ∧
    interiorQuality ⟨0, 0, 0⟩ ⟨7, 0, 0⟩ ⟨4, 4, 0⟩ ⟨0, 7, 0⟩ =
      Real.arccos (3 / 5) / (Real.pi - Real.arccos (24 / 25)) ∧
    quadQuality ⟨0, 0, 0⟩ ⟨7, 0, 0⟩ ⟨4, 4, 0⟩ ⟨0, 7, 0⟩ ≠
      interiorQuality ⟨0, 0, 0⟩ ⟨7, 0, 0⟩ ⟨4, 4, 0⟩ ⟨0, 7, 0⟩ := by
  obtain ⟨i1, i2, i3, i4⟩ := kite_interior
  obtain ⟨c1, c2, c3, c4⟩ :=
    quadAngles_eq_pi_sub_interior ⟨0, 0, 0⟩ ⟨7, 0, 0⟩ ⟨4, 4, 0⟩ ⟨0, 7, 0⟩
  rw [i1] at c1
  rw [i2] at c2
  rw [i3] at c3
  rw [i4] at c4
  have hα0 : 0 < Real.arccos (24 / 25) := Real.arccos_pos.mpr (by norm_num)
  have hβ : Real.arccos (3 / 5) < Real.pi / 2 := Real.arccos_lt_pi_div_two.mpr (by norm_num)
  have hαβ : Real.arccos (24 / 25) < Real.arccos (3 / 5) :=
    Real.strictAntiOn_arccos ⟨by norm_num, by norm_num⟩ ⟨by norm_num, by norm_num⟩
      (by norm_num)
  have hpi := Real.pi_pos
  set α := Real.arccos (24 / 25) with hα
  set β := Real.arccos (3 / 5) with hβdef
  have hq : quadQuality ⟨0, 0, 0⟩ ⟨7, 0, 0⟩ ⟨4, 4, 0⟩ ⟨0, 7, 0⟩ = α / (Real.pi - β) := by
    unfold quadQuality qualityOfAngles
    rw [c1, c2, c3, c4]
    have e3 : Real.pi - (Real.pi - α) = α := by ring
    rw [e3]
    have hmin : min (Real.pi - Real.pi / 2) (min (Real.pi - β) (min α (Real.pi - β))) = α := by
      rw [min_eq_left (show α ≤ Real.pi - β by linarith),
        min_eq_right (show α ≤ Real.pi - β by linarith),
        min_eq_right (show α ≤ Real.pi - Real.pi / 2 by linarith)]
    have hmax : max (Real.pi - Real.pi / 2) (max (Real.pi - β) (max α (Real.pi - β))) =
        Real.pi - β := by
      rw [max_eq_right (show α ≤ Real.pi - β by linarith), max_self,
        max_eq_right (show Real.pi - Real.pi / 2 ≤ Real.pi - β by linarith)]
    rw [hmin, hmax]
  have hi : interiorQuality ⟨0, 0, 0⟩ ⟨7, 0, 0⟩ ⟨4, 4, 0⟩ ⟨0, 7, 0⟩ = β / (Real.pi - α) := by
    unfold interiorQuality qualityOfAngles
    rw [i1, i2, i3, i4]
    have hmin : min (Real.pi / 2) (min β (min (Real.pi - α) β)) = β := by
      rw [min_eq_right (show β ≤ Real.pi - α by linarith), min_self,
        min_eq_right (show β ≤ Real.pi / 2 by linarith)]
    have hmax : max (Real.pi / 2) (max β (max (Real.pi - α) β)) = Real.pi - α := by
      rw [max_eq_left (show β ≤ Real.pi - α by linarith),
        max_eq_right (show β ≤ Real.pi - α by linarith),
        max_eq_right (show Real.pi / 2 ≤ Real.pi - α by linarith)]
    rw [hmin, hmax]
  refine ⟨hq, hi, ?_⟩
  rw [hq, hi]
  intro heq
  rw [div_eq_div_iff (by linarith) (by linarith)] at heq
  nlinarith [mul_pos (sub_pos.mpr hαβ) (show 0 < Real.pi - α - β by linarith)]

end Quality

section Evaluator

/-- Reading at or beyond the size of a vector is out of range. -/
theorem getInt_eq_none_of_le {α : Type} (l : List α) (z : Int) (h : (l.length : Int) ≤ z) :
    getInt l z = none := by
  unfold getInt
  split
  · rfl
  · rw [List.getElem?_eq_none_iff]
    omega

/-- Reading a column that no row has is out of range. -/
theorem getGrid_eq_none_of_le {K : Type} (p : List (List (Point K))) (a b : Int)
    (h : ∀ row ∈ p, (row.length : Int) ≤ b) : getGrid p a b = none := by
  unfold getGrid
  cases hrow : getInt p a with
  | none => rfl
  | some row =>
    have hmem : row ∈ p := by
      unfold getInt at hrow
      split at hrow
      · exact absurd hrow (by simp)
      · exact List.getElem?_mem hrow
    simp [getInt_eq_none_of_le row b (h row hmem)]

/-- Reading a row beyond the last one is out of range. -/
theorem getGrid_eq_none_of_row_le {K : Type} (p : List (List (Point K))) (a b : Int)
    (h : (p.length : Int) ≤ a) : getGrid p a b = none := by
  unfold getGrid
  simp [getInt_eq_none_of_le p a h]

variable {K : Type} [LinearOrderedField K]

/-- Span search in the knot vector `[0, 0, 1, 1]` for a parameter in `[0, 1)`. -/
theorem findSpan_clamped_inner (u0 : K) (h0 : 0 ≤ u0) (h1 : u0 < 1) :
    findSpan [0, 0, 1, 1] u0 = 1 := by
  simp [findSpan, spanLoop, h0, not_le.mpr h1]

/-- Span search in the knot vector `[0, 0, 1, 1]` for a parameter `≥ 1`: the
loop runs to the last index. -/
theorem findSpan_clamped_end (u0 : K) (h1 : 1 ≤ u0) :
    findSpan [0, 0, 1, 1] u0 = 3 := by
  have h0 : (0 : K) ≤ u0 := le_trans zero_le_one h1
  simp [findSpan, spanLoop, h0, h1]

/-- What the evaluator returns on the bilinear patch for parameters in
`[0, 1) × [0, 1)`: the point `P10 * (1 - u0) + P00 * u0`, whatever `v0`, `P01`
and `P11` are. -/
theorem evaluate_bilinear_inner (P00 P01 P10 P11 : Point K) (u0 v0 : K)
    (hu0 : 0 ≤ u0) (hu1 : u0 < 1) (hv0 : 0 ≤ v0) (hv1 : v0 < 1) :
    evaluate_b_spline_surface [[P00, P01], [P10, P11]] [0, 0, 1, 1] [0, 0, 1, 1] 1 1 u0 v0 =
      some ((P10.scale (1 - u0)).add (P00.scale u0)) := by
  unfold evaluate_b_spline_surface
  rw [findSpan_clamped_inner u0 hu0 hu1, findSpan_clamped_inner v0 hv0 hv1]
  simp [List.range_succ, getGrid, getInt, setGrid, stepV, stepU]

/-- What the evaluator does on the bilinear patch when a parameter reaches the
end of the knot domain: the span search stops at index `3` and the window is
read outside the 2 x 2 control grid. -/
theorem evaluate_bilinear_end (P00 P01 P10 P11 : Point K) (u0 v0 : K)
    (h : 1 ≤ u0 ∨ 1 ≤ v0) :
    evaluate_b_spline_surface [[P00, P01], [P10, P11]] [0, 0, 1, 1] [0, 0, 1, 1] 1 1 u0 v0 =
      none := by
  unfold evaluate_b_spline_surface
  rcases h with h | h
  · rw [findSpan_clamped_end u0 h]
    have hg : ∀ b : Int, getGrid [[P00, P01], [P10, P11]] 2 b = none :=
      fun b => getGrid_eq_none_of_row_le _ _ _ (by simp)
    simp [List.range_succ, hg]
  · rw [findSpan_clamped_end v0 h]
    have hg : ∀ a : Int, getGrid [[P00, P01], [P10, P11]] a 2 = none :=
      fun a => getGrid_eq_none_of_le _ _ _ (by simp)
    simp [List.range_succ, hg]

/-- C9 (what the code does). On every 2 x 2 control grid with degrees 1 and
knot vectors `[0, 0, 1, 1]` the evaluator returns `P[1][0]` at the corner
`(0, 0)`, and at the corners `(1, 0)`, `(1, 1)` and `(0, 1)` it reads outside the
control grid. -/
theorem evaluate_bilinear_corners (P00 P01 P10 P11 : Point K) :
    evaluate_b_spline_surface [[P00, P01], [P10, P11]] [0, 0, 1, 1] [0, 0, 1, 1] 1 1 0 0 =
      some P10 ∧
    evaluate_b_spline_surface [[P00, P01], [P10, P11]] [0, 0, 1, 1] [0, 0, 1, 1] 1 1 1 0 =
      none ∧
    evaluate_b_spline_surface [[P00, P01], [P10, P11]] [0, 0, 1, 1] [0, 0, 1, 1] 1 1 1 1 =
      none ∧
    evaluate_b_spline_surface [[P00, P01], [P10, P11]] [0, 0, 1, 1] [0, 0, 1, 1] 1 1 0 1 =
      none := by
  refine ⟨?_, ?_, ?_, ?_⟩
  · rw [evaluate_bilinear_inner P00 P01 P10 P11 0 0 le_rfl zero_lt_one le_rfl zero_lt_one]
    congr 1
    ext <;> simp [Point.add, Point.scale]
  · exact evaluate_bilinear_end P00 P01 P10 P11 1 0 (Or.inl le_rfl)
  · exact evaluate_bilinear_end P00 P01 P10 P11 1 1 (Or.inl le_rfl)
  · exact evaluate_bilinear_end P00 P01 P10 P11 0 1 (Or.inr le_rfl)

/-- C10 (what the code does). On the bilinear patch with control points
`P00 = (0,0,0)`, `P01 = (0,1,0)`, `P10 = (1,0,0)`, `P11 = (1,1,0)` the evaluator
returns `(1/2, 0, 0)` at `(u0, v0) = (1/2, 1/2)`, where the bilinear
interpolation is `(1/2, 1/2, 0)`. -/
theorem evaluate_not_bilinear :
    evaluate_b_spline_surface
      [[(⟨0, 0, 0⟩ : Point ℚ), ⟨0, 1, 0⟩], [⟨1, 0, 0⟩, ⟨1, 1, 0⟩]]
      [0, 0, 1, 1] [0, 0, 1, 1] 1 1 (1 / 2) (1 / 2) = some ⟨1 / 2, 0, 0⟩ ∧
    bilinear (⟨0, 0, 0⟩ : Point ℚ) ⟨0, 1, 0⟩ ⟨1, 0, 0⟩ ⟨1, 1, 0⟩ (1 / 2) (1 / 2) =
      ⟨1 / 2, 1 / 2, 0⟩ := by
  constructor
  · rw [evaluate_bilinear_inner _ _ _ _ (1 / 2) (1 / 2) (by norm_num) (by norm_num)
      (by norm_num) (by norm_num)]
    congr 1
    ext <;> norm_num [Point.add, Point.scale]
  · ext <;> norm_num [bilinear, Point.add, Point.scale]

end Evaluator

section EvaluatorContract

/-- A negative index is out of range. -/
theorem getInt_eq_none_of_neg {α : Type} (l : List α) (z : Int) (h : z < 0) :
    getInt l z = none := by
  unfold getInt
  simp [h]

/-- Reading a negative row is out of range. -/
theorem getGrid_eq_none_of_row_neg {K : Type} (p : List (List (Point K))) (a b : Int)
    (h : a < 0) : getGrid p a b = none := by
  unfold getGrid
  simp [getInt_eq_none_of_neg p a h]

/-- Reading a negative column is out of range. -/
theorem getGrid_eq_none_of_col_neg {K : Type} (p : List (List (Point K))) (a b : Int)
    (h : b < 0) : getGrid p a b = none := by
  unfold getGrid
  cases getInt p a with
  | none => rfl
  | some row => simp [getInt_eq_none_of_neg row b h]

/-- A traversal in which one element has no result has no result. -/
theorem mapM'_eq_none_of_mem {α β : Type} (f : α → Option β) (l : List α) (x : α)
    (hx : x ∈ l) (h : f x = none) : l.mapM' f = none := by
  induction l with
  | nil => cases hx
  | cons y ys ih =>
    rw [List.mapM'_cons]
    rcases List.mem_cons.mp hx with rfl | hmem
    · simp [h]
    · cases f y with
      | none => rfl
      | some z => simp [ih hmem]

variable {K : Type} [LinearOrderedField K]

/-- When one entry of the window `p[i - k1 + a][j - k2 + b]`, `a ≤ k1`, `b ≤ k2`,
is outside the control grid, the evaluator has no defined result. -/
theorem evaluate_eq_none_of_window (p : List (List (Point K))) (u v : List K)
    (k1 k2 : Nat) (u0 v0 : K) (a b : Nat) (ha : a ≤ k1) (hb : b ≤ k2)
    (h : getGrid p ((findSpan u u0 : Int) - k1 + a) ((findSpan v v0 : Int) - k2 + b) = none) :
    evaluate_b_spline_surface p u v k1 k2 u0 v0 = none := by
  have hw : ((List.range (k1 + 1)).mapM' fun a : Nat =>
      (List.range (k2 + 1)).mapM' fun b : Nat =>
        getGrid p ((findSpan u u0 : Int) - k1 + a) ((findSpan v v0 : Int) - k2 + b)) = none := by
    apply mapM'_eq_none_of_mem _ _ a (List.mem_range.mpr (by omega))
    exact mapM'_eq_none_of_mem _ _ b (List.mem_range.mpr (by omega)) h
  unfold evaluate_b_spline_surface
  cases p[0]? with
  | none => rfl
  | some row0 =>
    simp only [Option.bind_eq_bind, Option.some_bind]
    rw [hw]
    rfl

/-- The span search runs to the last knot when no knot exceeds the parameter. -/
theorem spanLoop_of_all_le (u0 : K) (rest : List K) (i : Nat) (h : ∀ x ∈ rest, x ≤ u0) :
    spanLoop u0 rest i = i + rest.length := by
  induction rest generalizing i with
  | nil => simp [spanLoop]
  | cons x xs ih =>
    have hx : x ≤ u0 := h x (List.mem_cons_self _ _)
    simp only [spanLoop, hx, if_true, List.length_cons]
    rw [ih (i + 1) (fun y hy => h y (List.mem_cons_of_mem _ hy))]
    omega

/-- The span search stops at index `0` when the parameter is below every knot. -/
theorem findSpan_of_all_gt (u : List K) (u0 : K) (h : ∀ x ∈ u, u0 < x) :
    findSpan u u0 = 0 := by
  unfold findSpan
  cases hu : u.tail with
  | nil => rfl
  | cons x xs =>
    have hx : x ∈ u := List.mem_of_mem_tail (by rw [hu]; exact List.mem_cons_self _ _)
    simp [spanLoop, not_le.mpr (h x hx)]

/-- The span search stops at the last index when the parameter is above every
knot. -/
theorem findSpan_of_all_lt (u : List K) (u0 : K) (h : ∀ x ∈ u, x < u0) :
    findSpan u u0 = u.length - 1 := by
  unfold findSpan
  rw [spanLoop_of_all_le u0 u.tail 0
    (fun x hx => le_of_lt (h x (List.mem_of_mem_tail hx)))]
  simp

end EvaluatorContract

section EvaluatorContractClaims

variable {K : Type} [LinearOrderedField K]

/-- A control grid with fewer than `k1 + 1` rows: the window leaves the grid. -/
theorem evaluate_eq_none_of_few_rows (p : List (List (Point K))) (u v : List K)
    (k1 k2 : Nat) (u0 v0 : K) (h : p.length < k1 + 1) :
    evaluate_b_spline_surface p u v k1 k2 u0 v0 = none := by
  by_cases hi : (findSpan u u0 : Int) - k1 < 0
  · exact evaluate_eq_none_of_window p u v k1 k2 u0 v0 0 0 (Nat.zero_le _) (Nat.zero_le _)
      (getGrid_eq_none_of_row_neg _ _ _ (by push_cast; omega))
  · exact evaluate_eq_none_of_window p u v k1 k2 u0 v0 k1 0 le_rfl (Nat.zero_le _)
      (getGrid_eq_none_of_row_le _ _ _ (by omega))

/-- A control grid in which every row has fewer than `k2 + 1` columns: the
window leaves the grid. -/
theorem evaluate_eq_none_of_few_cols (p : List (List (Point K))) (u v : List K)
    (k1 k2 : Nat) (u0 v0 : K) (h : ∀ row ∈ p, row.length < k2 + 1) :
    evaluate_b_spline_surface p u v k1 k2 u0 v0 = none := by
  by_cases hj : (findSpan v v0 : Int) - k2 < 0
  · exact evaluate_eq_none_of_window p u v k1 k2 u0 v0 0 0 (Nat.zero_le _) (Nat.zero_le _)
      (getGrid_eq_none_of_col_neg _ _ _ (by push_cast; omega))
  · exact evaluate_eq_none_of_window p u v k1 k2 u0 v0 0 k2 (Nat.zero_le _) le_rfl
      (getGrid_eq_none_of_le _ _ _ (fun row hrow => by have := h row hrow; omega))

/-- C11 (as amended). The evaluator has no error path; what it has is no defined
result (a read outside the control grid) in each of these cases: the grid has
fewer than `k1 + 1` rows; every row has fewer than `k2 + 1` columns; `u0` is
above every knot of a knot vector of length `rows + k1 + 1`; `u0` is below every
knot and `k1 ≥ 1`; `v0` is above every knot of a knot vector of length
`columns + k2 + 1`; `v0` is below every knot and `k2 ≥ 1`. -/
theorem evaluate_no_point (p : List (List (Point K))) (u v : List K) (k1 k2 : Nat)
    (u0 v0 : K) :
    (p.length < k1 + 1 → evaluate_b_spline_surface p u v k1 k2 u0 v0 = none) ∧
    ((∀ row ∈ p, row.length < k2 + 1) →
      evaluate_b_spline_surface p u v k1 k2 u0 v0 = none) ∧
    (u.length = p.length + k1 + 1 → (∀ x ∈ u, x < u0) →
      evaluate_b_spline_surface p u v k1 k2 u0 v0 = none) ∧
    (1 ≤ k1 → (∀ x ∈ u, u0 < x) →
      evaluate_b_spline_surface p u v k1 k2 u0 v0 = none) ∧
    ((∀ row ∈ p, v.length = row.length + k2 + 1) → (∀ x ∈ v, x < v0) →
      evaluate_b_spline_surface p u v k1 k2 u0 v0 = none) ∧
    (1 ≤ k2 → (∀ x ∈ v, v0 < x) →
      evaluate_b_spline_surface p u v k1 k2 u0 v0 = none) := by
  refine ⟨evaluate_eq_none_of_few_rows p u v k1 k2 u0 v0,
    evaluate_eq_none_of_few_cols p u v k1 k2 u0 v0, ?_, ?_, ?_, ?_⟩
  · intro hlen habove
    apply evaluate_eq_none_of_window p u v k1 k2 u0 v0 0 0 (Nat.zero_le _) (Nat.zero_le _)
    apply getGrid_eq_none_of_row_le
    rw [findSpan_of_all_lt u u0 habove]
    omega
  · intro hk hbelow
    apply evaluate_eq_none_of_window p u v k1 k2 u0 v0 0 0 (Nat.zero_le _) (Nat.zero_le _)
    apply getGrid_eq_none_of_row_neg
    rw [findSpan_of_all_gt u u0 hbelow]
    push_cast
    omega
  · intro hlen habove
    apply evaluate_eq_none_of_window p u v k1 k2 u0 v0 0 0 (Nat.zero_le _) (Nat.zero_le _)
    apply getGrid_eq_none_of_le
    intro row hrow
    rw [findSpan_of_all_lt v v0 habove]
    have := hlen row hrow
    omega
  · intro hk hbelow
    apply evaluate_eq_none_of_window p u v k1 k2 u0 v0 0 0 (Nat.zero_le _) (Nat.zero_le _)
    apply getGrid_eq_none_of_col_neg
    rw [findSpan_of_all_gt v v0 hbelow]
    push_cast
    omega

/-- Witness for C11 (as amended): on the bilinear patch the parameter `u0 = 5`,
above every knot of `[0, 0, 1, 1]`, gives no point. -/
theorem evaluate_no_point_witness :
    evaluate_b_spline_surface
      [[(⟨0, 0, 0⟩ : Point ℚ), ⟨0, 1, 0⟩], [⟨1, 0, 0⟩, ⟨1, 1, 0⟩]]
      [0, 0, 1, 1] [0, 0, 1, 1] 1 1 5 0 = none :=
  (evaluate_no_point _ _ _ 1 1 5 0).2.2.1 (by simp) (by
    intro x hx
    simp only [List.mem_cons, List.mem_singleton, List.not_mem_nil, or_false] at hx
    rcases hx with rfl | rfl | rfl | rfl <;> norm_num)

/-- C11 (counterexample). For the degree-0 patch with the single control point
`(7, 8, 9)` and knot vectors `[0, 1]`, the parameter `u0 = -1`, below the knot
domain, yields the point `(7, 8, 9)`; and for the bilinear patch the in-domain
parameter `(1, 0)`, the end of the knot domain, yields no point. -/
theorem evaluate_error_contract_counterexample :
    evaluate_b_spline_surface [[(⟨7, 8, 9⟩ : Point ℚ)]] [0, 1] [0, 1] 0 0 (-1) 0 =
      some ⟨7, 8, 9⟩ ∧
    evaluate_b_spline_surface
      [[(⟨0, 0, 0⟩ : Point ℚ), ⟨0, 1, 0⟩], [⟨1, 0, 0⟩, ⟨1, 1, 0⟩]]
      [0, 0, 1, 1] [0, 0, 1, 1] 1 1 1 0 = none := by
  constructor
  · have hu : findSpan [0, 1] (-1 : ℚ) = 0 := by
      simp only [findSpan, spanLoop, List.tail_cons]
      norm_num
    have hv : findSpan [0, 1] (0 : ℚ) = 0 := by
      simp only [findSpan, spanLoop, List.tail_cons]
      norm_num
    unfold evaluate_b_spline_surface
    rw [hu, hv]
    simp [List.range_succ, getGrid, getInt]
  · exact evaluate_bilinear_end _ _ _ _ 1 0 (Or.inl le_rfl)

end EvaluatorContractClaims

section Tessellation

/-- A loop that appends a block per element builds the concatenation of the
blocks. -/
theorem foldlM_append_blocks {α β : Type} (body : List β → α → Option (List β))
    (Q : α → List β) (l : List α) (acc : List β)
    (h : ∀ x ∈ l, ∀ acc' : List β, body acc' x = some (acc' ++ Q x)) :
    l.foldlM body acc = some (acc ++ l.flatMap Q) := by
  induction l generalizing acc with
  | nil => simp
  | cons x xs ih =>
    rw [List.foldlM_cons, h x (List.mem_cons_self _ _) acc]
    simp only [Option.bind_eq_bind, Option.some_bind]
    rw [ih (acc ++ Q x) (fun y hy => h y (List.mem_cons_of_mem _ hy))]
    simp

/-- Length of a concatenation of blocks of the same length. -/
theorem length_flatMap_range {β : Type} (g : Nat → List β) (c : Nat)
    (hc : ∀ i, (g i).length = c) (n : Nat) :
    ((List.range n).flatMap g).length = c * n := by
  induction n with
  | zero => simp
  | succ n ih =>
    rw [List.range_succ, List.flatMap_append, List.length_append, ih]
    simp [hc, Nat.mul_succ]

/-- Entry `c * i + t` of a concatenation of blocks of length `c` is entry `t` of
block `i`. -/
theorem getElem?_flatMap_range {β : Type} (g : Nat → List β) (c : Nat)
    (hc : ∀ i, (g i).length = c) (n i t : Nat) (hi : i < n) (ht : t < c) :
    ((List.range n).flatMap g)[c * i + t]? = (g i)[t]? := by
  induction n with
  | zero => omega
  | succ n ih =>
    rw [List.range_succ, List.flatMap_append]
    have hlen := length_flatMap_range g c hc n
    by_cases hin : i < n
    · have hlt : c * i + t < ((List.range n).flatMap g).length := by
        rw [hlen]
        calc c * i + t < c * i + c := by omega
          _ = c * (i + 1) := by ring
          _ ≤ c * n := Nat.mul_le_mul_left _ hin
      rw [List.getElem?_append_left hlt]
      exact ih hin
    · have hieq : i = n := by omega
      subst hieq
      have hle : ((List.range i).flatMap g).length ≤ c * i + t := by
        rw [hlen]
        omega
      rw [List.getElem?_append_right hle, hlen]
      simp

end Tessellation

section TessellationClaims

variable {K : Type} [LinearOrderedField K]

/-- The layout the tessellation loop produces when every evaluation has a
result: when the evaluator yields a point `S a b` at every
sampled parameter pair `(a * du, b * dv)`, `0 ≤ a, b ≤ n`, `du = dv = 1 / n`, the
tessellation loop yields exactly `4 * n * n` points, and for `i, j < n` the
entries `4 (i n + j)`, `+1`, `+2`, `+3` are `S i j`, `S (i+1) j`, `S (i+1) (j+1)`,
`S i (j+1)`. -/
theorem tessellation_layout (p : List (List (Point K))) (u v : List K) (k1 k2 n : Nat)
    (S : Nat → Nat → Point K)
    (hS : ∀ a b : Nat, a ≤ n → b ≤ n →
      evaluate_b_spline_surface p u v k1 k2 ((a : K) * (1 / (n : K))) ((b : K) * (1 / (n : K))) =
        some (S a b)) :
    ∃ pts, tessellatePoints p u v k1 k2 n = some pts ∧ pts.length = 4 * n * n ∧
      ∀ i j : Nat, i < n → j < n →
        pts[4 * (i * n + j)]? = some (S i j) ∧
        pts[4 * (i * n + j) + 1]? = some (S (i + 1) j) ∧
        pts[4 * (i * n + j) + 2]? = some (S (i + 1) (j + 1)) ∧
        pts[4 * (i * n + j) + 3]? = some (S i (j + 1)) := by
  let quadAt : Nat → Nat → List (Point K) := fun i j =>
    [S i j, S (i + 1) j, S (i + 1) (j + 1), S i (j + 1)]
  let row : Nat → List (Point K) := fun i => (List.range n).flatMap (quadAt i)
  have hquad : ∀ i j, (quadAt i j).length = 4 := fun _ _ => rfl
  have hrow : ∀ i, (row i).length = 4 * n := fun i =>
    length_flatMap_range (quadAt i) 4 (hquad i) n
  have hrun : tessellatePoints p u v k1 k2 n = some ([] ++ (List.range n).flatMap row) := by
    unfold tessellatePoints
    apply foldlM_append_blocks
    intro i hi acc
    have hin : i < n := List.mem_range.mp hi
    apply foldlM_append_blocks
    intro j hj acc'
    have hjn : j < n := List.mem_range.mp hj
    rw [hS i j (by omega) (by omega), hS (i + 1) j (by omega) (by omega),
      hS (i + 1) (j + 1) (by omega) (by omega), hS i (j + 1) (by omega) (by omega)]
    rfl
  refine ⟨[] ++ (List.range n).flatMap row, hrun, ?_, ?_⟩
  · rw [List.nil_append, length_flatMap_range row (4 * n) hrow n]
  · intro i j hi hj
    have hidx : ∀ t, t < 4 →
        ([] ++ (List.range n).flatMap row)[4 * (i * n + j) + t]? = (quadAt i j)[t]? := by
      intro t ht
      have e : 4 * (i * n + j) + t = 4 * n * i + (4 * j + t) := by ring
      rw [List.nil_append, e,
        getElem?_flatMap_range row (4 * n) hrow n i (4 * j + t) hi (by omega)]
      exact getElem?_flatMap_range (quadAt i) 4 (hquad i) n j t hj ht
    refine ⟨?_, ?_, ?_, ?_⟩
    · have := hidx 0 (by omega)
      simpa using this
    · exact hidx 1 (by omega)
    · exact hidx 2 (by omega)
    · exact hidx 3 (by omega)

/-- Instance of `tessellation_layout`: the degree-0 patch with control points
`P[a][b]` and knot vectors `[0, 1, 2]`, sampled with `n = 1`; the evaluator
yields `P[a][b]` at `(a, b)`, `a, b ≤ 1`. -/
theorem tessellation_layout_witness :
    ∃ pts, tessellatePoints
        [[(⟨0, 0, 0⟩ : Point ℚ), ⟨0, 1, 0⟩], [⟨1, 0, 0⟩, ⟨1, 1, 0⟩]]
        [0, 1, 2] [0, 1, 2] 0 0 1 = some pts ∧ pts.length = 4 * 1 * 1 ∧
      ∀ i j : Nat, i < 1 → j < 1 →
        pts[4 * (i * 1 + j)]? = some ((fun a b : Nat => (⟨a, b, 0⟩ : Point ℚ)) i j) ∧
        pts[4 * (i * 1 + j) + 1]? = some ((fun a b : Nat => (⟨a, b, 0⟩ : Point ℚ)) (i + 1) j) ∧
        pts[4 * (i * 1 + j) + 2]? =
          some ((fun a b : Nat => (⟨a, b, 0⟩ : Point ℚ)) (i + 1) (j + 1)) ∧
        pts[4 * (i * 1 + j) + 3]? =
          some ((fun a b : Nat => (⟨a, b, 0⟩ : Point ℚ)) i (j + 1)) :=
  tessellation_layout _ _ _ 0 0 1 (fun a b : Nat => (⟨a, b, 0⟩ : Point ℚ)) (by
    intro a b ha hb
    have hs0 : findSpan [0, 1, 2] (0 : ℚ) = 0 := by
      simp only [findSpan, spanLoop, List.tail_cons]
      norm_num
    have hs1 : findSpan [0, 1, 2] (1 : ℚ) = 1 := by
      simp only [findSpan, spanLoop, List.tail_cons]
      norm_num
    have ha' : a = 0 ∨ a = 1 := by omega
    have hb' : b = 0 ∨ b = 1 := by omega
    rcases ha' with rfl | rfl <;> rcases hb' with rfl | rfl <;>
      (unfold evaluate_b_spline_surface
       norm_num [hs0, hs1, List.range_succ, getGrid, getInt]))

end TessellationClaims

section Queue

variable {K : Type} [LinearOrderedField K]

/-- The top of a queue is one of its entries. -/
theorem pqTop_mem (pq : List (K × Nat)) (x : K × Nat) (h : pqTop pq = some x) : x ∈ pq := by
  induction pq generalizing x with
  | nil => simp [pqTop] at h
  | cons y ys ih =>
    simp only [pqTop] at h
    cases hys : pqTop ys with
    | none =>
      rw [hys] at h
      simp only [Option.some.injEq] at h
      rw [← h]
      exact List.mem_cons_self _ _
    | some z =>
      rw [hys] at h
      simp only at h
      split at h
      · simp only [Option.some.injEq] at h
        rw [← h]
        exact List.mem_cons_of_mem _ (ih z hys)
      · simp only [Option.some.injEq] at h
        rw [← h]
        exact List.mem_cons_self _ _

/-- The top of a queue has the largest first component of all entries. -/
theorem pqTop_max (pq : List (K × Nat)) (x : K × Nat) (h : pqTop pq = some x) :
    ∀ y ∈ pq, y.1 ≤ x.1 := by
  induction pq generalizing x with
  | nil => simp [pqTop] at h
  | cons z zs ih =>
    simp only [pqTop] at h
    cases hzs : pqTop zs with
    | none =>
      rw [hzs] at h
      simp only [Option.some.injEq] at h
      have hnil : zs = [] := by
        cases zs with
        | nil => rfl
        | cons w ws =>
          simp only [pqTop] at hzs
          cases hws : pqTop ws with
          | none => rw [hws] at hzs; simp at hzs
          | some t => rw [hws] at hzs; simp only at hzs; split at hzs <;> simp at hzs
      intro y hy
      rw [hnil] at hy
      simp only [List.mem_singleton] at hy
      rw [hy, h]
    | some t =>
      rw [hzs] at h
      simp only at h
      have iht := ih t hzs
      intro y hy
      split at h
      · rename_i hlt
        simp only [Option.some.injEq] at h
        rw [← h]
        rcases List.mem_cons.mp hy with rfl | hmem
        · rcases hlt with h1 | ⟨h1, -⟩
          · exact le_of_lt h1
          · exact le_of_eq h1
        · exact iht y hmem
      · rename_i hnlt
        simp only [Option.some.injEq] at h
        rw [← h]
        rcases List.mem_cons.mp hy with rfl | hmem
        · exact le_rfl
        · have hty := iht y hmem
          have hzt : t.1 ≤ z.1 := by
            by_contra hcon
            exact hnlt (Or.inl (not_le.mp hcon))
          exact le_trans hty hzt

/-- A non-empty queue has a top. -/
theorem pqTop_isSome (pq : List (K × Nat)) (h : pq ≠ []) : ∃ x, pqTop pq = some x := by
  cases pq with
  | nil => exact absurd rfl h
  | cons y ys =>
    simp only [pqTop]
    cases pqTop ys with
    | none => exact ⟨y, rfl⟩
    | some z =>
      simp only
      split
      · exact ⟨z, rfl⟩
      · exact ⟨y, rfl⟩

end Queue

section LoopHead

/-- A quad whose four computed angles are `π / 2` has quality `1`. -/
theorem quadQuality_eq_one_of_right (p1 p2 p3 p4 : Point ℝ)
    (h1 : quadAngle1 p1 p2 p3 p4 = Real.pi / 2) (h2 : quadAngle2 p1 p2 p3 p4 = Real.pi / 2)
    (h3 : quadAngle3 p1 p2 p3 p4 = Real.pi / 2) (h4 : quadAngle4 p1 p2 p3 p4 = Real.pi / 2) :
    quadQuality p1 p2 p3 p4 = 1 := by
  unfold quadQuality qualityOfAngles
  rw [h1, h2, h3, h4]
  simp only [min_self, max_self]
  exact div_self (ne_of_gt (div_pos Real.pi_pos (by norm_num)))

/-- An axis-parallel unit square in the plane `z = 0` has quality `1`. -/
theorem quadQuality_unit_square (x y : ℝ) :
    quadQuality ⟨x, y, 0⟩ ⟨x + 1, y, 0⟩ ⟨x + 1, y + 1, 0⟩ ⟨x, y + 1, 0⟩ = 1 := by
  have hang : ∀ a b c d : Point ℝ,
      (Vector.normalize (b.sub a)).dot (Vector.normalize (d.sub c)) = 0 →
      angle ⟨a, b⟩ ⟨c, d⟩ = Real.pi / 2 := by
    intro a b c d h
    rw [angle_eq_arccos a b c d 0 (by norm_num) (by norm_num) h, Real.arccos_zero]
  apply quadQuality_eq_one_of_right
  · exact hang _ _ _ _ (by simp [Vector.normalize, Vector.length, Vector.dot, Point.sub])
  · exact hang _ _ _ _ (by simp [Vector.normalize, Vector.length, Vector.dot, Point.sub])
  · exact hang _ _ _ _ (by simp [Vector.normalize, Vector.length, Vector.dot, Point.sub])
  · exact hang _ _ _ _ (by simp [Vector.normalize, Vector.length, Vector.dot, Point.sub])

/-- The loop does not start when the top of the queue reaches the threshold. -/
theorem refineLoop_of_not_loopCond (fuel : Nat) (s : MeshState) (n : Nat)
    (h : loopCond s = false) : refineLoop fuel s n = Outcome.finished s n := by
  cases fuel with
  | zero => simp [refineLoop, h]
  | succ fuel => simp [refineLoop, h]

/-- The first component of an entry of the initial queue is one of the initial
qualities. -/
theorem initialQueue_mem (quality : List ℝ) (x : ℝ × Nat) (h : x ∈ initialQueue quality) :
    x.1 ∈ quality := by
  unfold initialQueue at h
  obtain ⟨q, i⟩ := x
  exact (List.of_mem_zip h).1

/-- C15. Termination scenario: for every body whose quads all have initial
quality at least `0.8`, `generate_mesh` finishes after zero iterations with the
body unchanged (and the queue as initialised), whatever the fuel. -/
theorem no_iteration_when_all_good (fuel : Nat) (body : Body ℝ) (a1 a2 a3 a4 : ℝ)
    (quality : List ℝ) (hq : initialQuality body = some quality)
    (hall : ∀ q ∈ quality, threshold ≤ q) :
    generate_mesh fuel body a1 a2 a3 a4 =
      Outcome.finished ⟨body, initialQueue quality, a1, a2, a3, a4⟩ 0 := by
  unfold generate_mesh
  rw [hq]
  apply refineLoop_of_not_loopCond
  unfold loopCond
  cases htop : pqTop (initialQueue quality) with
  | none => rfl
  | some x =>
    have hx := hall x.1 (initialQueue_mem quality x (pqTop_mem _ _ htop))
    simp only [decide_eq_false_iff_not, not_lt]
    exact hx

/-- The initial qualities of the 2 x 2 grid of unit squares. -/
theorem gridBody_quality : initialQuality gridBody = some [1, 1, 1, 1] := by
  have h00 := quadQuality_unit_square 0 0
  have h01 := quadQuality_unit_square 0 1
  have h10 := quadQuality_unit_square 1 0
  have h11 := quadQuality_unit_square 1 1
  norm_num at h00 h01 h10 h11
  simp [initialQuality, gridBody, faceQualities, h00, h01, h10, h11]

/-- Witness for C15: the 2 x 2 grid of unit squares on one planar face. -/
theorem no_iteration_when_all_good_witness :
    generate_mesh 100 gridBody 0 0 0 0 =
      Outcome.finished ⟨gridBody, initialQueue [1, 1, 1, 1], 0, 0, 0, 0⟩ 0 :=
  no_iteration_when_all_good 100 gridBody 0 0 0 0 [1, 1, 1, 1] gridBody_quality (by
    intro q hq
    simp only [List.mem_cons, List.mem_singleton, List.not_mem_nil, or_false, or_self] at hq
    rw [hq]
    unfold threshold
    norm_num)

end LoopHead

section QueueOrder

/-- The computed quality of the kite `(0,0,0), (7,0,0), (4,4,0), (0,7,0)`. -/
theorem kite_quality :
    quadQuality ⟨0, 0, 0⟩ ⟨7, 0, 0⟩ ⟨4, 4, 0⟩ ⟨0, 7, 0⟩ =
      Real.arccos (24 / 25) / (Real.pi - Real.arccos (3 / 5)) := by
  obtain ⟨i1, i2, i3, i4⟩ := kite_interior
  obtain ⟨c1, c2, c3, c4⟩ :=
    quadAngles_eq_pi_sub_interior ⟨0, 0, 0⟩ ⟨7, 0, 0⟩ ⟨4, 4, 0⟩ ⟨0, 7, 0⟩
  rw [i1] at c1
  rw [i2] at c2
  rw [i3] at c3
  rw [i4] at c4
  have hα0 : 0 < Real.arccos (24 / 25) := Real.arccos_pos.mpr (by norm_num)
  have hβ : Real.arccos (3 / 5) < Real.pi / 2 := Real.arccos_lt_pi_div_two.mpr (by norm_num)
  have hαβ : Real.arccos (24 / 25) < Real.arccos (3 / 5) :=
    Real.strictAntiOn_arccos ⟨by norm_num, by norm_num⟩ ⟨by norm_num, by norm_num⟩
      (by norm_num)
  have hpi := Real.pi_pos
  unfold quadQuality qualityOfAngles
  rw [c1, c2, c3, c4]
  have e3 : Real.pi - (Real.pi - Real.arccos (24 / 25)) = Real.arccos (24 / 25) := by ring
  rw [e3]
  rw [min_eq_left (show Real.arccos (24 / 25) ≤ Real.pi - Real.arccos (3 / 5) by linarith),
    min_eq_right (show Real.arccos (24 / 25) ≤ Real.pi - Real.arccos (3 / 5) by linarith),
    min_eq_right (show Real.arccos (24 / 25) ≤ Real.pi - Real.pi / 2 by linarith),
    max_eq_right (show Real.arccos (24 / 25) ≤ Real.pi - Real.arccos (3 / 5) by linarith),
    max_self,
    max_eq_right (show Real.pi - Real.pi / 2 ≤ Real.pi - Real.arccos (3 / 5) by linarith)]

/-- The quality of the kite is positive and below one half. -/
theorem kite_quality_bounds :
    0 < quadQuality ⟨0, 0, 0⟩ ⟨7, 0, 0⟩ ⟨4, 4, 0⟩ ⟨0, 7, 0⟩ ∧
    quadQuality ⟨0, 0, 0⟩ ⟨7, 0, 0⟩ ⟨4, 4, 0⟩ ⟨0, 7, 0⟩ < 1 / 2 := by
  rw [kite_quality]
  have hα0 : 0 < Real.arccos (24 / 25) := Real.arccos_pos.mpr (by norm_num)
  have hβ : Real.arccos (3 / 5) < Real.pi / 2 := Real.arccos_lt_pi_div_two.mpr (by norm_num)
  have hα : Real.arccos (24 / 25) ≤ Real.pi / 4 := by
    rw [Real.arccos_le_pi_div_four]
    have h2 : Real.sqrt 2 ≤ 48 / 25 := by
      rw [Real.sqrt_le_iff]
      constructor <;> norm_num
    linarith
  have hpi := Real.pi_pos
  have hden : 0 < Real.pi - Real.arccos (3 / 5) := by linarith
  constructor
  · exact div_pos hα0 hden
  · rw [div_lt_iff₀ hden]
    linarith

/-- The initial qualities of the body holding the unit square and the kite. -/
theorem kiteBody_quality :
    initialQuality kiteBody =
      some [1, quadQuality ⟨0, 0, 0⟩ ⟨7, 0, 0⟩ ⟨4, 4, 0⟩ ⟨0, 7, 0⟩] := by
  have h00 := quadQuality_unit_square 0 0
  norm_num at h00
  simp [initialQuality, kiteBody, faceQualities, h00]

/-- C12 (what the code does). The top of the queue, which the loop tests and
pops, has the largest quality of all entries.  For the body holding the unit
square (quality `1`) and the kite (quality below `1 / 2`) the loop therefore does
no iteration and ends with the entry of the kite, of quality below `0.8`, still
in the queue. -/
theorem queue_surfaces_best :
    (∀ (pq : List (ℝ × Nat)) (x : ℝ × Nat), pqTop pq = some x → ∀ y ∈ pq, y.1 ≤ x.1) ∧
    (∀ (fuel : Nat) (a1 a2 a3 a4 : ℝ), ∃ s : MeshState,
      generate_mesh fuel kiteBody a1 a2 a3 a4 = Outcome.finished s 0 ∧
      s.pq ≠ [] ∧ ∃ e ∈ s.pq, e.1 < threshold) := by
  refine ⟨pqTop_max, ?_⟩
  intro fuel a1 a2 a3 a4
  obtain ⟨hk0, hk1⟩ := kite_quality_bounds
  set qk := quadQuality ⟨0, 0, 0⟩ ⟨7, 0, 0⟩ ⟨4, 4, 0⟩ ⟨0, 7, 0⟩ with hqk
  have htop : pqTop (initialQueue [1, qk]) = some (1, 0) := by
    have hlt : pairLt ((1 : ℝ), 0) (qk, 1) = False := by
      simp only [pairLt, eq_iff_iff, iff_false, not_or, not_lt, not_and]
      constructor
      · linarith
      · intro h
        linarith
    simp [initialQueue, List.range_succ, pqTop, hlt]
  refine ⟨⟨kiteBody, initialQueue [1, qk], a1, a2, a3, a4⟩, ?_, ?_, (qk, 1), ?_, ?_⟩
  · unfold generate_mesh
    rw [kiteBody_quality]
    apply refineLoop_of_not_loopCond
    unfold loopCond
    simp only
    rw [htop]
    simp [threshold]
    norm_num
  · simp [initialQueue, List.range_succ]
  · simp [initialQueue, List.range_succ]
  · show qk < threshold
    unfold threshold
    linarith

end QueueOrder

section Adjacency

/-- C16 (what the code does). The unit square `A = (0,0,0),(1,0,0),(1,1,0),(0,1,0)`
and the square `B = (1,0,0),(2,0,0),(2,1,0),(1,1,0)` share the edge from `(1,0,0)`
to `(1,1,0)`.  In the face `B ++ A` the search started from `B` (slot 0) finds no
neighbour, while the search started from `A` (slot 1) finds `B` at offset 0.  In
the face `A ++ B` the search started from `A` (slot 0) finds `B` at offset 4,
while the search started from `B` (slot 1) returns offset 4, which is `B`
itself. -/
theorem neighbour_search_asymmetric :
    findNeighbour
      [(⟨1, 0, 0⟩ : Point ℚ), ⟨2, 0, 0⟩, ⟨2, 1, 0⟩, ⟨1, 1, 0⟩,
        ⟨0, 0, 0⟩, ⟨1, 0, 0⟩, ⟨1, 1, 0⟩, ⟨0, 1, 0⟩] 0
      ⟨⟨1, 0, 0⟩, ⟨2, 0, 0⟩, ⟨2, 1, 0⟩, ⟨1, 1, 0⟩⟩ = some none ∧
    findNeighbour
      [(⟨1, 0, 0⟩ : Point ℚ), ⟨2, 0, 0⟩, ⟨2, 1, 0⟩, ⟨1, 1, 0⟩,
        ⟨0, 0, 0⟩, ⟨1, 0, 0⟩, ⟨1, 1, 0⟩, ⟨0, 1, 0⟩] 1
      ⟨⟨0, 0, 0⟩, ⟨1, 0, 0⟩, ⟨1, 1, 0⟩, ⟨0, 1, 0⟩⟩ = some (some 0) ∧
    findNeighbour
      [(⟨0, 0, 0⟩ : Point ℚ), ⟨1, 0, 0⟩, ⟨1, 1, 0⟩, ⟨0, 1, 0⟩,
        ⟨1, 0, 0⟩, ⟨2, 0, 0⟩, ⟨2, 1, 0⟩, ⟨1, 1, 0⟩] 0
      ⟨⟨0, 0, 0⟩, ⟨1, 0, 0⟩, ⟨1, 1, 0⟩, ⟨0, 1, 0⟩⟩ = some (some 4) ∧
    findNeighbour
      [(⟨0, 0, 0⟩ : Point ℚ), ⟨1, 0, 0⟩, ⟨1, 1, 0⟩, ⟨0, 1, 0⟩,
        ⟨1, 0, 0⟩, ⟨2, 0, 0⟩, ⟨2, 1, 0⟩, ⟨1, 1, 0⟩] 1
      ⟨⟨1, 0, 0⟩, ⟨2, 0, 0⟩, ⟨2, 1, 0⟩, ⟨1, 1, 0⟩⟩ = some (some 4) := by
  refine ⟨?_, ?_, ?_, ?_⟩ <;> decide

end Adjacency

section Branches

/-- What the smoothing branch returns: the state as it was, or the state with
the relocated corners committed and at most one pushed entry. -/
theorem smoothingBranch_spec (s s' : MeshState) (q : ℝ) (i f j : Nat)
    (h : smoothingBranch s q i f j = some s') :
    s' = s ∨ ∃ face c, s.body.faces[f]? = some face ∧ getQuad face.points (4 * j) = some c ∧
      smoothValid s.body (smoothPoints c) = true ∧
      s' = { s with
        body := s.body.setPoints f face (setQuad face.points j (smoothPoints c))
        pq := if qualityOfAngles s.a1 s.a2 s.a3 s.a4 > q then
            (qualityOfAngles s.a1 s.a2 s.a3 s.a4, i) :: s.pq else s.pq } := by
  unfold smoothingBranch at h
  cases hf : s.body.faces[f]? with
  | none => rw [hf] at h; simp at h
  | some face =>
    rw [hf] at h
    simp only [Option.bind_eq_bind, Option.some_bind] at h
    cases hc : getQuad face.points (4 * j) with
    | none => rw [hc] at h; simp at h
    | some c =>
      rw [hc] at h
      simp only [Option.some_bind] at h
      by_cases hv : smoothValid s.body (smoothPoints c) = true
      · rw [if_pos hv] at h
        right
        refine ⟨face, c, rfl, hc, hv, ?_⟩
        exact (Option.some.inj h).symm
      · rw [if_neg hv] at h
        left
        exact (Option.some.inj h).symm

/-- What the recomputation after an exchange returns. -/
theorem requeue_spec (s s' : MeshState) (q r : ℝ) (i f j l : Nat) (face : Face ℝ)
    (pts : List (Point ℝ)) (h : requeue s q r i f j l face pts = some s') :
    ∃ p n, getQuad pts (4 * j) = some p ∧ getQuad pts l = some n ∧
      s'.body = s.body.setPoints f face pts ∧
      s'.pq = (if n.quality > r then
          (n.quality, l) :: (if p.quality > q then (p.quality, i) :: s.pq else s.pq)
        else (if p.quality > q then (p.quality, i) :: s.pq else s.pq)) := by
  unfold requeue at h
  cases hp : getQuad pts (4 * j) with
  | none => rw [hp] at h; simp at h
  | some p =>
    rw [hp] at h
    simp only [Option.bind_eq_bind, Option.some_bind] at h
    cases hn : getQuad pts l with
    | none => rw [hn] at h; simp at h
    | some n =>
      rw [hn] at h
      simp only [Option.some_bind] at h
      refine ⟨p, n, rfl, rfl, ?_, ?_⟩
      · rw [← Option.some.inj h]
      · rw [← Option.some.inj h]

/-- What the reconnection branch returns: the state as it was, or the result of
an exchange with a neighbour followed by the recomputation. -/
theorem reconnectionBranch_spec (s s' : MeshState) (q : ℝ) (i f j : Nat)
    (h : reconnectionBranch s q i f j = some s') :
    s' = s ∨ ∃ face p l n pts, s.body.faces[f]? = some face ∧
      getQuad face.points (4 * j) = some p ∧
      findNeighbour face.points j p = some (some l) ∧
      getQuad face.points l = some n ∧
      exchange (minAngle s.a1 s.a2 s.a3 s.a4).1 face.points j l = some pts ∧
      requeue s q n.quality i f j l face pts = some s' := by
  unfold reconnectionBranch at h
  cases hf : s.body.faces[f]? with
  | none => rw [hf] at h; simp at h
  | some face =>
    rw [hf] at h
    simp only [Option.bind_eq_bind, Option.some_bind] at h
    cases hp : getQuad face.points (4 * j) with
    | none => rw [hp] at h; simp at h
    | some p =>
      rw [hp] at h
      simp only [Option.some_bind] at h
      cases hfound : findNeighbour face.points j p with
      | none => rw [hfound] at h; simp at h
      | some found =>
        rw [hfound] at h
        simp only [Option.some_bind] at h
        cases found with
        | none =>
          left
          exact (Option.some.inj h).symm
        | some l =>
          simp only at h
          cases hn : getQuad face.points l with
          | none => rw [hn] at h; simp at h
          | some n =>
            rw [hn] at h
            simp only [Option.some_bind] at h
            split at h
            · cases hx : exchange (minAngle s.a1 s.a2 s.a3 s.a4).1 face.points j l with
              | none => rw [hx] at h; simp at h
              | some pts =>
                rw [hx] at h
                simp only [Option.some_bind] at h
                right
                refine ⟨face, p, l, n, pts, rfl, hp, hfound, hn, hx, ?_⟩
                split at h
                · exact h
                · exact h
            · left
              exact (Option.some.inj h).symm

end Branches

section Shape

/-- Replacing the points of a face by as many points does not change the shapes
of the faces. -/
theorem Body.setPoints_shape (body : Body ℝ) (f : Nat) (face : Face ℝ)
    (pts : List (Point ℝ)) (hf : body.faces[f]? = some face)
    (hlen : pts.length = face.points.length) :
    (body.setPoints f face pts).faces.map Face.shape = body.faces.map Face.shape := by
  unfold Body.setPoints
  simp only [List.map_set]
  apply List.ext_getElem?
  intro n
  rw [List.getElem?_set]
  split
  · rename_i hfn
    subst hfn
    simp only [List.length_map, List.getElem?_map, hf, Option.map_some']
    have hlt : f < body.faces.length := by
      by_contra hge
      rw [List.getElem?_eq_none (by omega)] at hf
      cases hf
    simp only [hlt, if_true, Face.shape, hlen]
  · rfl

/-- Overwriting the corners of a slot keeps the number of points. -/
theorem setQuad_length (pts : List (Point ℝ)) (j : Nat) (c : Corners ℝ) :
    (setQuad pts j c).length = pts.length := by
  simp [setQuad]

/-- The vertex exchange keeps the number of points. -/
theorem exchange_length (k : Nat) (pts pts' : List (Point ℝ)) (j l : Nat)
    (h : exchange k pts j l = some pts') : pts'.length = pts.length := by
  unfold exchange at h
  split at h <;>
    (simp only [Option.bind_eq_bind, Option.bind_eq_some] at h
     obtain ⟨x, -, y, -, hy⟩ := h
     rw [← Option.some.inj hy]
     simp)

/-- The smoothing branch keeps the shapes of the faces. -/
theorem smoothingBranch_shape (s s' : MeshState) (q : ℝ) (i f j : Nat)
    (h : smoothingBranch s q i f j = some s') :
    s'.body.faces.map Face.shape = s.body.faces.map Face.shape := by
  rcases smoothingBranch_spec s s' q i f j h with rfl | ⟨face, c, hf, -, -, rfl⟩
  · rfl
  · exact Body.setPoints_shape s.body f face _ hf (setQuad_length _ _ _)

/-- The reconnection branch keeps the shapes of the faces. -/
theorem reconnectionBranch_shape (s s' : MeshState) (q : ℝ) (i f j : Nat)
    (h : reconnectionBranch s q i f j = some s') :
    s'.body.faces.map Face.shape = s.body.faces.map Face.shape := by
  rcases reconnectionBranch_spec s s' q i f j h with
    rfl | ⟨face, p, l, n, pts, hf, -, -, -, hx, hr⟩
  · rfl
  · obtain ⟨p', n', -, -, hbody, -⟩ := requeue_spec s s' q _ i f j l face pts hr
    rw [hbody]
    exact Body.setPoints_shape s.body f face pts hf (exchange_length _ _ _ _ _ hx)

/-- What one iteration does: it pops the top, resolves it to a face and a slot,
and runs the smoothing branch when the quad is classified convex and then the
reconnection branch when it is classified concave. -/
theorem step_spec (s s' : MeshState) (h : step s = some s') :
    ∃ top face0 face c s1, pqTop s.pq = some top ∧ s.body.faces[0]? = some face0 ∧
      face0.points.length / 4 ≠ 0 ∧
      s.body.faces[top.2 / (face0.points.length / 4)]? = some face ∧
      getQuad face.points (4 * (top.2 % (face0.points.length / 4))) = some c ∧
      (s1 = { s with pq := pqPop s.pq } ∨
        smoothingBranch { s with pq := pqPop s.pq } top.1 top.2
          (top.2 / (face0.points.length / 4)) (top.2 % (face0.points.length / 4)) = some s1) ∧
      (s' = s1 ∨
        reconnectionBranch s1 top.1 top.2
          (top.2 / (face0.points.length / 4)) (top.2 % (face0.points.length / 4)) = some s') := by
  unfold step at h
  cases htop : pqTop s.pq with
  | none => rw [htop] at h; simp at h
  | some top =>
    rw [htop] at h
    simp only [Option.bind_eq_bind, Option.some_bind] at h
    cases hf0 : s.body.faces[0]? with
    | none => rw [hf0] at h; simp at h
    | some face0 =>
      rw [hf0] at h
      simp only [Option.some_bind] at h
      by_cases hnq : face0.points.length / 4 = 0
      · rw [if_pos hnq] at h
        cases h
      · rw [if_neg hnq] at h
        cases hf : s.body.faces[top.2 / (face0.points.length / 4)]? with
        | none => rw [hf] at h; simp at h
        | some face =>
          rw [hf] at h
          simp only [Option.some_bind] at h
          cases hc : getQuad face.points (4 * (top.2 % (face0.points.length / 4))) with
          | none => rw [hc] at h; simp at h
          | some c =>
            rw [hc] at h
            simp only [Option.some_bind] at h
            by_cases hcv : (classify face.pl c).1 = true
            · rw [if_pos hcv] at h
              cases hs1 : smoothingBranch { s with pq := pqPop s.pq } top.1 top.2
                  (top.2 / (face0.points.length / 4)) (top.2 % (face0.points.length / 4)) with
              | none => rw [hs1] at h; simp at h
              | some s1 =>
                rw [hs1] at h
                simp only [Option.some_bind] at h
                refine ⟨top, face0, face, c, s1, rfl, rfl, hnq, hf, hc, Or.inr hs1, ?_⟩
                by_cases hcc : (classify face.pl c).2 = true
                · rw [if_pos hcc] at h
                  exact Or.inr h
                · rw [if_neg hcc] at h
                  exact Or.inl (Option.some.inj h).symm
            · rw [if_neg hcv] at h
              refine ⟨top, face0, face, c, _, rfl, rfl, hnq, hf, hc, Or.inl rfl, ?_⟩
              by_cases hcc : (classify face.pl c).2 = true
              · rw [if_pos hcc] at h
                exact Or.inr h
              · rw [if_neg hcc] at h
                exact Or.inl (Option.some.inj h).symm

/-- One iteration keeps the shapes of the faces. -/
theorem step_shape (s s' : MeshState) (h : step s = some s') :
    s'.body.faces.map Face.shape = s.body.faces.map Face.shape := by
  obtain ⟨top, face0, face, c, s1, -, -, -, -, -, h1, h2⟩ := step_spec s s' h
  have e1 : s1.body.faces.map Face.shape = s.body.faces.map Face.shape := by
    rcases h1 with rfl | h1
    · rfl
    · exact smoothingBranch_shape { s with pq := pqPop s.pq } _ _ _ _ _ h1
  rcases h2 with rfl | h2
  · exact e1
  · rw [reconnectionBranch_shape _ _ _ _ _ _ h2, e1]

end Shape

section FlatExample

/-- The face of `flatBody` is what the constructor builds from its points. -/
theorem flatBody_make :
    Face.make [(⟨0, 0, 0⟩ : Point ℝ), ⟨1, 0, 0⟩, ⟨2, 0, 0⟩, ⟨1, 1, 0⟩] =
      some ⟨[⟨0, 0, 0⟩, ⟨1, 0, 0⟩, ⟨2, 0, 0⟩, ⟨1, 1, 0⟩], ⟨0, 0, 0, 0⟩⟩ := by
  simp [Face.make, fitPlane, Vector.cross, Vector.dot, Vector.neg, Point.sub]

/-- A quad in which the second edge continues the first has quality `0`. -/
theorem quadQuality_eq_zero_of_angle2 (p1 p2 p3 p4 : Point ℝ)
    (h : quadAngle2 p1 p2 p3 p4 = 0) : quadQuality p1 p2 p3 p4 = 0 := by
  unfold quadQuality qualityOfAngles
  rw [h]
  have g1 : 0 ≤ quadAngle1 p1 p2 p3 p4 := angle_nonneg _ _
  have g3 : 0 ≤ quadAngle3 p1 p2 p3 p4 := angle_nonneg _ _
  have g4 : 0 ≤ quadAngle4 p1 p2 p3 p4 := angle_nonneg _ _
  have hmin : min (quadAngle1 p1 p2 p3 p4)
      (min 0 (min (quadAngle3 p1 p2 p3 p4) (quadAngle4 p1 p2 p3 p4))) = 0 := by
    rw [min_eq_left (le_min g3 g4), min_eq_right g1]
  rw [hmin]
  exact zero_div _

/-- The quality of the quad of `flatBody` is `0`, before and after the move. -/
theorem flatBody_quality :
    flatBody.qualityAt 0 0 = some 0 ∧ flatBodySmoothed.qualityAt 0 0 = some 0 := by
  have n1 := Vector.normalize_of_length (⟨1, 0, 0⟩ : Vector ℝ) 1 (by norm_num) (by norm_num)
  have n2 := Vector.normalize_of_length (⟨1 / 2, 0, 0⟩ : Vector ℝ) (1 / 2) (by norm_num)
    (by norm_num)
  have h1 : quadAngle2 (⟨0, 0, 0⟩ : Point ℝ) ⟨1, 0, 0⟩ ⟨2, 0, 0⟩ ⟨1, 1, 0⟩ = 0 := by
    unfold quadAngle2
    rw [angle_eq_arccos _ _ _ _ 1 (by norm_num) (by norm_num), Real.arccos_one]
    norm_num [Point.sub, n1, Vector.dot]
  have h2 : quadAngle2 (⟨1 / 2, 1 / 8, 0⟩ : Point ℝ) ⟨1, 1 / 8, 0⟩ ⟨3 / 2, 1 / 8, 0⟩
      ⟨1, 5 / 8, 0⟩ = 0 := by
    unfold quadAngle2
    rw [angle_eq_arccos _ _ _ _ 1 (by norm_num) (by norm_num), Real.arccos_one]
    norm_num [Point.sub, n2, Vector.dot]
  have e1 : flatBody.qualityAt 0 0 =
      some (quadQuality ⟨0, 0, 0⟩ ⟨1, 0, 0⟩ ⟨2, 0, 0⟩ ⟨1, 1, 0⟩) := rfl
  have e2 : flatBodySmoothed.qualityAt 0 0 =
      some (quadQuality ⟨1 / 2, 1 / 8, 0⟩ ⟨1, 1 / 8, 0⟩ ⟨3 / 2, 1 / 8, 0⟩ ⟨1, 5 / 8, 0⟩) := rfl
  rw [e1, e2, quadQuality_eq_zero_of_angle2 _ _ _ _ h1,
    quadQuality_eq_zero_of_angle2 _ _ _ _ h2]
  exact ⟨rfl, rfl⟩

/-- One iteration on `flatBody` with the queue `[(0, 0)]`: the quad is classified
convex (and concave), every relocated corner passes `inside`, and the relocated
corners are committed, whatever `a1 .. a4` hold. -/
theorem flatBody_step (a1 a2 a3 a4 : ℝ) :
    ∃ s', step ⟨flatBody, [(0, 0)], a1, a2, a3, a4⟩ = some s' ∧
      s'.body = flatBodySmoothed := by
  have hin : ∀ p : Point ℝ,
      Face.inside p ⟨[⟨0, 0, 0⟩, ⟨1, 0, 0⟩, ⟨2, 0, 0⟩, ⟨1, 1, 0⟩], ⟨0, 0, 0, 0⟩⟩ = true :=
    fun p => Face.inside_eq_true_of_normal_zero
      ⟨[⟨0, 0, 0⟩, ⟨1, 0, 0⟩, ⟨2, 0, 0⟩, ⟨1, 1, 0⟩], ⟨0, 0, 0, 0⟩⟩ rfl p
  have hcls : classify (⟨0, 0, 0, 0⟩ : Plane ℝ)
      ⟨⟨0, 0, 0⟩, ⟨1, 0, 0⟩, ⟨2, 0, 0⟩, ⟨1, 1, 0⟩⟩ = (true, true) := by
    simp [classify, Plane.normal, Vector.cross, Vector.dot]
  have hsm : smoothPoints (⟨⟨0, 0, 0⟩, ⟨1, 0, 0⟩, ⟨2, 0, 0⟩, ⟨1, 1, 0⟩⟩ : Corners ℝ) =
      ⟨⟨1 / 2, 1 / 8, 0⟩, ⟨1, 1 / 8, 0⟩, ⟨3 / 2, 1 / 8, 0⟩, ⟨1, 5 / 8, 0⟩⟩ := by
    simp only [smoothPoints, Point.add, Point.sub, Point.scale, Point.divide]
    norm_num
  have hsmooth : smoothingBranch ⟨flatBody, [], a1, a2, a3, a4⟩ 0 0 0 0 =
      some ⟨flatBodySmoothed,
        if qualityOfAngles a1 a2 a3 a4 > 0 then [(qualityOfAngles a1 a2 a3 a4, 0)] else [],
        a1, a2, a3, a4⟩ := by
    simp [smoothingBranch, flatBody, flatBodySmoothed, getQuad, hsm, smoothValid, hin,
      Body.setPoints, setQuad]
  have hrec : ∀ pq : List (ℝ × Nat),
      reconnectionBranch ⟨flatBodySmoothed, pq, a1, a2, a3, a4⟩ 0 0 0 0 =
        some ⟨flatBodySmoothed, pq, a1, a2, a3, a4⟩ := by
    intro pq
    simp [reconnectionBranch, flatBodySmoothed, getQuad, findNeighbour, neighbourLoop,
      List.range_succ]
  have htop : pqTop [((0 : ℝ), 0)] = some (0, 0) := by simp [pqTop]
  have hpop : pqPop [((0 : ℝ), 0)] = [] := by
    unfold pqPop
    rw [htop]
    exact List.erase_cons_head _ _
  refine ⟨⟨flatBodySmoothed,
    if qualityOfAngles a1 a2 a3 a4 > 0 then [(qualityOfAngles a1 a2 a3 a4, 0)] else [],
    a1, a2, a3, a4⟩, ?_, rfl⟩
  unfold step
  simp only [htop, hpop, Option.bind_eq_bind, Option.some_bind]
  simp [flatBody, getQuad, hcls]
  rw [show (⟨⟨[⟨[⟨0, 0, 0⟩, ⟨1, 0, 0⟩, ⟨2, 0, 0⟩, ⟨1, 1, 0⟩], ⟨0, 0, 0, 0⟩⟩]⟩, [],
      a1, a2, a3, a4⟩ : MeshState) = ⟨flatBody, [], a1, a2, a3, a4⟩ from rfl, hsmooth]
  simp [hrec]

end FlatExample

section RefinementClaims

/-- The quality read at face `f` after the points of face `f` were replaced. -/
theorem Body.qualityAt_setPoints (body : Body ℝ) (f off : Nat) (face : Face ℝ)
    (pts : List (Point ℝ)) (hf : body.faces[f]? = some face) :
    (body.setPoints f face pts).qualityAt f off = (getQuad pts off).map Corners.quality := by
  have hlt : f < body.faces.length := by
    by_contra hge
    rw [List.getElem?_eq_none (by omega)] at hf
    cases hf
  unfold Body.qualityAt Body.setPoints
  simp only [List.getElem?_set_self hlt, Option.bind_eq_bind, Option.some_bind]
  cases getQuad pts off <;> rfl

/-- C17. Smoothing is atomic on validity failure: when one of the four relocated
corners fails `inside` for some face of the body, the smoothing branch returns
the state unchanged: no point of the body changes and nothing is pushed. -/
theorem smoothing_atomic (s : MeshState) (q : ℝ) (i f j : Nat) (face : Face ℝ)
    (c : Corners ℝ) (hf : s.body.faces[f]? = some face)
    (hc : getQuad face.points (4 * j) = some c)
    (hfail : ∃ g ∈ s.body.faces,
      Face.inside (smoothPoints c).p1 g = false ∨ Face.inside (smoothPoints c).p2 g = false ∨
      Face.inside (smoothPoints c).p3 g = false ∨ Face.inside (smoothPoints c).p4 g = false) :
    smoothingBranch s q i f j = some s := by
  have hv : smoothValid s.body (smoothPoints c) = false := by
    unfold smoothValid
    rw [List.all_eq_false]
    obtain ⟨g, hg, hbad⟩ := hfail
    refine ⟨g, hg, ?_⟩
    rcases hbad with h | h | h | h <;> simp [h]
  unfold smoothingBranch
  simp [hf, hc, hv]

/-- Witness for C17: the unit square face, on which every relocated corner fails
`inside`. -/
theorem smoothing_atomic_witness :
    smoothingBranch ⟨⟨[unitSquareFace]⟩, [], 0, 0, 0, 0⟩ 0 0 0 0 =
      some ⟨⟨[unitSquareFace]⟩, [], 0, 0, 0, 0⟩ :=
  smoothing_atomic ⟨⟨[unitSquareFace]⟩, [], 0, 0, 0, 0⟩ 0 0 0 0 unitSquareFace
    ⟨⟨0, 0, 0⟩, ⟨1, 0, 0⟩, ⟨1, 1, 0⟩, ⟨0, 1, 0⟩⟩ rfl rfl
    ⟨unitSquareFace, List.mem_singleton.mpr rfl,
      Or.inl (Face.inside_eq_false_of_convex unitSquare unitSquareFace unitSquareFace_make
        unitSquareFace_convex _)⟩

/-- C18. Refinement never creates or destroys quads: an iteration of the loop
leaves the number of faces, and the number of points and the plane of every
face, unchanged. -/
theorem refinement_preserves_shape (s s' : MeshState) (h : step s = some s') :
    s'.body.faces.length = s.body.faces.length ∧
    ∀ n : Nat, (s'.body.faces[n]?).map Face.shape = (s.body.faces[n]?).map Face.shape := by
  have hmap := step_shape s s' h
  constructor
  · have := congrArg List.length hmap
    simpa using this
  · intro n
    have := congrArg (fun l => l[n]?) hmap
    simpa using this

/-- Witness for C18: the iteration on `flatBody`, which commits a smoothing. -/
theorem refinement_preserves_shape_witness :
    ∃ s', step ⟨flatBody, [(0, 0)], 0, 0, 0, 0⟩ = some s' ∧
      s'.body.faces.length = flatBody.faces.length ∧
      ∀ n : Nat, (s'.body.faces[n]?).map Face.shape = (flatBody.faces[n]?).map Face.shape := by
  obtain ⟨s', hs, -⟩ := flatBody_step 0 0 0 0
  exact ⟨s', hs, refinement_preserves_shape _ s' hs⟩

/-- C14 (as amended). An entry is pushed only for an improvement.  The smoothing
branch pushes at most `(q_new, i)` with `q_new > q`.  The reconnection branch
pushes at most `(q_new, i)` with `q_new > q`, where `q_new` is the quality of the
popped quad recomputed from the corners after the exchange, and `(r_new, l)` with
`r_new > r`, where `r` and `r_new` are the qualities of the quad at offset `l`
computed from its corners before and after the exchange. -/
theorem requeue_only_if_improved (s s' : MeshState) (q : ℝ) (i f j : Nat) :
    (smoothingBranch s q i f j = some s' →
      ∀ e ∈ s'.pq, e ∈ s.pq ∨ (e.2 = i ∧ q < e.1)) ∧
    (reconnectionBranch s q i f j = some s' →
      ∀ e ∈ s'.pq, e ∈ s.pq ∨
        (e.2 = i ∧ q < e.1 ∧ s'.body.qualityAt f (4 * j) = some e.1) ∨
        (∃ r, s.body.qualityAt f e.2 = some r ∧ r < e.1 ∧
          s'.body.qualityAt f e.2 = some e.1)) := by
  constructor
  · intro h e he
    rcases smoothingBranch_spec s s' q i f j h with rfl | ⟨face, c, -, -, -, rfl⟩
    · exact Or.inl he
    · simp only at he
      split at he
      · rename_i hgt
        rcases List.mem_cons.mp he with rfl | hmem
        · exact Or.inr ⟨rfl, hgt⟩
        · exact Or.inl hmem
      · exact Or.inl he
  · intro h e he
    rcases reconnectionBranch_spec s s' q i f j h with
      rfl | ⟨face, p, l, n, pts, hf, -, -, hn, -, hr⟩
    · exact Or.inl he
    · obtain ⟨p', n', hp', hn', hbody, hpq⟩ := requeue_spec s s' q _ i f j l face pts hr
      have hqp : s'.body.qualityAt f (4 * j) = some p'.quality := by
        rw [hbody, Body.qualityAt_setPoints _ _ _ _ _ hf, hp']
        rfl
      have hqn : s'.body.qualityAt f l = some n'.quality := by
        rw [hbody, Body.qualityAt_setPoints _ _ _ _ _ hf, hn']
        rfl
      have hqr : s.body.qualityAt f l = some n.quality := by
        unfold Body.qualityAt
        simp [hf, hn]
      have hfirst : ∀ e ∈ (if p'.quality > q then (p'.quality, i) :: s.pq else s.pq),
          e ∈ s.pq ∨ (e.2 = i ∧ q < e.1 ∧ s'.body.qualityAt f (4 * j) = some e.1) := by
        intro e he
        split at he
        · rename_i hgt
          rcases List.mem_cons.mp he with rfl | hmem
          · exact Or.inr ⟨rfl, hgt, hqp⟩
          · exact Or.inl hmem
        · exact Or.inl he
      rw [hpq] at he
      split at he
      · rename_i hgt
        rcases List.mem_cons.mp he with rfl | hmem
        · exact Or.inr (Or.inr ⟨n.quality, hqr, hgt, hqn⟩)
        · rcases hfirst e hmem with h1 | h1
          · exact Or.inl h1
          · exact Or.inr (Or.inl h1)
      · rcases hfirst e he with h1 | h1
        · exact Or.inl h1
        · exact Or.inr (Or.inl h1)

/-- C14 (counterexample). On `flatBody`, whose quad has initial quality `0`, the
first iteration commits a smoothing (the points of the quad are overwritten),
whatever `a1 .. a4` hold, and the quality of the quad recomputed from the moved
corners is `0`, as before the move. -/
theorem commit_without_improvement :
    initialQuality flatBody = some [0] ∧
    (∀ a1 a2 a3 a4 : ℝ, ∃ s', step ⟨flatBody, initialQueue [0], a1, a2, a3, a4⟩ = some s' ∧
      s'.body = flatBodySmoothed) ∧
    flatBodySmoothed.faces.map Face.points ≠ flatBody.faces.map Face.points ∧
    flatBody.qualityAt 0 0 = some 0 ∧ flatBodySmoothed.qualityAt 0 0 = some 0 := by
  obtain ⟨hq0, hq1⟩ := flatBody_quality
  refine ⟨?_, ?_, ?_, hq0, hq1⟩
  · have e : flatBody.qualityAt 0 0 =
        some (quadQuality ⟨0, 0, 0⟩ ⟨1, 0, 0⟩ ⟨2, 0, 0⟩ ⟨1, 1, 0⟩) := rfl
    rw [e] at hq0
    simp [initialQuality, flatBody, faceQualities, Option.some.inj hq0]
  · intro a1 a2 a3 a4
    have e : initialQueue [0] = [((0 : ℝ), 0)] := by
      simp [initialQueue, List.range_succ]
    rw [e]
    exact flatBody_step a1 a2 a3 a4
  · simp [flatBodySmoothed, flatBody]

end RefinementClaims

section RequeueWitness

/-- The smoothing branch on `flatBody`: the relocated corners are committed, and
`(q_new, 0)` is pushed when the quality `q_new` of `a1 .. a4` exceeds `0`. -/
theorem flatBody_smoothing (a1 a2 a3 a4 : ℝ) :
    smoothingBranch ⟨flatBody, [], a1, a2, a3, a4⟩ 0 0 0 0 =
      some ⟨flatBodySmoothed,
        if qualityOfAngles a1 a2 a3 a4 > 0 then [(qualityOfAngles a1 a2 a3 a4, 0)] else [],
        a1, a2, a3, a4⟩ := by
  have hin : ∀ p : Point ℝ,
      Face.inside p ⟨[⟨0, 0, 0⟩, ⟨1, 0, 0⟩, ⟨2, 0, 0⟩, ⟨1, 1, 0⟩], ⟨0, 0, 0, 0⟩⟩ = true :=
    fun p => Face.inside_eq_true_of_normal_zero
      ⟨[⟨0, 0, 0⟩, ⟨1, 0, 0⟩, ⟨2, 0, 0⟩, ⟨1, 1, 0⟩], ⟨0, 0, 0, 0⟩⟩ rfl p
  have hsm : smoothPoints (⟨⟨0, 0, 0⟩, ⟨1, 0, 0⟩, ⟨2, 0, 0⟩, ⟨1, 1, 0⟩⟩ : Corners ℝ) =
      ⟨⟨1 / 2, 1 / 8, 0⟩, ⟨1, 1 / 8, 0⟩, ⟨3 / 2, 1 / 8, 0⟩, ⟨1, 5 / 8, 0⟩⟩ := by
    simp only [smoothPoints, Point.add, Point.sub, Point.scale, Point.divide]
    norm_num
  simp [smoothingBranch, flatBody, flatBodySmoothed, getQuad, hsm, smoothValid, hin,
    Body.setPoints, setQuad]

/-- Witness for C14 (as amended): on `flatBody` with `a1 = a2 = a3 = a4 = 1` the
smoothing branch pushes `(1, 0)`, and `1` exceeds the popped quality `0`. -/
theorem requeue_only_if_improved_witness :
    ∀ e ∈ [((1 : ℝ), 0)], e ∈ ([] : List (ℝ × Nat)) ∨ (e.2 = 0 ∧ (0 : ℝ) < e.1) := by
  have h := flatBody_smoothing 1 1 1 1
  have hq : qualityOfAngles 1 1 1 1 = 1 := by simp [qualityOfAngles]
  rw [hq] at h
  simp only [gt_iff_lt, zero_lt_one, if_true] at h
  exact (requeue_only_if_improved ⟨flatBody, [], 1, 1, 1, 1⟩ _ 0 0 0 0).1 h

end RequeueWitness

section AngleRange

/-- The scalar product of two normalized vectors lies between `-1` and `1`, so
the clamp of `angle` never changes it. -/
theorem Vector.normalize_dot_bounds (v w : Vector ℝ) :
    -1 ≤ (Vector.normalize v).dot (Vector.normalize w) ∧
    (Vector.normalize v).dot (Vector.normalize w) ≤ 1 := by
  have n1 := Vector.normalize_dot_self_le v
  have n2 := Vector.normalize_dot_self_le w
  set a := Vector.normalize v
  set b := Vector.normalize w
  simp only [Vector.dot] at n1 n2 ⊢
  constructor
  · nlinarith [sq_nonneg (a.x + b.x), sq_nonneg (a.y + b.y), sq_nonneg (a.z + b.z)]
  · nlinarith [sq_nonneg (a.x - b.x), sq_nonneg (a.y - b.y), sq_nonneg (a.z - b.z)]

/-- A vector of non-zero length is normalized by the division by its length,
and the quotient has length one. -/
theorem Vector.normalize_eq_divide (v : Vector ℝ) (h : v.length ≠ 0) :
    Vector.normalize v = v.divide v.length ∧ Vector.length (v.divide v.length) = 1 := by
  have hpos : 0 < v.length := lt_of_le_of_ne (Real.sqrt_nonneg _) (Ne.symm h)
  have hsq : v.length * v.length = v.x * v.x + v.y * v.y + v.z * v.z := by
    unfold Vector.length
    apply Real.mul_self_sqrt
    linarith [mul_self_nonneg v.x, mul_self_nonneg v.y, mul_self_nonneg v.z]
  constructor
  · unfold Vector.normalize
    simp only [gt_iff_lt, hpos, if_true, Point.divide]
  · generalize v.length = l at hpos hsq h
    unfold Vector.length
    simp only [Point.divide]
    have e : v.x / l * (v.x / l) + v.y / l * (v.y / l) + v.z / l * (v.z / l) = 1 := by
      field_simp
      linear_combination -hsq
    rw [e, Real.sqrt_one]

/-- The guard `l > 0` of `normalize` keeps its divisions away from a zero
divisor: the checked normalization always has a result, the one of
`normalize`. -/
theorem Vector.normalizeChecked_eq (v : Vector ℝ) :
    Vector.normalizeChecked v = some (Vector.normalize v) := by
  unfold Vector.normalizeChecked Vector.normalize
  by_cases hl : v.length > 0
  · have h0 : v.length ≠ 0 := ne_of_gt hl
    simp only [hl, if_true, quotient, h0, if_false, Option.bind_eq_bind, Option.some_bind]
  · simp only [hl, if_false]

/-- The clamp `max(-1.0, min(1.0, dot))` keeps the argument of `acos` in
`[-1, 1]`: the call always has a number as result. -/
theorem acos_clamp (x : ℝ) :
    acos (max (-1) (min 1 x)) = some (Real.arccos (max (-1) (min 1 x))) := by
  unfold acos
  rw [if_pos]
  exact ⟨le_max_left _ _, max_le (by norm_num) (min_le_left _ _)⟩

/-- The checked angle always has a result, the one of `angle`. -/
theorem angleChecked_eq (e1 e2 : Edge ℝ) : angleChecked e1 e2 = some (angle e1 e2) := by
  unfold angleChecked angle
  simp only [Vector.normalizeChecked_eq, Option.bind_eq_bind, Option.some_bind, acos_clamp]

/-- For an edge of non-zero length `normalize` yields the unit direction vector,
whose squared coordinates add up to one. -/
theorem Edge.normalize_eq_unitDirection (e : Edge ℝ) (h : e.p1 ≠ e.p2) :
    Vector.normalize (e.p2.sub e.p1) = e.unitDirection ∧
    e.unitDirection.x ^ 2 + e.unitDirection.y ^ 2 + e.unitDirection.z ^ 2 = 1 := by
  have hne : e.p2.sub e.p1 ≠ ⟨0, 0, 0⟩ := by
    intro h0
    apply h
    have hx := congrArg Point.x h0
    have hy := congrArg Point.y h0
    have hz := congrArg Point.z h0
    simp only [Point.sub] at hx hy hz
    ext <;> linarith
  have hpos := Vector.length_pos_of_ne_zero _ hne
  have hlen : Vector.length (e.p2.sub e.p1) =
      Real.sqrt ((e.p2.x - e.p1.x) ^ 2 + (e.p2.y - e.p1.y) ^ 2 + (e.p2.z - e.p1.z) ^ 2) := by
    unfold Vector.length
    simp only [Point.sub, pow_two]
  have hsq : Vector.length (e.p2.sub e.p1) * Vector.length (e.p2.sub e.p1) =
      (e.p2.x - e.p1.x) ^ 2 + (e.p2.y - e.p1.y) ^ 2 + (e.p2.z - e.p1.z) ^ 2 := by
    rw [hlen]
    apply Real.mul_self_sqrt
    positivity
  constructor
  · unfold Vector.normalize
    simp only [gt_iff_lt, hpos, if_true]
    unfold Edge.unitDirection
    rw [← hlen]
    simp only [Point.sub]
  · unfold Edge.unitDirection
    rw [← hlen]
    generalize Vector.length (e.p2.sub e.p1) = l at hpos hsq
    have hl : l ≠ 0 := ne_of_gt hpos
    simp only
    field_simp
    linear_combination -hsq

/-- C21. For every pair of edges, also edges of zero length, `angle` has a number
as result (no division by zero in `normalize`, no argument of `acos` outside
`[-1, 1]`), and the result lies in `[0, π]`; for two edges of non-zero length
the unit direction vectors have Euclidean length one and the angle is the
arccosine of their scalar product. -/
theorem angle_range (e1 e2 : Edge ℝ) :
    (∃ t, angleChecked e1 e2 = some t ∧ angle e1 e2 = t ∧ 0 ≤ t ∧ t ≤ Real.pi) ∧
    (e1.p1 ≠ e1.p2 → e2.p1 ≠ e2.p2 →
      e1.unitDirection.x ^ 2 + e1.unitDirection.y ^ 2 + e1.unitDirection.z ^ 2 = 1 ∧
      e2.unitDirection.x ^ 2 + e2.unitDirection.y ^ 2 + e2.unitDirection.z ^ 2 = 1 ∧
      angleChecked e1 e2 = some (Real.arccos
        (e1.unitDirection.x * e2.unitDirection.x + e1.unitDirection.y * e2.unitDirection.y +
          e1.unitDirection.z * e2.unitDirection.z))) := by
  refine ⟨⟨angle e1 e2, angleChecked_eq e1 e2, rfl, Real.arccos_nonneg _,
    Real.arccos_le_pi _⟩, ?_⟩
  intro h1 h2
  obtain ⟨n1, u1⟩ := Edge.normalize_eq_unitDirection e1 h1
  obtain ⟨n2, u2⟩ := Edge.normalize_eq_unitDirection e2 h2
  refine ⟨u1, u2, ?_⟩
  have hb := Vector.normalize_dot_bounds (e1.p2.sub e1.p1) (e2.p2.sub e2.p1)
  rw [angleChecked_eq]
  unfold angle
  simp only
  rw [min_eq_right hb.2, max_eq_right hb.1, n1, n2]
  rfl

/-- Instance of `angle_range`: the edge from the origin to `(3, 4, 0)` and the
edge from `(1, 1, 1)` to `(1, 1, 3)`, of lengths 5 and 2. -/
theorem angle_range_witness :
    (⟨⟨0, 0, 0⟩, ⟨3, 4, 0⟩⟩ : Edge ℝ).p1 ≠ (⟨⟨0, 0, 0⟩, ⟨3, 4, 0⟩⟩ : Edge ℝ).p2 ∧
    (⟨⟨1, 1, 1⟩, ⟨1, 1, 3⟩⟩ : Edge ℝ).p1 ≠ (⟨⟨1, 1, 1⟩, ⟨1, 1, 3⟩⟩ : Edge ℝ).p2 ∧
    angleChecked ⟨⟨0, 0, 0⟩, ⟨3, 4, 0⟩⟩ ⟨⟨1, 1, 1⟩, ⟨1, 1, 3⟩⟩ = some (Real.arccos
      ((⟨⟨0, 0, 0⟩, ⟨3, 4, 0⟩⟩ : Edge ℝ).unitDirection.x *
          (⟨⟨1, 1, 1⟩, ⟨1, 1, 3⟩⟩ : Edge ℝ).unitDirection.x +
        (⟨⟨0, 0, 0⟩, ⟨3, 4, 0⟩⟩ : Edge ℝ).unitDirection.y *
          (⟨⟨1, 1, 1⟩, ⟨1, 1, 3⟩⟩ : Edge ℝ).unitDirection.y +
        (⟨⟨0, 0, 0⟩, ⟨3, 4, 0⟩⟩ : Edge ℝ).unitDirection.z *
          (⟨⟨1, 1, 1⟩, ⟨1, 1, 3⟩⟩ : Edge ℝ).unitDirection.z)) :=
  have h1 : (⟨⟨0, 0, 0⟩, ⟨3, 4, 0⟩⟩ : Edge ℝ).p1 ≠ (⟨⟨0, 0, 0⟩, ⟨3, 4, 0⟩⟩ : Edge ℝ).p2 := by
    intro h
    have hx := congrArg Point.x h
    norm_num at hx
  have h2 : (⟨⟨1, 1, 1⟩, ⟨1, 1, 3⟩⟩ : Edge ℝ).p1 ≠ (⟨⟨1, 1, 1⟩, ⟨1, 1, 3⟩⟩ : Edge ℝ).p2 := by
    intro h
    have hz := congrArg Point.z h
    norm_num at hz
  ⟨h1, h2, ((angle_range ⟨⟨0, 0, 0⟩, ⟨3, 4, 0⟩⟩ ⟨⟨1, 1, 1⟩, ⟨1, 1, 3⟩⟩).2 h1 h2).2.2⟩

end AngleRange

section SmoothingQuality

/-- Scaling a vector by a non-negative factor scales its length. -/
theorem Vector.length_scale (v : Vector ℝ) (t : ℝ) (ht : 0 ≤ t) :
    Vector.length (v.scale t) = t * v.length := by
  unfold Vector.length
  simp only [Point.scale]
  have e : v.x * t * (v.x * t) + v.y * t * (v.y * t) + v.z * t * (v.z * t) =
      t ^ 2 * (v.x * v.x + v.y * v.y + v.z * v.z) := by ring
  rw [e, Real.sqrt_mul (sq_nonneg t), Real.sqrt_sq ht]

/-- Scaling a vector by a positive factor does not change its normalization. -/
theorem Vector.normalize_scale (v : Vector ℝ) (t : ℝ) (ht : 0 < t) :
    Vector.normalize (v.scale t) = Vector.normalize v := by
  unfold Vector.normalize
  rw [Vector.length_scale v t (le_of_lt ht)]
  by_cases hl : v.length > 0
  · have hp : t * v.length > 0 := mul_pos ht hl
    have h0 : v.length ≠ 0 := ne_of_gt hl
    have t0 : t ≠ 0 := ne_of_gt ht
    simp only [hp, hl, if_true, Point.scale]
    ext <;> simp only <;> field_simp <;> ring
  · have hv : v = ⟨0, 0, 0⟩ := by
      by_contra hne
      exact hl (Vector.length_pos_of_ne_zero v hne)
    have hl0 : v.length = 0 := le_antisymm (not_lt.mp hl) (Real.sqrt_nonneg _)
    simp only [hl0, mul_zero, gt_iff_lt, lt_irrefl, if_false]
    rw [hv]
    ext <;> simp [Point.scale]

/-- Two pairs of edges whose vectors differ by one positive factor have the same
angle. -/
theorem angle_of_scaled (a b c d a' b' c' d' : Point ℝ) (t : ℝ) (ht : 0 < t)
    (h1 : b'.sub a' = (b.sub a).scale t) (h2 : d'.sub c' = (d.sub c).scale t) :
    angle ⟨a', b'⟩ ⟨c', d'⟩ = angle ⟨a, b⟩ ⟨c, d⟩ := by
  unfold angle
  simp only
  rw [h1, h2, Vector.normalize_scale _ t ht, Vector.normalize_scale _ t ht]

/-- The difference of two relocated points is half the difference of the
originals. -/
theorem smooth_sub (ct a b : Point ℝ) :
    (ct.add ((b.sub ct).scale (1 / 2))).sub (ct.add ((a.sub ct).scale (1 / 2))) =
      (b.sub a).scale (1 / 2) := by
  ext <;> simp only [Point.add, Point.sub, Point.scale] <;> ring

/-- In exact arithmetic the smoothing step keeps the quality: the quad moved
halfway to its centroid has the same centroid, the same four angles
`angle(e_i, e_{i-1})` and so the same quality.  (Nothing is said here about the
rounded values a `double` computation gives.) -/
theorem smoothing_keeps_quality (c : Corners ℝ) :
    (smoothPoints c).centroid = c.centroid ∧
    quadAngle1 (smoothPoints c).p1 (smoothPoints c).p2 (smoothPoints c).p3 (smoothPoints c).p4 =
      quadAngle1 c.p1 c.p2 c.p3 c.p4 ∧
    quadAngle2 (smoothPoints c).p1 (smoothPoints c).p2 (smoothPoints c).p3 (smoothPoints c).p4 =
      quadAngle2 c.p1 c.p2 c.p3 c.p4 ∧
    quadAngle3 (smoothPoints c).p1 (smoothPoints c).p2 (smoothPoints c).p3 (smoothPoints c).p4 =
      quadAngle3 c.p1 c.p2 c.p3 c.p4 ∧
    quadAngle4 (smoothPoints c).p1 (smoothPoints c).p2 (smoothPoints c).p3 (smoothPoints c).p4 =
      quadAngle4 c.p1 c.p2 c.p3 c.p4 ∧
    (smoothPoints c).quality = c.quality ∧
    ¬ (smoothPoints c).quality > c.quality := by
  have hc : (smoothPoints c).centroid = c.centroid := by
    ext <;> simp only [smoothPoints, Corners.centroid, Point.add, Point.sub, Point.scale,
      Point.divide] <;> ring
  have hh : (0 : ℝ) < 1 / 2 := by norm_num
  have h1 : quadAngle1 (smoothPoints c).p1 (smoothPoints c).p2 (smoothPoints c).p3
      (smoothPoints c).p4 = quadAngle1 c.p1 c.p2 c.p3 c.p4 :=
    angle_of_scaled _ _ _ _ _ _ _ _ (1 / 2) hh (smooth_sub _ _ _) (smooth_sub _ _ _)
  have h2 : quadAngle2 (smoothPoints c).p1 (smoothPoints c).p2 (smoothPoints c).p3
      (smoothPoints c).p4 = quadAngle2 c.p1 c.p2 c.p3 c.p4 :=
    angle_of_scaled _ _ _ _ _ _ _ _ (1 / 2) hh (smooth_sub _ _ _) (smooth_sub _ _ _)
  have h3 : quadAngle3 (smoothPoints c).p1 (smoothPoints c).p2 (smoothPoints c).p3
      (smoothPoints c).p4 = quadAngle3 c.p1 c.p2 c.p3 c.p4 :=
    angle_of_scaled _ _ _ _ _ _ _ _ (1 / 2) hh (smooth_sub _ _ _) (smooth_sub _ _ _)
  have h4 : quadAngle4 (smoothPoints c).p1 (smoothPoints c).p2 (smoothPoints c).p3
      (smoothPoints c).p4 = quadAngle4 c.p1 c.p2 c.p3 c.p4 :=
    angle_of_scaled _ _ _ _ _ _ _ _ (1 / 2) hh (smooth_sub _ _ _) (smooth_sub _ _ _)
  have hq : (smoothPoints c).quality = c.quality := by
    unfold Corners.quality quadQuality
    rw [h1, h2, h3, h4]
  exact ⟨hc, h1, h2, h3, h4, hq, by rw [hq]; exact lt_irrefl _⟩

end SmoothingQuality

section Classification

/-- The face of `parallelogramBody` is the one the constructor builds. -/
theorem parallelogramBody_make :
    (Face.make [(⟨0, 0, 0⟩ : Point ℝ), ⟨2, 0, 0⟩, ⟨3, 1, 0⟩, ⟨1, 1, 0⟩]).map (fun f => [f]) =
      some parallelogramBody.faces := by
  simp [Face.make, fitPlane, parallelogramBody, Vector.cross, Vector.dot, Vector.neg, Point.sub]

/-- C27 (what the code does). The parallelogram `(0,0,0), (2,0,0), (3,1,0), (1,1,0)`
lies in the plane `z = 0` of its face, whose normal `(0, 0, 2)` is not zero, and
is strictly convex (every vertex is strictly on the left of every edge it is not
on), yet the classifier gives `convex = false` and `concave = false`
(`s1 = 8, s2 = -8, s3 = 8, s4 = -8`), so an iteration that pops it selects
neither operator and leaves the body as it is. -/
theorem classify_parallelogram (q a1 a2 a3 a4 : ℝ) :
    (⟨0, 0, 2, 0⟩ : Plane ℝ).normal ≠ ⟨0, 0, 0⟩ ∧
    (∀ p ∈ [parallelogram.p1, parallelogram.p2, parallelogram.p3, parallelogram.p4],
      (⟨0, 0, 2, 0⟩ : Plane ℝ).eval p = 0) ∧
    (0 < orient (⟨0, 0, 2⟩ : Vector ℝ) parallelogram.p1 parallelogram.p2 parallelogram.p3 ∧
     0 < orient (⟨0, 0, 2⟩ : Vector ℝ) parallelogram.p1 parallelogram.p2 parallelogram.p4 ∧
     0 < orient (⟨0, 0, 2⟩ : Vector ℝ) parallelogram.p2 parallelogram.p3 parallelogram.p4 ∧
     0 < orient (⟨0, 0, 2⟩ : Vector ℝ) parallelogram.p2 parallelogram.p3 parallelogram.p1 ∧
     0 < orient (⟨0, 0, 2⟩ : Vector ℝ) parallelogram.p3 parallelogram.p4 parallelogram.p1 ∧
     0 < orient (⟨0, 0, 2⟩ : Vector ℝ) parallelogram.p3 parallelogram.p4 parallelogram.p2 ∧
     0 < orient (⟨0, 0, 2⟩ : Vector ℝ) parallelogram.p4 parallelogram.p1 parallelogram.p2 ∧
     0 < orient (⟨0, 0, 2⟩ : Vector ℝ) parallelogram.p4 parallelogram.p1 parallelogram.p3) ∧
    classify ⟨0, 0, 2, 0⟩ parallelogram = (false, false) ∧
    step ⟨parallelogramBody, [(q, 0)], a1, a2, a3, a4⟩ =
      some ⟨parallelogramBody, [], a1, a2, a3, a4⟩ := by
  have hcl : classify ⟨0, 0, 2, 0⟩ parallelogram = (false, false) := by
    simp only [classify, parallelogram, Plane.normal, Vector.cross, Vector.dot, Point.sub]
    norm_num
  refine ⟨?_, ?_, ?_, hcl, ?_⟩
  · intro h
    have := congrArg Point.z h
    simp [Plane.normal] at this
  · intro p hp
    simp only [parallelogram, List.mem_cons, List.mem_singleton, List.not_mem_nil, or_false] at hp
    rcases hp with rfl | rfl | rfl | rfl <;> simp [Plane.eval]
  · simp only [orient, parallelogram, Vector.cross, Vector.dot, Point.sub]
    norm_num
  · have htop : pqTop [(q, 0)] = some (q, 0) := rfl
    have hpop : pqPop [(q, 0)] = [] := by
      unfold pqPop
      rw [htop]
      exact List.erase_cons_head _ _
    have hq : getQuad [(⟨0, 0, 0⟩ : Point ℝ), ⟨2, 0, 0⟩, ⟨3, 1, 0⟩, ⟨1, 1, 0⟩] (4 * (0 % 1)) =
        some parallelogram := rfl
    unfold step
    simp only [htop, hpop, parallelogramBody, Option.bind_eq_bind, Option.some_bind,
      List.getElem?_cons_zero, List.length_cons, List.length_nil]
    norm_num
    rw [hq]
    simp [hcl]

end Classification

section SpanSearch

variable {K : Type} [LinearOrderedField K]

/-- What the span loop returns: it advances by `d` positions, every knot it
passed is `≤ u0`, and the knot it stopped in front of, if there is one, is
`> u0`. -/
theorem spanLoop_spec (u0 : K) (rest : List K) (i : Nat) :
    ∃ d, spanLoop u0 rest i = i + d ∧ d ≤ rest.length ∧
      (∀ k, k < d → ∃ x, rest[k]? = some x ∧ x ≤ u0) ∧
      (∀ y, rest[d]? = some y → u0 < y) := by
  induction rest generalizing i with
  | nil => exact ⟨0, rfl, le_refl _, fun k hk => absurd hk (Nat.not_lt_zero k), fun y hy => by
      simp at hy⟩
  | cons x rest ih =>
    by_cases hx : x ≤ u0
    · obtain ⟨d, hd, hle, hpass, hstop⟩ := ih (i + 1)
      refine ⟨d + 1, ?_, ?_, ?_, ?_⟩
      · simp only [spanLoop, hx, if_true, hd]
        omega
      · simp only [List.length_cons]
        omega
      · intro k hk
        cases k with
        | zero => exact ⟨x, by simp, hx⟩
        | succ k =>
          obtain ⟨z, hz, hzle⟩ := hpass k (by omega)
          exact ⟨z, by simpa using hz, hzle⟩
      · intro y hy
        exact hstop y (by simpa using hy)
    · refine ⟨0, ?_, Nat.zero_le _, fun k hk => absurd hk (Nat.not_lt_zero k), ?_⟩
      · simp only [spanLoop, hx, if_false, Nat.add_zero]
      · intro y hy
        simp only [List.getElem?_cons_zero, Option.some.injEq] at hy
        rw [← hy]
        exact not_le.mp hx

/-- The span search on a knot vector whose first knot is `≤ u0` and whose last
knot is `> u0` stops at an index `i` with `i + 1` in range and
`u[i] ≤ u0 < u[i + 1]`. -/
theorem findSpan_spec (u : List K) (u0 a b : K) (hn : 2 ≤ u.length)
    (h0 : u[0]? = some a) (ha : a ≤ u0) (h1 : u[u.length - 1]? = some b) (hb : u0 < b) :
    findSpan u u0 + 1 < u.length ∧
    ∃ x y, u[findSpan u u0]? = some x ∧ u[findSpan u u0 + 1]? = some y ∧ x ≤ u0 ∧ u0 < y := by
  cases u with
  | nil => simp at hn
  | cons c t =>
    simp only [List.getElem?_cons_zero, Option.some.injEq] at h0
    subst h0
    simp only [List.length_cons] at hn h1 ⊢
    have ht : 1 ≤ t.length := by omega
    have h1' : t[t.length - 1]? = some b := by
      have e : t.length + 1 - 1 = (t.length - 1) + 1 := by omega
      rw [e] at h1
      simpa using h1
    obtain ⟨d, hd, hle, hpass, hstop⟩ := spanLoop_spec u0 t 0
    have hfs : findSpan (c :: t) u0 = d := by
      unfold findSpan
      simp only [List.tail_cons, hd, Nat.zero_add]
    rw [hfs]
    have hlt : d < t.length := by
      rcases Nat.lt_or_ge d t.length with h | h
      · exact h
      · exfalso
        obtain ⟨z, hz, hzle⟩ := hpass (t.length - 1) (by omega)
        rw [h1'] at hz
        simp only [Option.some.injEq] at hz
        rw [hz] at hb
        exact absurd hzle (not_le.mpr hb)
    refine ⟨by omega, ?_⟩
    obtain ⟨y, hy⟩ : ∃ y, t[d]? = some y := ⟨t[d], List.getElem?_eq_getElem hlt⟩
    have hyu := hstop y hy
    cases d with
    | zero => exact ⟨c, y, by simp, by simpa using hy, ha, hyu⟩
    | succ d =>
      obtain ⟨z, hz, hzle⟩ := hpass d (by omega)
      exact ⟨z, y, by simpa using hz, by simpa using hy, hzle, hyu⟩

/-- C28. For knot vectors `u` and `v` of length at least two, with
`u[0] ≤ u0 < u[n1 - 1]` and `v[0] ≤ v0 < v[n2 - 1]`, the indices `i` and `j` found
by the two span searches satisfy `i < n1 - 1`, `u[i] ≤ u0 < u[i + 1]` and
`j < n2 - 1`, `v[j] ≤ v0 < v[j + 1]`.  That the knots are non-decreasing is not
needed. -/
theorem span_search_locates (u v : List K) (u0 v0 a b c d : K)
    (hu : 2 ≤ u.length) (hv : 2 ≤ v.length)
    (hu0 : u[0]? = some a) (ha : a ≤ u0) (hu1 : u[u.length - 1]? = some b) (hb : u0 < b)
    (hv0 : v[0]? = some c) (hc : c ≤ v0) (hv1 : v[v.length - 1]? = some d) (hd : v0 < d) :
    (findSpan u u0 < u.length - 1 ∧
      ∃ x y, u[findSpan u u0]? = some x ∧ u[findSpan u u0 + 1]? = some y ∧ x ≤ u0 ∧ u0 < y) ∧
    (findSpan v v0 < v.length - 1 ∧
      ∃ x y, v[findSpan v v0]? = some x ∧ v[findSpan v v0 + 1]? = some y ∧ x ≤ v0 ∧ v0 < y) := by
  obtain ⟨i1, i2⟩ := findSpan_spec u u0 a b hu hu0 ha hu1 hb
  obtain ⟨j1, j2⟩ := findSpan_spec v v0 c d hv hv0 hc hv1 hd
  exact ⟨⟨by omega, i2⟩, ⟨by omega, j2⟩⟩

/-- Instance of `span_search_locates`: the clamped knot vector `0, 0, 1, 1` in
both directions, at `u0 = 1/2` and `v0 = 1/3`. -/
theorem span_search_locates_witness :
    (findSpan [(0 : ℚ), 0, 1, 1] (1 / 2) < [(0 : ℚ), 0, 1, 1].length - 1 ∧
      ∃ x y, [(0 : ℚ), 0, 1, 1][findSpan [(0 : ℚ), 0, 1, 1] (1 / 2)]? = some x ∧
        [(0 : ℚ), 0, 1, 1][findSpan [(0 : ℚ), 0, 1, 1] (1 / 2) + 1]? = some y ∧
        x ≤ 1 / 2 ∧ 1 / 2 < y) ∧
    (findSpan [(0 : ℚ), 0, 1, 1] (1 / 3) < [(0 : ℚ), 0, 1, 1].length - 1 ∧
      ∃ x y, [(0 : ℚ), 0, 1, 1][findSpan [(0 : ℚ), 0, 1, 1] (1 / 3)]? = some x ∧
        [(0 : ℚ), 0, 1, 1][findSpan [(0 : ℚ), 0, 1, 1] (1 / 3) + 1]? = some y ∧
        x ≤ 1 / 3 ∧ 1 / 3 < y) :=
  span_search_locates [(0 : ℚ), 0, 1, 1] [(0 : ℚ), 0, 1, 1] (1 / 2) (1 / 3) 0 1 0 1
    (by decide) (by decide) rfl (by norm_num) rfl (by norm_num) rfl (by norm_num) rfl
    (by norm_num)

end SpanSearch

section Writer

variable {K : Type}

/-- The counting loop adds the number of points and the sum of the quotients. -/
theorem countLoop_spec (faces : List (Face K)) (a b : Nat) :
    faces.foldl countStep (a, b) =
      (a + (faces.flatMap (·.points)).length, b + (faces.map (·.points.length / 4)).sum) := by
  induction faces generalizing a b with
  | nil => simp
  | cons f fs ih =>
    simp only [List.foldl_cons, countStep, ih, List.flatMap_cons, List.length_append,
      List.map_cons, List.sum_cons]
    refine Prod.ext ?_ ?_ <;> simp only <;> omega

/-- When every face holds a multiple of four points, the sum of the quotients is
the quotient of the total. -/
theorem sum_div_four (faces : List (Face K)) (h : ∀ f ∈ faces, 4 ∣ f.points.length) :
    (faces.map (·.points.length / 4)).sum = (faces.flatMap (·.points)).length / 4 ∧
    4 ∣ (faces.flatMap (·.points)).length := by
  induction faces with
  | nil => simp
  | cons f fs ih =>
    obtain ⟨i1, i2⟩ := ih (fun g hg => h g (List.mem_cons_of_mem _ hg))
    have hf := h f (List.mem_cons_self _ _)
    simp only [List.map_cons, List.sum_cons, List.flatMap_cons, List.length_append, i1]
    constructor
    · omega
    · omega

/-- The inner loop of the node block numbers the points of a face from the
counter on. -/
theorem nodeLoop_spec (pts : List (Point K)) (out : List (Nat × Point K)) (n : Nat) :
    pts.foldl nodeStep (out, n) = (out ++ pts.enumFrom n, n + pts.length) := by
  induction pts generalizing out n with
  | nil => simp
  | cons p ps ih =>
    simp only [List.foldl_cons, nodeStep, ih, List.enumFrom_cons, List.append_assoc,
      List.singleton_append, List.length_cons]
    ext
    simp only
    omega

/-- The node block numbers the points of all the faces, in order, from the
counter on. -/
theorem nodeBlock_spec (faces : List (Face K)) (out : List (Nat × Point K)) (n : Nat) :
    faces.foldl nodeFace (out, n) =
      (out ++ (faces.flatMap (·.points)).enumFrom n, n + (faces.flatMap (·.points)).length) := by
  induction faces generalizing out n with
  | nil => simp
  | cons f fs ih =>
    simp only [List.foldl_cons, nodeFace, nodeLoop_spec, ih, List.flatMap_cons,
      List.enumFrom_append, List.append_assoc, List.length_append]
    ext
    simp only
    omega

/-- The inner loop of the element block over `c` offsets. -/
theorem elemLoop_spec (c : Nat) (out : List (Nat × Nat × Nat × Nat × Nat)) (e n : Nat) :
    ((List.range c).map (4 * ·)).foldl elemStep (out, e, n) =
      (out ++ (List.range c).map
        (fun t => (e + t, n + 4 * t, n + 4 * t + 1, n + 4 * t + 2, n + 4 * t + 3)),
       e + c, n) := by
  induction c with
  | zero => simp
  | succ c ih =>
    rw [List.range_succ, List.map_append, List.foldl_append, ih]
    simp only [List.map_cons, List.map_nil, List.foldl_cons, List.foldl_nil, elemStep,
      List.map_append, List.append_assoc]
    refine Prod.ext rfl (Prod.ext ?_ rfl)
    simp only
    omega

/-- The element block over faces that hold multiples of four points. -/
theorem elemBlock_spec (faces : List (Face K)) (h : ∀ f ∈ faces, 4 ∣ f.points.length)
    (out : List (Nat × Nat × Nat × Nat × Nat)) (e n : Nat) :
    faces.foldl elemFace (out, e, n) =
      (out ++ (List.range ((faces.flatMap (·.points)).length / 4)).map
        (fun t => (e + t, n + 4 * t, n + 4 * t + 1, n + 4 * t + 2, n + 4 * t + 3)),
       e + (faces.flatMap (·.points)).length / 4,
       n + (faces.flatMap (·.points)).length) := by
  induction faces generalizing out e n with
  | nil => simp
  | cons f fs ih =>
    have hf := h f (List.mem_cons_self _ _)
    have hfs := fun g hg => h g (List.mem_cons_of_mem f hg)
    obtain ⟨c, hc⟩ := hf
    obtain ⟨_, hd⟩ := sum_div_four fs hfs
    obtain ⟨d, hd⟩ := hd
    have e1 : (f.points.length + 3) / 4 = c := by omega
    have e2 : (f.points.length + (fs.flatMap (·.points)).length) / 4 = c + d := by omega
    have e3 : (fs.flatMap (·.points)).length / 4 = d := by omega
    have step1 : elemFace (out, e, n) f =
        (out ++ (List.range c).map
          (fun t => (e + t, n + 4 * t, n + 4 * t + 1, n + 4 * t + 2, n + 4 * t + 3)),
         e + c, n + f.points.length) := by
      simp only [elemFace, e1, elemLoop_spec]
    rw [List.foldl_cons, step1, ih hfs]
    simp only [List.flatMap_cons, List.length_append, e2, e3, List.range_add, List.map_append,
      List.map_map, List.append_assoc]
    refine Prod.ext ?_ (Prod.ext ?_ ?_)
    · simp only
      congr 2
      apply List.map_congr_left
      intro t _
      simp only [Function.comp]
      refine Prod.ext ?_ (Prod.ext ?_ (Prod.ext ?_ (Prod.ext ?_ ?_))) <;> simp only <;> omega
    · simp only
      omega
    · simp only
      omega

/-- The points of face `f` sit in the concatenation of all the point sequences
after the points of the faces before it. -/
theorem getElem?_flatMap_points (faces : List (Face K)) (f : Nat) (face : Face K)
    (hf : faces[f]? = some face) (k : Nat) (hk : k < face.points.length) :
    (faces.flatMap (·.points))[((faces.take f).flatMap (·.points)).length + k]? =
      face.points[k]? := by
  induction faces generalizing f with
  | nil => simp at hf
  | cons g gs ih =>
    cases f with
    | zero =>
      simp only [List.getElem?_cons_zero, Option.some.injEq] at hf
      subst hf
      simp only [List.take_zero, List.flatMap_nil, List.length_nil, Nat.zero_add,
        List.flatMap_cons]
      exact List.getElem?_append_left hk
    | succ f =>
      simp only [List.getElem?_cons_succ] at hf
      simp only [List.take_succ_cons, List.flatMap_cons, List.length_append]
      rw [List.getElem?_append_right (by omega)]
      have e : g.points.length + ((gs.take f).flatMap (·.points)).length + k - g.points.length =
          ((gs.take f).flatMap (·.points)).length + k := by omega
      rw [e]
      exact ih f hf

end Writer

section WriterClaims

variable {K : Type}

/-- The four reads behind a successful `getQuad`. -/
theorem getQuad_eq_some (pts : List (Point K)) (off : Nat) (c : Corners K)
    (h : getQuad pts off = some c) :
    pts[off]? = some c.p1 ∧ pts[off + 1]? = some c.p2 ∧ pts[off + 2]? = some c.p3 ∧
      pts[off + 3]? = some c.p4 := by
  unfold getQuad at h
  simp only [Option.bind_eq_bind, Option.bind_eq_some, Option.some.injEq] at h
  obtain ⟨a, ha, b, hb, c', hc, d, hd, rfl⟩ := h
  exact ⟨ha, hb, hc, hd⟩

/-- C22. For every body whose faces each hold a multiple of four points,
`write_neu` reports `numnp` = the total number of points and `nelem = numnp / 4`,
numbers the nodes `1 .. numnp` in face-then-point order, numbers the elements
`1 .. nelem`, the element of number `e + 1` listing the node numbers
`4e + 1, 4e + 2, 4e + 3, 4e + 4`; and for the quad at slot `j` of face `f`, whose
position in face-then-quad order is `e` = (number of quads of the faces before
`f`) `+ j`, the nodes with these four numbers are the four points of that
quad. -/
theorem write_neu_numbering (body : Body K) (h : ∀ f ∈ body.faces, 4 ∣ f.points.length) :
    (write_neu body).numnp = (body.faces.flatMap (·.points)).length ∧
    (write_neu body).nelem = (write_neu body).numnp / 4 ∧
    (write_neu body).nodes = (body.faces.flatMap (·.points)).enumFrom 1 ∧
    (write_neu body).elements = (List.range (write_neu body).nelem).map
      (fun e => (e + 1, 4 * e + 1, 4 * e + 2, 4 * e + 3, 4 * e + 4)) ∧
    ∀ (f j : Nat) (face : Face K) (c : Corners K), body.faces[f]? = some face →
      getQuad face.points (4 * j) = some c →
      ∃ e, e = ((body.faces.take f).map (·.points.length / 4)).sum + j ∧
        e < (write_neu body).nelem ∧
        (write_neu body).elements[e]? =
          some (e + 1, 4 * e + 1, 4 * e + 2, 4 * e + 3, 4 * e + 4) ∧
        (write_neu body).nodes[4 * e]? = some (4 * e + 1, c.p1) ∧
        (write_neu body).nodes[4 * e + 1]? = some (4 * e + 2, c.p2) ∧
        (write_neu body).nodes[4 * e + 2]? = some (4 * e + 3, c.p3) ∧
        (write_neu body).nodes[4 * e + 3]? = some (4 * e + 4, c.p4) := by
  obtain ⟨hsum, hdvd⟩ := sum_div_four body.faces h
  have hnp : (write_neu body).numnp = (body.faces.flatMap (·.points)).length := by
    simp only [write_neu, countLoop_spec, Nat.zero_add]
  have hne : (write_neu body).nelem = (body.faces.flatMap (·.points)).length / 4 := by
    simp only [write_neu, countLoop_spec, Nat.zero_add, hsum]
  have hnodes : (write_neu body).nodes = (body.faces.flatMap (·.points)).enumFrom 1 := by
    simp only [write_neu, nodeBlock_spec, List.nil_append]
  have helems : (write_neu body).elements = (List.range (write_neu body).nelem).map
      (fun e => (e + 1, 4 * e + 1, 4 * e + 2, 4 * e + 3, 4 * e + 4)) := by
    rw [hne]
    simp only [write_neu, elemBlock_spec body.faces h, List.nil_append]
    apply List.map_congr_left
    intro t _
    refine Prod.ext ?_ (Prod.ext ?_ (Prod.ext ?_ (Prod.ext ?_ ?_))) <;> simp only <;> omega
  refine ⟨hnp, by rw [hne, hnp], hnodes, helems, ?_⟩
  intro f j face c hf hq
  obtain ⟨q1, q2, q3, q4⟩ := getQuad_eq_some face.points (4 * j) c hq
  have hk : 4 * j + 3 < face.points.length := by
    obtain ⟨hlt, -⟩ := List.getElem?_eq_some.mp q4
    exact hlt
  obtain ⟨hsumT, hdvdT⟩ := sum_div_four (body.faces.take f)
    (fun g hg => h g (List.mem_of_mem_take hg))
  obtain ⟨d, hd⟩ := hdvdT
  have g1 := getElem?_flatMap_points body.faces f face hf (4 * j) (by omega)
  have g2 := getElem?_flatMap_points body.faces f face hf (4 * j + 1) (by omega)
  have g3 := getElem?_flatMap_points body.faces f face hf (4 * j + 2) (by omega)
  have g4 := getElem?_flatMap_points body.faces f face hf (4 * j + 3) (by omega)
  rw [q1] at g1
  rw [q2] at g2
  rw [q3] at g3
  rw [q4] at g4
  have hlen : ((body.faces.take f).flatMap (·.points)).length + (4 * j + 3) <
      (body.faces.flatMap (·.points)).length := by
    obtain ⟨hlt, -⟩ := List.getElem?_eq_some.mp g4
    exact hlt
  obtain ⟨D, hD⟩ := hdvd
  refine ⟨((body.faces.take f).map (·.points.length / 4)).sum + j, rfl, ?_, ?_, ?_, ?_, ?_, ?_⟩
  · rw [hne, hsumT]
    omega
  · rw [helems, List.getElem?_map, List.getElem?_range (by rw [hne, hsumT]; omega)]
    rfl
  all_goals
    rw [hnodes, List.getElem?_enumFrom, hsumT]
  · have e : 4 * (((body.faces.take f).flatMap (·.points)).length / 4 + j) =
        ((body.faces.take f).flatMap (·.points)).length + 4 * j := by omega
    rw [e, g1]
    simp only [Option.map_some']
    congr 2
    omega
  · have e : 4 * (((body.faces.take f).flatMap (·.points)).length / 4 + j) + 1 =
        ((body.faces.take f).flatMap (·.points)).length + (4 * j + 1) := by omega
    rw [e, g2]
    simp only [Option.map_some']
    congr 2
    omega
  · have e : 4 * (((body.faces.take f).flatMap (·.points)).length / 4 + j) + 2 =
        ((body.faces.take f).flatMap (·.points)).length + (4 * j + 2) := by omega
    rw [e, g3]
    simp only [Option.map_some']
    congr 2
    omega
  · have e : 4 * (((body.faces.take f).flatMap (·.points)).length / 4 + j) + 3 =
        ((body.faces.take f).flatMap (·.points)).length + (4 * j + 3) := by omega
    rw [e, g4]
    simp only [Option.map_some']
    congr 2
    omega

/-- Instance of `write_neu_numbering`: a body with one quad in the first face
and two in the second has 12 nodes and the elements
`1: 1 2 3 4`, `2: 5 6 7 8`, `3: 9 10 11 12`. -/
theorem write_neu_numbering_witness :
    (write_neu unevenBody).numnp = 12 ∧ (write_neu unevenBody).nelem = 3 ∧
    (write_neu unevenBody).elements = [(1, 1, 2, 3, 4), (2, 5, 6, 7, 8), (3, 9, 10, 11, 12)] ∧
    (write_neu unevenBody).nodes = (unevenBody.faces.flatMap (·.points)).enumFrom 1 ∧
    (write_neu unevenBody).elements = (List.range (write_neu unevenBody).nelem).map
      (fun e => (e + 1, 4 * e + 1, 4 * e + 2, 4 * e + 3, 4 * e + 4)) :=
  ⟨rfl, rfl, rfl,
    (write_neu_numbering unevenBody (by decide)).2.2.1,
    (write_neu_numbering unevenBody (by decide)).2.2.2.1⟩

end WriterClaims

section AreaSum

/-- A point that satisfies the plane equation is its own projection. -/
theorem project_of_eval_zero (pl : Plane ℝ) (p : Point ℝ)
    (hp : pl.a * p.x + pl.b * p.y + pl.c * p.z + pl.d = 0) : project p pl = p := by
  ext <;> simp [project, distance, hp, Point.sub, Vector.dot]

/-- The length of a vector along the third axis. -/
theorem Vector.length_z (c : ℝ) : Vector.length ⟨0, 0, c⟩ = |c| := by
  unfold Vector.length
  simp only [mul_zero, zero_add]
  exact Real.sqrt_mul_self_eq_abs c

/-- The area term of the area-sum tests for two vectors of the plane `z = 0`. -/
theorem Vector.length_cross_flat (a b c d : ℝ) :
    Vector.length (Vector.cross ⟨a, b, 0⟩ ⟨c, d, 0⟩) = |a * d - b * c| := by
  have e : Vector.cross (⟨a, b, 0⟩ : Vector ℝ) ⟨c, d, 0⟩ = ⟨0, 0, a * d - b * c⟩ := by
    ext <;> simp [Vector.cross]
  rw [e, Vector.length_z]

/-- The plane fitted to the first three corners of the unit square. -/
theorem fitPlane_unit_square :
    fitPlane (⟨0, 0, 0⟩ : Point ℝ) ⟨1, 0, 0⟩ ⟨1, 1, 0⟩ = ⟨0, 0, 1, 0⟩ := by
  simp [fitPlane, Vector.cross, Vector.dot, Vector.neg, Point.sub]

/-- C29 (what the code does). For the unit square, the area-sum test of
`inside(Point, Quad)` classifies `(0.5, 0.5, 0)` as inside and `(1.5, 0.5, 0)` as
outside, while `inside(Point, Face)` on the face built from the same four points
classifies both as outside: the two predicates differ at the interior point. -/
theorem quad_face_inside_differ :
    Face.make unitSquare = some unitSquareFace ∧
    Quad.inside ⟨1 / 2, 1 / 2, 0⟩ (Quad.make ⟨0, 0, 0⟩ ⟨1, 0, 0⟩ ⟨1, 1, 0⟩ ⟨0, 1, 0⟩) = true ∧
    Face.inside ⟨1 / 2, 1 / 2, 0⟩ unitSquareFace = false ∧
    Quad.inside ⟨3 / 2, 1 / 2, 0⟩ (Quad.make ⟨0, 0, 0⟩ ⟨1, 0, 0⟩ ⟨1, 1, 0⟩ ⟨0, 1, 0⟩) = false ∧
    Face.inside ⟨3 / 2, 1 / 2, 0⟩ unitSquareFace = false := by
  refine ⟨unitSquareFace_make, ?_,
    Face.inside_eq_false_of_convex unitSquare unitSquareFace unitSquareFace_make
      unitSquareFace_convex _, ?_,
    Face.inside_eq_false_of_convex unitSquare unitSquareFace unitSquareFace_make
      unitSquareFace_convex _⟩
  · unfold Quad.inside Quad.make
    simp only [fitPlane_unit_square]
    rw [project_of_eval_zero _ _ (by norm_num)]
    norm_num [Point.sub]
    simp only [Vector.length_cross_flat]
    norm_num [abs_of_pos, abs_of_neg]
  · unfold Quad.inside Quad.make
    simp only [fitPlane_unit_square]
    rw [project_of_eval_zero _ _ (by norm_num)]
    norm_num [Point.sub]
    simp only [Vector.length_cross_flat]
    norm_num [abs_of_pos, abs_of_neg]

end AreaSum

section IndexResolution

/-- The initial qualities of `unevenKiteBody`: three times the quality of the
kite. -/
theorem unevenKiteBody_quality :
    initialQuality unevenKiteBody =
      some [quadQuality ⟨0, 0, 0⟩ ⟨7, 0, 0⟩ ⟨4, 4, 0⟩ ⟨0, 7, 0⟩,
        quadQuality ⟨0, 0, 0⟩ ⟨7, 0, 0⟩ ⟨4, 4, 0⟩ ⟨0, 7, 0⟩,
        quadQuality ⟨0, 0, 0⟩ ⟨7, 0, 0⟩ ⟨4, 4, 0⟩ ⟨0, 7, 0⟩] := by
  simp [initialQuality, unevenKiteBody, faceQualities]

/-- C23 (what the code does). The body `unevenKiteBody` has one quad in face 0
and two in face 1, so the initialisation assigns the global indices `0, 1, 2`
and index `2` belongs to slot 1 of face 1.  The loop resolves `i = 2` with the
quad count of face 0 to `f = 2`, `j = 0`; there is no face 2, and the run of
`generate_mesh`, whose first iteration pops the entry of index 2, reads
`body.faces[2]` out of range. -/
theorem index_resolution_uneven (fuel : Nat) (a1 a2 a3 a4 : ℝ) :
    unevenKiteBody.faces.map (fun f => f.points.length / 4) = [1, 2] ∧
    (∃ q, initialQuality unevenKiteBody = some [q, q, q] ∧
      pqTop (initialQueue [q, q, q]) = some (q, 2)) ∧
    resolveIndex unevenKiteBody 2 = some (2, 0) ∧
    unevenKiteBody.faces[2]? = none ∧
    generate_mesh (fuel + 1) unevenKiteBody a1 a2 a3 a4 = Outcome.undefined 0 := by
  obtain ⟨hk0, hk1⟩ := kite_quality_bounds
  have hq := unevenKiteBody_quality
  set qk := quadQuality ⟨0, 0, 0⟩ ⟨7, 0, 0⟩ ⟨4, 4, 0⟩ ⟨0, 7, 0⟩ with hqk
  have htop : pqTop (initialQueue [qk, qk, qk]) = some (qk, 2) := by
    simp [initialQueue, List.range_succ, pqTop, pairLt]
  refine ⟨by simp [unevenKiteBody], ⟨qk, hq, htop⟩, by simp [resolveIndex, unevenKiteBody],
    by simp [unevenKiteBody], ?_⟩
  unfold generate_mesh
  rw [hq]
  have hcond : loopCond ⟨unevenKiteBody, initialQueue [qk, qk, qk], a1, a2, a3, a4⟩ = true := by
    unfold loopCond
    simp only [htop, threshold, decide_eq_true_eq]
    linarith
  have hstep : step ⟨unevenKiteBody, initialQueue [qk, qk, qk], a1, a2, a3, a4⟩ = none := by
    unfold step
    simp [htop, unevenKiteBody]
  simp only [refineLoop, hcond, if_true, hstep]

end IndexResolution

section AngleSign

/-- Normalization scales a vector by a positive factor (`1` for the zero
vector). -/
theorem Vector.normalize_eq_scale (v : Vector ℝ) :
    ∃ s : ℝ, 0 < s ∧ Vector.normalize v = v.scale s := by
  unfold Vector.normalize
  by_cases hl : v.length > 0
  · refine ⟨1 / v.length, one_div_pos.mpr hl, ?_⟩
    simp only [hl, if_true, Point.scale]
    ext <;> simp only <;> ring
  · refine ⟨1, one_pos, ?_⟩
    simp only [hl, if_false, Point.scale, mul_one]

/-- The angle of two edges is the arccosine of a positive multiple of the scalar
product of the two edge vectors. -/
theorem angle_eq_arccos_scaled (a b c d : Point ℝ) :
    ∃ s : ℝ, 0 < s ∧ angle ⟨a, b⟩ ⟨c, d⟩ = Real.arccos (s * Vector.dot (b.sub a) (d.sub c)) := by
  obtain ⟨s1, h1, e1⟩ := Vector.normalize_eq_scale (b.sub a)
  obtain ⟨s2, h2, e2⟩ := Vector.normalize_eq_scale (d.sub c)
  have hb := Vector.normalize_dot_bounds (b.sub a) (d.sub c)
  refine ⟨s1 * s2, mul_pos h1 h2, ?_⟩
  unfold angle
  simp only
  rw [min_eq_right hb.2, max_eq_right hb.1, e1, e2]
  congr 1
  simp only [Vector.dot, Point.scale]
  ring

/-- Two edges with orthogonal vectors (one of them may have length zero) make
the angle `π / 2`. -/
theorem angle_of_dot_zero (a b c d : Point ℝ) (h : Vector.dot (b.sub a) (d.sub c) = 0) :
    angle ⟨a, b⟩ ⟨c, d⟩ = Real.pi / 2 := by
  obtain ⟨s, _, e⟩ := angle_eq_arccos_scaled a b c d
  rw [e, h, mul_zero, Real.arccos_zero]

/-- Two edges whose vectors have a non-positive scalar product make an angle of
at least `π / 2`. -/
theorem angle_of_dot_nonpos (a b c d : Point ℝ) (h : Vector.dot (b.sub a) (d.sub c) ≤ 0) :
    Real.pi / 2 ≤ angle ⟨a, b⟩ ⟨c, d⟩ := by
  obtain ⟨s, hs, e⟩ := angle_eq_arccos_scaled a b c d
  rw [e]
  by_contra hlt
  rw [not_le, Real.arccos_lt_pi_div_two] at hlt
  nlinarith

/-- Two edges whose vectors have a negative scalar product make an angle above
`π / 2`. -/
theorem angle_of_dot_neg (a b c d : Point ℝ) (h : Vector.dot (b.sub a) (d.sub c) < 0) :
    Real.pi / 2 < angle ⟨a, b⟩ ⟨c, d⟩ := by
  obtain ⟨s, hs, e⟩ := angle_eq_arccos_scaled a b c d
  rw [e]
  by_contra hle
  rw [not_lt, Real.arccos_le_pi_div_two] at hle
  nlinarith

end AngleSign

section AdjacencyClaims

/-- The four computed angles of the unit square `A` are `π / 2`. -/
theorem squareA_angles :
    quadAngle1 squareA.p1 squareA.p2 squareA.p3 squareA.p4 = Real.pi / 2 ∧
    quadAngle2 squareA.p1 squareA.p2 squareA.p3 squareA.p4 = Real.pi / 2 ∧
    quadAngle3 squareA.p1 squareA.p2 squareA.p3 squareA.p4 = Real.pi / 2 ∧
    quadAngle4 squareA.p1 squareA.p2 squareA.p3 squareA.p4 = Real.pi / 2 := by
  refine ⟨?_, ?_, ?_, ?_⟩ <;>
    exact angle_of_dot_zero _ _ _ _ (by simp [squareA, Vector.dot, Point.sub])

/-- C26 (what the code does). In the face holding the unit squares `A` (slot 0)
and `B` (slot 1), the smallest angle of `A` is found at vertex index `k = 0`
(all four are `π / 2`), and the search started from `A` returns `B` (offset 4),
which shares with `A` only the side from `p2` to `p3`, not a side at `p1`.  The
search started from `B` (slot 1, offset 4) returns offset 4, the popped quad
itself. -/
theorem neighbour_not_at_min_vertex :
    minAngle (quadAngle1 squareA.p1 squareA.p2 squareA.p3 squareA.p4)
      (quadAngle2 squareA.p1 squareA.p2 squareA.p3 squareA.p4)
      (quadAngle3 squareA.p1 squareA.p2 squareA.p3 squareA.p4)
      (quadAngle4 squareA.p1 squareA.p2 squareA.p3 squareA.p4) = (0, Real.pi / 2) ∧
    getQuad squarePair (4 * 0) = some squareA ∧
    findNeighbour squarePair 0 squareA = some (some 4) ∧
    getQuad squarePair 4 = some squareB ∧
    sharesEdgeAtVertex 0 squareA squareB = false ∧
    sharesEdgeAtVertex 1 squareA squareB = true ∧
    getQuad squarePair (4 * 1) = some squareB ∧
    findNeighbour squarePair 1 squareB = some (some 4) := by
  obtain ⟨h1, h2, h3, h4⟩ := squareA_angles
  refine ⟨?_, rfl, ?_, rfl, ?_, ?_, rfl, ?_⟩
  · rw [h1, h2, h3, h4]
    simp [minAngle]
  · simp [findNeighbour, neighbourLoop, getQuad, sharesEdge, squarePair, squareA,
      List.range_succ]
  · simp [sharesEdgeAtVertex, Corners.sidesAt, Corners.sides, squareA, squareB]
  · simp [sharesEdgeAtVertex, Corners.sidesAt, Corners.sides, squareA, squareB]
  · simp [findNeighbour, neighbourLoop, getQuad, sharesEdge, squarePair, squareB,
      List.range_succ]

end AdjacencyClaims

section ReconnectionExample

/-- The face of `swapBody` is the one the constructor builds on its points. -/
theorem swapFace_make : Face.make swapFace.points = some swapFace := by
  simp [Face.make, fitPlane, swapFace, Vector.cross, Vector.dot, Vector.neg, Point.sub]
  norm_num

/-- A quad whose four computed angles are positive has positive quality. -/
theorem quadQuality_pos (p1 p2 p3 p4 : Point ℝ)
    (h1 : 0 < quadAngle1 p1 p2 p3 p4) (h2 : 0 < quadAngle2 p1 p2 p3 p4)
    (h3 : 0 < quadAngle3 p1 p2 p3 p4) (h4 : 0 < quadAngle4 p1 p2 p3 p4) :
    0 < quadQuality p1 p2 p3 p4 := by
  unfold quadQuality qualityOfAngles
  exact div_pos (lt_min h1 (lt_min h2 (lt_min h3 h4))) (lt_of_lt_of_le h1 (le_max_left _ _))

/-- A quad in which the fourth edge continues the third has quality `0`. -/
theorem quadQuality_eq_zero_of_angle4 (p1 p2 p3 p4 : Point ℝ)
    (h : quadAngle4 p1 p2 p3 p4 = 0) : quadQuality p1 p2 p3 p4 = 0 := by
  unfold quadQuality qualityOfAngles
  rw [h]
  have g1 : 0 ≤ quadAngle1 p1 p2 p3 p4 := angle_nonneg _ _
  have g2 : 0 ≤ quadAngle2 p1 p2 p3 p4 := angle_nonneg _ _
  have g3 : 0 ≤ quadAngle3 p1 p2 p3 p4 := angle_nonneg _ _
  rw [min_eq_right g3, min_eq_right g2, min_eq_right g1]
  exact zero_div _

/-- The index of the smallest angle when the third is strictly below the first
two and not above the fourth. -/
theorem minAngle_third (a1 a2 a3 a4 : ℝ) (h1 : a3 < a1) (h2 : a3 < a2) (h4 : a3 ≤ a4) :
    minAngle a1 a2 a3 a4 = (2, a3) := by
  unfold minAngle
  by_cases h : a2 < a1
  · simp [h, h2, not_lt.mpr h4]
  · simp [h, h1, not_lt.mpr h4]

/-- The angles of `X`: above `π / 2` at `p1` and `p2`, `π / 2` at `p3`, `π` at
`p4`. -/
theorem quadX_angles :
    Real.pi / 2 < quadAngle1 quadX.p1 quadX.p2 quadX.p3 quadX.p4 ∧
    Real.pi / 2 < quadAngle2 quadX.p1 quadX.p2 quadX.p3 quadX.p4 ∧
    quadAngle3 quadX.p1 quadX.p2 quadX.p3 quadX.p4 = Real.pi / 2 ∧
    quadAngle4 quadX.p1 quadX.p2 quadX.p3 quadX.p4 = Real.pi := by
  refine ⟨?_, ?_, ?_, ?_⟩
  · exact angle_of_dot_neg _ _ _ _ (by norm_num [quadX, Vector.dot, Point.sub])
  · exact angle_of_dot_neg _ _ _ _ (by norm_num [quadX, Vector.dot, Point.sub])
  · exact angle_of_dot_zero _ _ _ _ (by norm_num [quadX, Vector.dot, Point.sub])
  · have n1 := Vector.normalize_of_length (⟨0, -12, 0⟩ : Vector ℝ) 12 (by norm_num)
      (by norm_num)
    have n2 := Vector.normalize_of_length (⟨0, 3, 0⟩ : Vector ℝ) 3 (by norm_num) (by norm_num)
    unfold quadAngle4
    rw [angle_eq_arccos _ _ _ _ (-1) (by norm_num) (by norm_num), Real.arccos_neg_one]
    norm_num [quadX, Point.sub, n1, n2, Vector.dot]

/-- The quality of `X` is `1 / 2`. -/
theorem quadX_quality : quadX.quality = 1 / 2 := by
  obtain ⟨h1, h2, h3, h4⟩ := quadX_angles
  have g1 : quadAngle1 quadX.p1 quadX.p2 quadX.p3 quadX.p4 ≤ Real.pi := angle_le_pi _ _
  have g2 : quadAngle2 quadX.p1 quadX.p2 quadX.p3 quadX.p4 ≤ Real.pi := angle_le_pi _ _
  have hpi := Real.pi_pos
  unfold Corners.quality quadQuality qualityOfAngles
  rw [h3, h4, min_eq_left (by linarith : Real.pi / 2 ≤ Real.pi),
    min_eq_right (le_of_lt h2), min_eq_right (le_of_lt h1),
    max_eq_right (by linarith : Real.pi / 2 ≤ Real.pi), max_eq_right g2, max_eq_right g1]
  field_simp
  ring

/-- The angles of `Y`: at least `π / 2` at `q2`, `π / 2` at `q3`, `0` at `q4`. -/
theorem quadY_angles :
    Real.pi / 2 ≤ quadAngle2 quadY.p1 quadY.p2 quadY.p3 quadY.p4 ∧
    quadAngle3 quadY.p1 quadY.p2 quadY.p3 quadY.p4 = Real.pi / 2 ∧
    quadAngle4 quadY.p1 quadY.p2 quadY.p3 quadY.p4 = 0 := by
  refine ⟨?_, ?_, ?_⟩
  · exact angle_of_dot_nonpos _ _ _ _ (by norm_num [quadY, Vector.dot, Point.sub])
  · exact angle_of_dot_zero _ _ _ _ (by norm_num [quadY, Vector.dot, Point.sub])
  · have n1 := Vector.normalize_of_length (⟨-12, 0, 0⟩ : Vector ℝ) 12 (by norm_num)
      (by norm_num)
    have n2 := Vector.normalize_of_length (⟨-4, 0, 0⟩ : Vector ℝ) 4 (by norm_num)
      (by norm_num)
    unfold quadAngle4
    rw [angle_eq_arccos _ _ _ _ 1 (by norm_num) (by norm_num), Real.arccos_one]
    norm_num [quadY, Point.sub, n1, n2, Vector.dot]

/-- The quality of `Y` is `0`. -/
theorem quadY_quality : quadY.quality = 0 :=
  quadQuality_eq_zero_of_angle4 _ _ _ _ quadY_angles.2.2

/-- The quality of `Y` after the exchange is positive. -/
theorem quadYAfter_quality : 0 < quadYAfter.quality := by
  have hpi := Real.pi_pos
  have h1 : quadAngle1 quadYAfter.p1 quadYAfter.p2 quadYAfter.p3 quadYAfter.p4 = Real.pi / 2 :=
    angle_of_dot_zero _ _ _ _ (by norm_num [quadYAfter, Vector.dot, Point.sub])
  have h2 : Real.pi / 2 ≤ quadAngle2 quadYAfter.p1 quadYAfter.p2 quadYAfter.p3 quadYAfter.p4 :=
    angle_of_dot_nonpos _ _ _ _ (by norm_num [quadYAfter, Vector.dot, Point.sub])
  have h3 : quadAngle3 quadYAfter.p1 quadYAfter.p2 quadYAfter.p3 quadYAfter.p4 = Real.pi / 2 :=
    angle_of_dot_zero _ _ _ _ (by norm_num [quadYAfter, Vector.dot, Point.sub])
  have h4 : quadAngle4 quadYAfter.p1 quadYAfter.p2 quadYAfter.p3 quadYAfter.p4 = Real.pi / 2 :=
    angle_of_dot_zero _ _ _ _ (by norm_num [quadYAfter, Vector.dot, Point.sub])
  exact quadQuality_pos _ _ _ _ (by linarith) (by linarith) (by linarith) (by linarith)

/-- The initial qualities of `swapBody`. -/
theorem swapBody_quality : initialQuality swapBody = some [1 / 2, 0] := by
  have hx := quadX_quality
  have hy := quadY_quality
  simp only [Corners.quality, quadX, quadY] at hx hy
  simp [initialQuality, swapBody, swapFace, faceQualities, hx, hy]

end ReconnectionExample

section ReconnectionForward

/-- The recomputation after an exchange, when both quads can be read. -/
theorem requeue_eq (s : MeshState) (q r : ℝ) (i f j l : Nat) (face : Face ℝ)
    (pts : List (Point ℝ)) (p n : Corners ℝ)
    (hp : getQuad pts (4 * j) = some p) (hn : getQuad pts l = some n) :
    requeue s q r i f j l face pts =
      some { body := s.body.setPoints f face pts,
             pq := if n.quality > r then
                 (n.quality, l) :: (if p.quality > q then (p.quality, i) :: s.pq else s.pq)
               else (if p.quality > q then (p.quality, i) :: s.pq else s.pq),
             a1 := quadAngle1 p.p1 p.p2 p.p3 p.p4, a2 := quadAngle2 p.p1 p.p2 p.p3 p.p4,
             a3 := quadAngle3 p.p1 p.p2 p.p3 p.p4, a4 := quadAngle4 p.p1 p.p2 p.p3 p.p4 } := by
  unfold requeue
  rw [hp, hn]
  rfl

/-- The reconnection branch when a neighbour is found and the swap condition of
the code holds: the exchange is done and the recomputation follows. -/
theorem reconnectionBranch_commit (s : MeshState) (q : ℝ) (i f j l : Nat) (face : Face ℝ)
    (p n : Corners ℝ) (pts : List (Point ℝ))
    (hf : s.body.faces[f]? = some face) (hp : getQuad face.points (4 * j) = some p)
    (hfind : findNeighbour face.points j p = some (some l))
    (hn : getQuad face.points l = some n)
    (hcond : (minAngle s.a1 s.a2 s.a3 s.a4).2 +
      swapAngle (minAngle s.a1 s.a2 s.a3 s.a4).1 n < Real.pi)
    (hex : exchange (minAngle s.a1 s.a2 s.a3 s.a4).1 face.points j l = some pts) :
    reconnectionBranch s q i f j = requeue s q n.quality i f j l face pts := by
  unfold reconnectionBranch
  rw [hf]
  simp only [Option.bind_eq_bind, Option.some_bind]
  rw [hp]
  simp only [Option.some_bind]
  rw [hfind]
  simp only [Option.some_bind]
  rw [hn]
  simp only [Option.some_bind, if_pos hcond]
  rw [hex]
  simp only [Option.some_bind, requeueCase3]
  split <;> rfl

/-- An iteration that pops a quad classified concave and not convex runs the
reconnection branch on the popped state. -/
theorem step_concave (s : MeshState) (top : ℝ × Nat) (face0 face : Face ℝ) (c : Corners ℝ)
    (htop : pqTop s.pq = some top) (h0 : s.body.faces[0]? = some face0)
    (hnq : face0.points.length / 4 ≠ 0)
    (hf : s.body.faces[top.2 / (face0.points.length / 4)]? = some face)
    (hc : getQuad face.points (4 * (top.2 % (face0.points.length / 4))) = some c)
    (hcls : classify face.pl c = (false, true)) :
    step s = reconnectionBranch { s with pq := pqPop s.pq } top.1 top.2
      (top.2 / (face0.points.length / 4)) (top.2 % (face0.points.length / 4)) := by
  unfold step
  rw [htop]
  simp only [Option.bind_eq_bind, Option.some_bind]
  rw [h0]
  simp only [Option.some_bind, if_neg hnq]
  rw [hf]
  simp only [Option.some_bind]
  rw [hc]
  simp only [Option.some_bind, hcls, Bool.false_eq_true, if_false, if_true]

end ReconnectionForward

section ReconnectionRun

/-- One iteration from `swapState`: the entry `(1/2, 0)` of `X` is popped, `X` is
classified concave, its smallest angle is at index `k = 2`, the neighbour `Y` is
found at offset 4, the swap condition of case 2 holds, the exchange is done and
the entry `(r_new, 4)` is pushed for `Y`. -/
theorem swapState_step :
    loopCond swapState = true ∧
    minAngle swapState.a1 swapState.a2 swapState.a3 swapState.a4 = (2, Real.pi / 2) ∧
    findNeighbour swapFace.points 0 quadX = some (some 4) ∧
    ∃ s', step swapState = some s' ∧ s'.body = swapBodyAfter ∧
      (quadYAfter.quality, 4) ∈ s'.pq := by
  obtain ⟨a1, a2, a3, a4⟩ := quadX_angles
  obtain ⟨b2, b3, b4⟩ := quadY_angles
  have hpi := Real.pi_pos
  have htop : pqTop swapState.pq = some (1 / 2, 0) := by
    simp [swapState, initialQueue, List.range_succ, pqTop, pairLt]
  have hcond : loopCond swapState = true := by
    unfold loopCond
    rw [htop]
    simp only [threshold, decide_eq_true_eq]
    norm_num
  have hkm : minAngle swapState.a1 swapState.a2 swapState.a3 swapState.a4 =
      (2, Real.pi / 2) := by
    have e := minAngle_third swapState.a1 swapState.a2 swapState.a3 swapState.a4
      (by simp only [swapState]; linarith) (by simp only [swapState]; linarith)
      (by simp only [swapState]; linarith)
    rw [e]
    simp only [swapState, a3]
  have hfind : findNeighbour swapFace.points 0 quadX = some (some 4) := by
    simp [findNeighbour, neighbourLoop, getQuad, sharesEdge, swapFace, quadX, List.range_succ]
  have hcls : classify swapFace.pl quadX = (false, true) := by
    simp only [classify, swapFace, quadX, Plane.normal, Vector.cross, Vector.dot, Point.sub]
    norm_num
  have hswap : swapAngle 2 quadY = 0 := by
    unfold swapAngle
    simp only
    rw [b4]
    exact min_eq_left (angle_nonneg _ _)
  have hrec := reconnectionBranch_commit { swapState with pq := pqPop swapState.pq }
    (1 / 2) 0 0 0 4 swapFace quadX quadY
    [⟨15, -5, 0⟩, ⟨3, 4, 0⟩, ⟨15, 4, 0⟩, ⟨3, 4, 0⟩,
      ⟨15, 4, 0⟩, ⟨19, 16, 0⟩, ⟨19, 4, 0⟩, ⟨15, 4, 0⟩]
    rfl rfl hfind rfl
    (by
      show (minAngle swapState.a1 swapState.a2 swapState.a3 swapState.a4).2 +
        swapAngle (minAngle swapState.a1 swapState.a2 swapState.a3 swapState.a4).1 quadY <
          Real.pi
      rw [hkm]
      simp only [hswap]
      linarith)
    (by
      show exchange (minAngle swapState.a1 swapState.a2 swapState.a3 swapState.a4).1
        swapFace.points 0 4 = _
      rw [hkm]
      rfl)
  have hst := step_concave swapState (1 / 2, 0) swapFace swapFace quadX htop rfl
    (by simp [swapFace]) rfl rfl hcls
  have hrq := requeue_eq { swapState with pq := pqPop swapState.pq } (1 / 2) quadY.quality
    0 0 0 4 swapFace
    [⟨15, -5, 0⟩, ⟨3, 4, 0⟩, ⟨15, 4, 0⟩, ⟨3, 4, 0⟩,
      ⟨15, 4, 0⟩, ⟨19, 16, 0⟩, ⟨19, 4, 0⟩, ⟨15, 4, 0⟩] quadXAfter quadYAfter rfl rfl
  have hr : quadYAfter.quality > quadY.quality := by
    rw [quadY_quality]
    exact quadYAfter_quality
  rw [if_pos hr] at hrq
  have e0 : (0 : Nat) / (swapFace.points.length / 4) = 0 := by simp
  have e1 : (0 : Nat) % (swapFace.points.length / 4) = 0 := by simp
  simp only [e0, e1] at hst
  refine ⟨hcond, hkm, hfind, _, hst.trans (hrec.trans hrq), rfl, List.mem_cons_self _ _⟩

end ReconnectionRun

section ReconnectionClaims

/-- C24 (what the code does). The body `swapBody` holds two quads, of global
indices 0 (`X`) and 1 (`Y`).  The first iteration from the state of the
initialisation pops the entry of `X`, exchanges a vertex with the neighbour `Y`
and pushes for `Y` the entry `(r_new, 4)`: `r_new` is the quality of the quad at
point offset 4 (slot 1, global index 1) of the new body, and `4` is that point
offset, not a quad index (`4 ≥ 2`); resolved as an index it names face 2, which
does not exist. -/
theorem neighbour_entry_carries_offset :
    initialQuality swapBody = some [1 / 2, 0] ∧
    swapState.pq = initialQueue [1 / 2, 0] ∧
    loopCond swapState = true ∧
    ∃ s' r, step swapState = some s' ∧ s'.body = swapBodyAfter ∧
      (r, 4) ∈ s'.pq ∧ (r, 4) ∉ swapState.pq ∧
      swapBodyAfter.qualityAt 0 (4 * 1) = some r ∧
      resolveIndex swapBodyAfter 4 = some (2, 0) ∧ swapBodyAfter.faces[2]? = none := by
  obtain ⟨hcond, -, -, s', hs, hb, hmem⟩ := swapState_step
  refine ⟨swapBody_quality, rfl, hcond, s', quadYAfter.quality, hs, hb, hmem, ?_, rfl, ?_, ?_⟩
  · simp [swapState, initialQueue, List.range_succ]
  · simp [resolveIndex, swapBodyAfter]
  · simp [swapBodyAfter]

/-- C25 (what the code does). In `swapBody` the smallest angle of the popped quad
`X` is at index `k = 2` with `a_min = π / 2`, and the neighbour found is `Y`,
whose side from `q4` to `q1` is the side of `X` from `p3` to `p2`; the vertices
of `Y` off the shared side are `q2` and `q3`, with angles `b2 ≥ π / 2` and
`b3 = π / 2`, so `a_min + min(b2, b3) < π` is false.  The code tests
`a_min + min(b4, b1)` with `b4 = 0` and commits the exchange. -/
theorem swap_condition_not_far_angles :
    minAngle swapState.a1 swapState.a2 swapState.a3 swapState.a4 = (2, Real.pi / 2) ∧
    getQuad swapFace.points (4 * 0) = some quadX ∧
    findNeighbour swapFace.points 0 quadX = some (some 4) ∧
    getQuad swapFace.points 4 = some quadY ∧
    (quadY.p4 = quadX.p3 ∧ quadY.p1 = quadX.p2) ∧
    ¬ (Real.pi / 2 + min (quadAngle2 quadY.p1 quadY.p2 quadY.p3 quadY.p4)
        (quadAngle3 quadY.p1 quadY.p2 quadY.p3 quadY.p4) < Real.pi) ∧
    Real.pi / 2 + swapAngle 2 quadY < Real.pi ∧
    ∃ s', step swapState = some s' ∧ s'.body = swapBodyAfter ∧ s'.body ≠ swapState.body := by
  obtain ⟨-, hkm, hfind, s', hs, hb, -⟩ := swapState_step
  obtain ⟨b2, b3, b4⟩ := quadY_angles
  have hpi := Real.pi_pos
  refine ⟨hkm, rfl, hfind, rfl, ⟨rfl, rfl⟩, ?_, ?_, s', hs, hb, ?_⟩
  · rw [b3, min_eq_right b2]
    linarith
  · have hswap : swapAngle 2 quadY = 0 := by
      unfold swapAngle
      simp only
      rw [b4]
      exact min_eq_left (angle_nonneg _ _)
    rw [hswap]
    linarith
  · rw [hb]
    intro h
    have h3 := congrArg (fun b : Body ℝ => (b.faces.map fun f => f.points[3]?)) h
    simp [swapBodyAfter, swapState, swapBody, swapFace] at h3

end ReconnectionClaims

section ReadIgesClaims

variable {K : Type} [LinearOrderedField K]

/-- A line whose first eight characters are `"128     "` starts with `1`. -/
theorem firstChar_of_entityType (line : String) (h : entityType line = "128     ") :
    firstChar line = '1' := by
  have hd := congrArg String.data h
  simp only [entityType] at hd
  unfold firstChar
  cases hl : line.data with
  | nil => rw [hl] at hd; simp at hd
  | cons c cs =>
    rw [hl] at hd
    simp at hd
    simp [hd.1]

/-- The loop of `read_iges` never enters the block of a surface: it returns the
body it was started with. -/
theorem read_iges_loop_eq (extract : List String → Option (Patch K × Nat))
    (lines : List String) (skip : Nat) (body : Body K) :
    read_iges_loop extract lines skip body = some body := by
  induction lines generalizing skip with
  | nil => cases skip <;> rfl
  | cons line rest ih =>
    cases skip with
    | succ skip => exact ih skip
    | zero =>
      unfold read_iges_loop
      by_cases hP : firstChar line = 'P'
      · have hne : ¬ entityType line = "128     " := by
          intro h
          have h1 := firstChar_of_entityType line h
          rw [hP] at h1
          exact absurd h1 (by decide)
        simp only [hP, hne, if_false, if_true, ih 0]
        split_ifs <;> rfl
      · simp only [hP, if_false, ih 0]
        split_ifs <;> rfl

end ReadIgesClaims

section ReadIgesResult

variable {K : Type} [LinearOrderedField K]

/-- C19 (what the code does). The block of `read_iges` that builds the face of a
B-spline surface is entered for a line whose first character is `P` and whose
first eight characters are `"128     "`, that is, whose first character is `1`:
for no line.  Whatever the lines of the file and whatever the extraction of the
parameters would yield, `read_iges` returns a body without faces, so no face of
`4 * n * n` points is built for any patch. -/
theorem read_iges_builds_no_face :
    (∀ (extract : List String → Option (Patch K × Nat)) (lines : List String),
      read_iges extract lines = some ⟨[]⟩) ∧
    (∀ line : String, firstChar line = 'P' → entityType line ≠ "128     ") ∧
    (firstChar "128     1 1 2 2 4 4 0 0 0 0" = '1' ∧
      entityType "128     1 1 2 2 4 4 0 0 0 0" = "128     ") ∧
    (firstChar "P128     1 1 2 2 4 4 0 0 0 0" = 'P' ∧
      entityType "P128     1 1 2 2 4 4 0 0 0 0" = "P128    ") := by
  refine ⟨fun extract lines => read_iges_loop_eq extract lines 0 ⟨[]⟩, fun line hP h => ?_,
    ⟨by decide, by decide⟩, ⟨by decide, by decide⟩⟩
  have h1 := firstChar_of_entityType line h
  rw [hP] at h1
  exact absurd h1 (by decide)

end ReadIgesResult

end QM
